import Mathlib

/-!
Verification of the sfvjs structured-field-values codec (src/mod.ts).

The TypeScript module is shallowly embedded as follows:
* JS numbers are modelled as exact rationals (ℚ); the module only ever
  builds numbers from decimal digit strings and divisions by powers of 10,
  so every number occurring in the code paths under study is an exact
  decimal rational.  NaN is unrepresentable in ℚ: the NaN branches of the
  constructors are consequently vacuous in the embedding.
* Throwing functions return Except Err; Err records the runtime error
  class (TypeError, RangeError, SyntaxError, InvalidCharacterError) and
  the message.  The source formats the cursor position into the
  "unexpected character" message; the embedding drops the position digits
  and keeps the constant prefix.
* JS Map (insertion-ordered, update-in-place) is modelled as an
  association list with the listSet update operation.
* Uint8Array is a List Nat of byte values; Date is its millisecond
  timestamp (Int); JS strings are Lean Strings (code-point lists).
* The decoder state (input array of code points plus cursor) is modelled
  by passing the remaining list of code points; each parsing method maps
  the remainder to a result together with the new remainder.
-/

-- Rat.mul and friends are [irreducible], which blocks elaborator-side
-- evaluation in decide; re-enable it so concrete rational computations
-- can be checked by the kernel (which reduces them fine).
attribute [local semireducible] Rat.mul Rat.add Rat.sub Rat.inv

/-- Runtime error classes thrown by mod.ts (TypeError, RangeError,
SyntaxError from the decoder, and InvalidCharacterError from atob). -/
inductive ErrKind
  | type
  | range
  | syn
  | invalidChar
  deriving DecidableEq, Repr

/-- A thrown error: its class and its message. -/
structure Err where
  kind : ErrKind
  msg : String
  deriving DecidableEq, Repr

instance instDecEqExcept {ε α : Type} [DecidableEq ε] [DecidableEq α] :
    DecidableEq (Except ε α) := fun a b =>
  match a, b with
  | .error e1, .error e2 =>
    if h : e1 = e2 then isTrue (by rw [h])
    else isFalse (fun hh => by cases hh; exact h rfl)
  | .ok a1, .ok a2 =>
    if h : a1 = a2 then isTrue (by rw [h])
    else isFalse (fun hh => by cases hh; exact h rfl)
  | .error _, .ok _ => isFalse (fun hh => by cases hh)
  | .ok _, .error _ => isFalse (fun hh => by cases hh)

/-! ### Character classes used by the regexes in mod.ts -/

def quoteChar : Char := Char.ofNat 34

def backslashChar : Char := Char.ofNat 92

/-- The regex /^[0-9]$/ (function isDigit in mod.ts). -/
def isDigit (c : Char) : Bool := 0x30 ≤ c.toNat && c.toNat ≤ 0x39

def isLowerCh (c : Char) : Bool := 0x61 ≤ c.toNat && c.toNat ≤ 0x7a

def isUpperCh (c : Char) : Bool := 0x41 ≤ c.toNat && c.toNat ≤ 0x5a

def isAlphaCh (c : Char) : Bool := isLowerCh c || isUpperCh c

/-- The character class [\x20-\x7e] (printable ASCII). -/
def isPrintable (c : Char) : Bool := 0x20 ≤ c.toNat && c.toNat ≤ 0x7e

/-- Head of the key regex /^[a-z*][-a-z0-9-_.*]*$/ in validateKey. -/
def keyStartOk (c : Char) : Bool := isLowerCh c || c = '*'

/-- Tail class [-a-z0-9-_.*] of the validateKey regex. -/
def keyTailOk (c : Char) : Bool :=
  isLowerCh c || c = '*' || isDigit c || c = '-' || c = '_' || c = '.'

/-- Head class [a-zA-Z*] of the token regex (validateToken) and of the
key/token dispatch checks in the decoder. -/
def tokenStartOk (c : Char) : Bool := isAlphaCh c || c = '*'

/-- Tail class of the token regex: [-0-9a-zA-Z!#$%&'*+.^_\x60|~:/]
(the codes below are ! # $ % & apostrophe * + . / : ^ _ backtick | ~). -/
def tokenTailOk (c : Char) : Bool :=
  isAlphaCh c || isDigit c || c = '-' ||
    c.toNat ∈ [33, 35, 36, 37, 38, 39, 42, 43, 46, 47, 58, 94, 95, 96, 124, 126]

/-- Tail class [-a-zA-Z0-9_.*] of the key-collecting loop in
DecodeState.decodeKey (note: unlike validateKey it admits uppercase). -/
def decodeKeyTailOk (c : Char) : Bool :=
  isAlphaCh c || isDigit c || c = '-' || c = '_' || c = '.' || c = '*'

/-! ### Decimal digit strings (JS template-literal rendering of integers) -/

def digitChar (n : Nat) : Char := Char.ofNat (0x30 + n)

def digitVal (c : Char) : Nat := c.toNat - 0x30

/-- Fuel-driven digit emitter (structural recursion keeps it
kernel-computable); the fuel never runs out when it starts at n. -/
def natDigitsAux : Nat → Nat → List Char
  | 0, n => [digitChar n]
  | fuel + 1, n =>
    if n < 10 then [digitChar n]
    else natDigitsAux fuel (n / 10) ++ [digitChar (n % 10)]

/-- Decimal digit list of a natural number, most significant first
(the rendering used by JS template literals for safe integers). -/
def natDigits (n : Nat) : List Char := natDigitsAux n n

theorem natDigitsAux_eq_of_lt : ∀ (fuel fuel' n : Nat), n < 10 ^ (fuel + 1) →
    n < 10 ^ (fuel' + 1) → natDigitsAux fuel n = natDigitsAux fuel' n := by
  intro fuel
  induction fuel with
  | zero =>
    intro fuel' n h h'
    have h10 : n < 10 := by simpa using h
    cases fuel' with
    | zero => rfl
    | succ f => simp [natDigitsAux, h10]
  | succ f ih =>
    intro fuel' n h h'
    cases fuel' with
    | zero =>
      have h10 : n < 10 := by simpa using h'
      simp [natDigitsAux, h10]
    | succ f' =>
      simp only [natDigitsAux]
      split
      · rfl
      · rename_i hge
        have hd : n / 10 < 10 ^ (f + 1) := by
          rw [Nat.div_lt_iff_lt_mul (by omega)]
          calc n < 10 ^ (f + 1 + 1) := h
            _ = 10 ^ (f + 1) * 10 := by ring
        have hd' : n / 10 < 10 ^ (f' + 1) := by
          rw [Nat.div_lt_iff_lt_mul (by omega)]
          calc n < 10 ^ (f' + 1 + 1) := h'
            _ = 10 ^ (f' + 1) * 10 := by ring
        rw [ih f' (n / 10) hd hd']

theorem lt_ten_pow_succ (n : Nat) : n < 10 ^ (n + 1) := by
  calc n < 2 ^ n := Nat.lt_two_pow n
    _ ≤ 10 ^ n := Nat.pow_le_pow_left (by omega) n
    _ ≤ 10 ^ (n + 1) := Nat.pow_le_pow_right (by omega) (by omega)

/-- The defining recurrence of natDigits, independent of fuel. -/
theorem natDigits_eq (n : Nat) : natDigits n =
    if n < 10 then [digitChar n] else natDigits (n / 10) ++ [digitChar (n % 10)] := by
  unfold natDigits
  cases hn : n with
  | zero => simp [natDigitsAux]
  | succ m =>
    simp only [natDigitsAux]
    split
    · rfl
    · rename_i hge
      congr 1
      apply natDigitsAux_eq_of_lt
      · have h1 : m + 1 < 10 ^ (m + 1 + 1) := lt_ten_pow_succ (m + 1)
        rw [Nat.div_lt_iff_lt_mul (by omega)]
        calc m + 1 < 10 ^ (m + 2) := h1
          _ = 10 ^ (m + 1) * 10 := by ring
      · exact lt_ten_pow_succ _

def natToString (n : Nat) : String := String.mk (natDigits n)

def intToString (i : Int) : String :=
  if i < 0 then "-" ++ natToString i.natAbs else natToString i.natAbs

/-! ### Key / string / token validation (validateKey, validateString,
validateToken in mod.ts) -/

def validKey (s : String) : Bool :=
  match s.data with
  | [] => false
  | c :: rest => keyStartOk c && rest.all keyTailOk

/-- validateKey: throws TypeError unless the key matches
/^[a-z*][-a-z0-9-_.*]*$/. -/
def validateKey (key : String) : Except Err Unit :=
  if validKey key then .ok () else .error ⟨.type, "key contains invalid characters"⟩

def validString (s : String) : Bool := s.data.all isPrintable

/-- validateString: throws TypeError unless the string matches
/^[\x20-\x7e]*$/. -/
def validateString (value : String) : Except Err Unit :=
  if validString value then .ok () else .error ⟨.type, "string contains invalid characters"⟩

def validToken (s : String) : Bool :=
  match s.data with
  | [] => false
  | c :: rest => tokenStartOk c && rest.all tokenTailOk

/-- validateToken: throws TypeError unless the value matches the token
regex. -/
def validateToken (value : String) : Except Err Unit :=
  if validToken value then .ok () else .error ⟨.type, "token contains invalid characters"⟩

/-! ### Integer (RFC 8941 Section 3.3.1) -/

structure Integer where
  val : Int
  deriving DecidableEq, Repr

namespace Integer

def MAX_VALUE : Int := 999999999999999

def MIN_VALUE : Int := -999999999999999

/-- The Integer constructor.  The argument is the JS number (exact
rational in the embedding); the NaN check cannot fire on ℚ. -/
def make (value : ℚ) : Except Err Integer :=
  if value.den ≠ 1 then .error ⟨.type, "value must be an integer"⟩
  else if value < (MIN_VALUE : ℚ) ∨ (MAX_VALUE : ℚ) < value then
    .error ⟨.range, "value must be between -999999999999999 and 999999999999999"⟩
  else .ok ⟨value.num⟩

def toStr (i : Integer) : String := intToString i.val

end Integer

/-! ### Decimal (RFC 8941 Section 3.3.2) -/

/-- Math.round: round half toward positive infinity. -/
def jsRound (q : ℚ) : Int := ⌊q + 1 / 2⌋

/-- roundToEven in mod.ts: exact halves round to even, everything else
through Math.round. -/
def roundToEven (q : ℚ) : Int :=
  let f := ⌊q⌋
  if q - f = 1 / 2 then (if f % 2 = 0 then f else f + 1) else jsRound q

/-- The Decimal class.  The constructor computes
i = roundToEven(value * 1000) and then derives both stored fields (the
canonical string and the re-parsed numeric value) from i, so the
embedding stores i alone; str and val below recompute the two fields.
(The source stores value = parseFloat(str); the embedding reads the
rendered string back exactly, which agrees up to the 3-fractional-digit
precision the format carries.) -/
structure Decimal where
  i : Int
  deriving DecidableEq, Repr

namespace Decimal

/-- 999999999999.9993896484375 (an exact binary double in the source). -/
def MAX_VALUE : ℚ := 9999999999999993896484375 / 10000000000000

def MIN_VALUE : ℚ := -MAX_VALUE

/-- The Decimal constructor (NaN check vacuous on ℚ). -/
def make (value : ℚ) : Except Err Decimal :=
  if value < MIN_VALUE ∨ MAX_VALUE < value then
    .error ⟨.range, "value must be between -999999999999.999 and 999999999999.999"⟩
  else .ok ⟨roundToEven (value * 1000)⟩

/-- The fractional component loop of Decimal.floatToString: emit the
thousandths digits of f (f < 1000), trimming trailing zeros but always
emitting the first digit. -/
def fracDigits (f : Nat) : List Char :=
  let d1 := digitChar (f / 100)
  let r1 := f % 100
  if r1 = 0 then [d1]
  else
    let d2 := digitChar (r1 / 10)
    let r2 := r1 % 10
    if r2 = 0 then [d1, d2] else [d1, d2, digitChar r2]

/-- Decimal.floatToString applied to the already-rounded i. -/
def str (d : Decimal) : String :=
  (if d.i < 0 then "-" else "") ++ natToString (d.i.natAbs / 1000) ++ "." ++
    String.mk (fracDigits (d.i.natAbs % 1000))

/-- The stored numeric value (exact reading of the canonical string). -/
def val (d : Decimal) : ℚ := (d.i : ℚ) / 1000

end Decimal

/-! ### Token (RFC 8941 Section 3.3.4) -/

structure Token where
  val : String
  deriving DecidableEq, Repr

/-- The Token constructor (validates). -/
def Token.make (value : String) : Except Err Token := do
  validateToken value
  .ok ⟨value⟩

def Token.toStr (t : Token) : String := t.val

/-! ### BareItem, Parameters, Item, InnerList, Dictionary -/

/-- The BareItem union type of mod.ts:
Integer | Decimal | string | Token | Uint8Array | boolean | Date |
DisplayString. -/
inductive BareItem
  | int (i : Integer)
  | dec (d : Decimal)
  | str (s : String)
  | tok (t : Token)
  | bytes (b : List Nat)
  | bool (b : Bool)
  | date (ms : Int)
  | disp (s : String)
  deriving DecidableEq, Repr

/-- JS Map.set semantics on an insertion-ordered association list:
update in place when the key is present, append otherwise. -/
def listSet {α : Type} (l : List (String × α)) (key : String) (value : α) :
    List (String × α) :=
  if l.any (fun p => p.1 = key) then
    l.map (fun p => if p.1 = key then (key, value) else p)
  else l ++ [(key, value)]

/-- Parameters: an insertion-ordered key-unique map of bare items. -/
structure Parameters where
  entries : List (String × BareItem)
  deriving DecidableEq, Repr

namespace Parameters

def empty : Parameters := ⟨[]⟩

/-- Parameters.set: validates the key (TypeError on violation), then
JS-Map insertion/update. -/
def set (p : Parameters) (key : String) (value : BareItem) :
    Except Err Parameters := do
  validateKey key
  .ok ⟨listSet p.entries key value⟩

def get (p : Parameters) (key : String) : Option BareItem :=
  (p.entries.find? (fun e => e.1 = key)).map (fun e => e.2)

def size (p : Parameters) : Nat := p.entries.length

end Parameters

/-- Item: a bare item plus parameters.  Mirrors the Item constructor,
which stores both fields without any validation. -/
structure Item where
  val : BareItem
  params : Parameters
  deriving DecidableEq, Repr

/-- The Item constructor: no validation is performed. -/
def Item.make (value : BareItem) (params : Parameters) : Item := ⟨value, params⟩

/-- The Item value setter: validates strings (only) before storing. -/
def Item.setValue (it : Item) (value : BareItem) : Except Err Item :=
  match value with
  | .str s => do
      validateString s
      .ok { it with val := .str s }
  | v => .ok { it with val := v }

structure InnerList where
  items : List Item
  parameters : Parameters
  deriving DecidableEq, Repr

/-- A member of a List or a Dictionary entry value: Item | InnerList. -/
inductive Member
  | item (i : Item)
  | inner (l : InnerList)
  deriving DecidableEq, Repr

/-- Dictionary: an insertion-ordered key-unique map of members. -/
structure Dictionary where
  entries : List (String × Member)
  deriving DecidableEq, Repr

namespace Dictionary

def empty : Dictionary := ⟨[]⟩

/-- Dictionary.set: validates the key (TypeError on violation), then
JS-Map insertion/update. -/
def set (d : Dictionary) (key : String) (value : Member) :
    Except Err Dictionary := do
  validateKey key
  .ok ⟨listSet d.entries key value⟩

def get (d : Dictionary) (key : String) : Option Member :=
  (d.entries.find? (fun e => e.1 = key)).map (fun e => e.2)

def size (d : Dictionary) : Nat := d.entries.length

end Dictionary

/-! ### base64 (btoa) -/

def b64Chars : List Char :=
  "ABCDEFGHIJKLMNOPQRSTUVWXYZabcdefghijklmnopqrstuvwxyz0123456789+/".data

def b64Char (n : Nat) : Char := b64Chars.getD n 'A'

/-- btoa over a byte list: standard base64 with padding. -/
def btoa : List Nat → List Char
  | [] => []
  | [a] => [b64Char (a / 4), b64Char (a % 4 * 16), '=', '=']
  | [a, b] => [b64Char (a / 4), b64Char (a % 4 * 16 + b / 16), b64Char (b % 16 * 4), '=']
  | a :: b :: c :: rest =>
      b64Char (a / 4) :: b64Char (a % 4 * 16 + b / 16) ::
        b64Char (b % 16 * 4 + c / 64) :: b64Char (c % 64) :: btoa rest

/-! ### Encoding (serialization) -/

/-- encodeKey: validate, then emit the key verbatim. -/
def encodeKey (key : String) : Except Err String := do
  validateKey key
  .ok key

/-- The string-escaping in encodeBareItem: value.replace of backslash
and double quote by their backslash-prefixed forms. -/
def escapeStringChars : List Char → List Char
  | [] => []
  | c :: rest =>
      (if c = backslashChar ∨ c = quoteChar then [backslashChar, c] else [c]) ++
        escapeStringChars rest

/-- encodeBareItem (RFC 8941 Section 4.1.3.1).  The branch order mirrors
the source: Integer, Decimal, string, Token, Uint8Array, boolean, Date,
and finally the unsupported-value fallthrough (which is what a
DisplayString value reaches: the source has no DisplayString branch). -/
def encodeBareItem : BareItem → Except Err String
  | .int i => .ok i.toStr
  | .dec d => .ok d.str
  | .str s => do
      validateString s
      .ok (String.mk (quoteChar :: (escapeStringChars s.data ++ [quoteChar])))
  | .tok t => .ok t.toStr
  | .bytes b => .ok (String.mk (':' :: (btoa b ++ [':'])))
  | .bool b => .ok (if b then "?1" else "?0")
  | .date ms => .ok ("@" ++ intToString (Int.fdiv ms 1000))
  | .disp _ => .error ⟨.type, "unsupported value type"⟩

/-- The serialization loop of Parameters.toString: for each entry emit
";" and the key, and "=" plus the bare item unless the value is exactly
boolean true. -/
def paramsToStr : List (String × BareItem) → Except Err String
  | [] => .ok ""
  | e :: rest => do
      let k ← encodeKey e.1
      let head ←
        match e.2 with
        | .bool true => pure (";" ++ k)
        | v => do
            let s ← encodeBareItem v
            pure (";" ++ k ++ "=" ++ s)
      let tail ← paramsToStr rest
      .ok (head ++ tail)

def Parameters.toStr (p : Parameters) : Except Err String := paramsToStr p.entries

/-- Item.toString: bare item followed by the parameters. -/
def Item.toStr (it : Item) : Except Err String := do
  let s ← encodeBareItem it.val
  let p ← it.params.toStr
  .ok (s ++ p)

/-- encodeItem (RFC 8941 Section 4.1.3). -/
def encodeItem (item : Item) : Except Err String := item.toStr

/-! ### base64 decoding (atob, WHATWG forgiving-base64; the byte-sequence
parser pre-filters the payload to [A-Za-z0-9+/=], so the
whitespace-stripping step of the algorithm is vacuous here) -/

def b64Val (c : Char) : Option Nat := b64Chars.findIdx? (fun x => x = c)

/-- Remove up to two trailing padding characters (only called when the
length is a multiple of four). -/
def dropEq2 (l : List Char) : List Char :=
  match l.reverse with
  | '=' :: '=' :: t => t.reverse
  | '=' :: t => t.reverse
  | _ => l

/-- Reassemble bytes from 6-bit groups; a trailing group of one unit is
the length-mod-4-equals-1 error. -/
def joinGroups : List Nat → Option (List Nat)
  | [] => some []
  | [_] => none
  | [a, b] => some [a * 4 + b / 16]
  | [a, b, c] => some [a * 4 + b / 16, b % 16 * 16 + c / 4]
  | a :: b :: c :: d :: rest => do
      let r ← joinGroups rest
      some ((a * 4 + b / 16) :: (b % 16 * 16 + c / 4) :: (c % 4 * 64 + d) :: r)

/-- atob: returns none exactly where the browser primitive throws
InvalidCharacterError. -/
def atob (s : List Char) : Option (List Nat) := do
  let data := if s.length % 4 = 0 then dropEq2 s else s
  let vals ← data.mapM b64Val
  joinGroups vals

/-! ### strict UTF-8 decoding (TextDecoder with fatal: true) -/

def utf8Cont (b : Nat) : Bool := 0x80 ≤ b && b ≤ 0xbf

/-- Lower bound of the second byte given the leading byte (WHATWG UTF-8
decoder). -/
def utf8Lo (b : Nat) : Nat := if b = 0xe0 then 0xa0 else if b = 0xf0 then 0x90 else 0x80

/-- Upper bound of the second byte given the leading byte. -/
def utf8Hi (b : Nat) : Nat := if b = 0xed then 0x9f else if b = 0xf4 then 0x8f else 0xbf

/-- Strict UTF-8 decoding of a byte list into code points; none models
the TypeError thrown by TextDecoder in fatal mode. -/
def utf8Decode : List Nat → Option (List Char)
  | [] => some []
  | b :: rest =>
    if b ≤ 0x7f then do
      let r ← utf8Decode rest
      some (Char.ofNat b :: r)
    else if 0xc2 ≤ b && b ≤ 0xdf then
      match rest with
      | b2 :: rest2 =>
        if utf8Cont b2 then do
          let r ← utf8Decode rest2
          some (Char.ofNat ((b - 0xc0) * 64 + (b2 - 0x80)) :: r)
        else none
      | [] => none
    else if 0xe0 ≤ b && b ≤ 0xef then
      match rest with
      | b2 :: b3 :: rest2 =>
        if (utf8Lo b ≤ b2 && b2 ≤ utf8Hi b) && utf8Cont b3 then do
          let r ← utf8Decode rest2
          some (Char.ofNat ((b - 0xe0) * 4096 + (b2 - 0x80) * 64 + (b3 - 0x80)) :: r)
        else none
      | _ => none
    else if 0xf0 ≤ b && b ≤ 0xf4 then
      match rest with
      | b2 :: b3 :: b4 :: rest2 =>
        if ((utf8Lo b ≤ b2 && b2 ≤ utf8Hi b) && utf8Cont b3) && utf8Cont b4 then do
          let r ← utf8Decode rest2
          some (Char.ofNat ((b - 0xf0) * 262144 + (b2 - 0x80) * 4096 +
            (b3 - 0x80) * 64 + (b4 - 0x80)) :: r)
        else none
      | _ => none
    else none

/-! ### The decoder (class DecodeState).  The mutable cursor is modelled
by passing the remaining input; END_OF_INPUT is the empty remainder. -/

/-- Longest prefix of characters satisfying p together with the rest
(the collecting loops of decodeKey / decodeToken). -/
def spanP (p : Char → Bool) : List Char → List Char × List Char
  | [] => ([], [])
  | c :: rest =>
    if p c then
      let r := spanP p rest
      (c :: r.1, r.2)
    else ([], c :: rest)

namespace DecodeState

/-- skipSPs: drop leading spaces. -/
def skipSPs : List Char → List Char
  | [] => []
  | c :: rest => if c = ' ' then skipSPs rest else c :: rest

/-- skipOWS: drop leading spaces and horizontal tabs. -/
def skipOWS : List Char → List Char
  | [] => []
  | c :: rest => if c = ' ' || c = '\t' then skipOWS rest else c :: rest

/-- errUnexpectedCharacter: end of input gets its own message; the
source interpolates the cursor position into the other message, which
the embedding elides. -/
def errUnexpected (l : List Char) : Err :=
  match l with
  | [] => ⟨.syn, "unexpected end of input"⟩
  | _ => ⟨.syn, "unexpected character"⟩

/-- decodeKey (RFC 8941 Section 4.2.3.3): require [a-zA-Z*] lookahead,
then collect [-a-zA-Z0-9_.*]. -/
def decodeKey (l : List Char) : Except Err (String × List Char) :=
  match l with
  | [] => .error (errUnexpected l)
  | c :: _ =>
    if tokenStartOk c then
      let p := spanP decodeKeyTailOk l
      .ok (String.mk p.1, p.2)
    else .error (errUnexpected l)

/-- The digit-collecting loop shared (verbatim) by
decodeIntegerOrDecimal and decodeDate: accumulate num and cnt, failing
once a sixteenth digit is consumed. -/
def digitLoop (num cnt : Nat) : List Char → Except Err (Nat × Nat × List Char)
  | [] => .ok (num, cnt, [])
  | c :: rest =>
    if isDigit c then
      if cnt + 1 > 15 then .error ⟨.syn, "number is too long"⟩
      else digitLoop (num * 10 + digitVal c) (cnt + 1) rest
    else .ok (num, cnt, c :: rest)

/-- Finalization of the decimal branches: ret = num + frac / den,
negated when the sign was present, passed to the Decimal constructor. -/
def finishDec (neg : Bool) (num frac den : Nat) (rest : List Char) :
    Except Err (BareItem × List Char) :=
  match Decimal.make (if neg then -((num : ℚ) + (frac : ℚ) / (den : ℚ))
      else (num : ℚ) + (frac : ℚ) / (den : ℚ)) with
  | .error e => .error e
  | .ok d => .ok (.dec d, rest)

/-- The sign step at the top of decodeIntegerOrDecimal: consume an
optional minus, which must be followed by a digit. -/
def decodeSign (l : List Char) : Except Err (Bool × List Char) :=
  match l with
  | '-' :: rest =>
    match rest with
    | c :: _ =>
      if isDigit c then .ok (true, rest)
      else .error (errUnexpected rest)
    | [] => .error (errUnexpected ([] : List Char))
  | _ => .ok (false, l)

/-- The fractional part of decodeIntegerOrDecimal: the three
digit steps are unrolled exactly as in the source. -/
def decodeFrac (neg : Bool) (num : Nat) (l3 : List Char) :
    Except Err (BareItem × List Char) :=
  match l3 with
  | c1 :: l4 =>
    if isDigit c1 then
      match l4 with
      | c2 :: l5 =>
        if isDigit c2 then
          match l5 with
          | c3 :: l6 =>
            if isDigit c3 then
              match l6 with
              | c4 :: _ =>
                if isDigit c4 then .error ⟨.syn, "number is too long"⟩
                else finishDec neg num ((digitVal c1 * 10 + digitVal c2) * 10 + digitVal c3) 1000 l6
              | [] => finishDec neg num ((digitVal c1 * 10 + digitVal c2) * 10 + digitVal c3) 1000 []
            else finishDec neg num (digitVal c1 * 10 + digitVal c2) 100 l5
          | [] => finishDec neg num (digitVal c1 * 10 + digitVal c2) 100 []
        else finishDec neg num (digitVal c1) 10 l4
      | [] => finishDec neg num (digitVal c1) 10 []
    else .error (errUnexpected l3)
  | [] => .error (errUnexpected ([] : List Char))

/-- After the digit loop: a dot continues into the fraction (rejecting
more than 12 integer digits first), anything else finalizes an Integer
with the sign applied. -/
def afterDigits (neg : Bool) (num cnt : Nat) (l2 : List Char) :
    Except Err (BareItem × List Char) :=
  match l2 with
  | '.' :: l3 =>
    if cnt > 12 then .error ⟨.syn, "number is too long"⟩
    else decodeFrac neg num l3
  | _ =>
    match Integer.make (if neg then -(num : ℚ) else (num : ℚ)) with
    | .error e => .error e
    | .ok i => .ok (.int i, l2)

/-- decodeIntegerOrDecimal (RFC 8941 Section 4.2.4): sign, digit loop,
then integer/decimal finalization. -/
def decodeIntegerOrDecimal (l : List Char) : Except Err (BareItem × List Char) :=
  match decodeSign l with
  | .error e => .error e
  | .ok (neg, l1) =>
    match digitLoop 0 0 l1 with
    | .error e => .error e
    | .ok (num, cnt, l2) => afterDigits neg num cnt l2

/-- The character-collecting loop of decodeString. -/
def decodeStringLoop : List Char → Except Err (List Char × List Char)
  | [] => .error ⟨.syn, "unexpected end of input"⟩
  | c :: rest =>
    if c = backslashChar then
      match rest with
      | c2 :: rest2 =>
        if c2 = backslashChar ∨ c2 = quoteChar then
          match decodeStringLoop rest2 with
          | .error e => .error e
          | .ok (s, r) => .ok (c2 :: s, r)
        else .error (errUnexpected rest)
      | [] => .error (errUnexpected ([] : List Char))
    else if c = quoteChar then .ok ([], rest)
    else if isPrintable c then
      match decodeStringLoop rest with
      | .error e => .error e
      | .ok (s, r) => .ok (c :: s, r)
    else .error (errUnexpected (c :: rest))

/-- decodeString (RFC 8941 Section 4.2.5). -/
def decodeString (l : List Char) : Except Err (String × List Char) :=
  match l with
  | c :: rest =>
    if c = quoteChar then
      match decodeStringLoop rest with
      | .error e => .error e
      | .ok (s, r) => .ok (String.mk s, r)
    else .error (errUnexpected l)
  | [] => .error (errUnexpected l)

/-- decodeToken (RFC 8941 Section 4.2.6): collect token characters,
then run them through the Token constructor. -/
def decodeToken (l : List Char) : Except Err (Token × List Char) :=
  match Token.make (String.mk (spanP tokenTailOk l).1) with
  | .error e => .error e
  | .ok t => .ok (t, (spanP tokenTailOk l).2)

/-- The character-collecting loop of decodeByteSequence. -/
def byteSeqLoop : List Char → Except Err (List Char × List Char)
  | [] => .error ⟨.syn, "unexpected end of input"⟩
  | c :: rest =>
    if c = ':' then .ok ([], rest)
    else if isAlphaCh c || isDigit c || c = '+' || c = '/' || c = '=' then
      match byteSeqLoop rest with
      | .error e => .error e
      | .ok (s, r) => .ok (c :: s, r)
    else .error (errUnexpected (c :: rest))

/-- decodeByteSequence (RFC 8941 Section 4.2.7). -/
def decodeByteSequence (l : List Char) : Except Err (BareItem × List Char) :=
  match l with
  | ':' :: rest =>
    match byteSeqLoop rest with
    | .error e => .error e
    | .ok (cs, r) =>
      match atob cs with
      | some bs => .ok (.bytes bs, r)
      | none => .error ⟨.invalidChar, "invalid base64"⟩
  | _ => .error (errUnexpected l)

/-- decodeBoolean (RFC 8941 Section 4.2.8). -/
def decodeBoolean (l : List Char) : Except Err (BareItem × List Char) :=
  match l with
  | '?' :: rest =>
    match rest with
    | '0' :: r => .ok (.bool false, r)
    | '1' :: r => .ok (.bool true, r)
    | _ => .error (errUnexpected rest)
  | _ => .error (errUnexpected l)

/-- The body of decodeDate after the at sign and the optional minus:
require a digit, run the shared digit loop, reject a trailing dot, and
build the Date from the seconds count with the sign applied. -/
def dateBody (neg : Bool) (l1 : List Char) : Except Err (BareItem × List Char) :=
  match l1 with
  | c :: _ =>
    if isDigit c then
      match digitLoop 0 0 l1 with
      | .error e => .error e
      | .ok (num, _cnt, l2) =>
        match l2 with
        | '.' :: _ => .error (errUnexpected l2)
        | _ => .ok (.date ((if neg then -(num : Int) else (num : Int)) * 1000), l2)
    else .error (errUnexpected l1)
  | [] => .error (errUnexpected ([] : List Char))

/-- decodeDate (draft-ietf-httpbis-sfbis-06): an at sign, an optional
sign, the shared digit loop, and a rejected trailing dot. -/
def decodeDate (l : List Char) : Except Err (BareItem × List Char) :=
  match l with
  | '@' :: rest =>
    match rest with
    | '-' :: r => dateBody true r
    | _ => dateBody false rest
  | _ => .error (errUnexpected l)

def hexDigitOk (c : Char) : Bool := isDigit c || (0x61 ≤ c.toNat && c.toNat ≤ 0x66)

def hexVal (c : Char) : Nat := if isDigit c then digitVal c else c.toNat - 0x61 + 10

/-- The byte-collecting loop of decodeDisplayString. -/
def dispLoop : List Char → Except Err (List Nat × List Char)
  | [] => .error ⟨.syn, "unexpected end of input"⟩
  | c :: rest =>
    if ¬ isPrintable c then .error (errUnexpected (c :: rest))
    else if c = '%' then
      match rest with
      | h1 :: rest1 =>
        if hexDigitOk h1 then
          match rest1 with
          | h2 :: rest2 =>
            if hexDigitOk h2 then
              match dispLoop rest2 with
              | .error e => .error e
              | .ok (bs, r) => .ok ((hexVal h1 * 16 + hexVal h2) :: bs, r)
            else .error (errUnexpected rest1)
          | [] => .error (errUnexpected ([] : List Char))
        else .error (errUnexpected rest)
      | [] => .error (errUnexpected ([] : List Char))
    else if c = quoteChar then .ok ([], rest)
    else
      match dispLoop rest with
      | .error e => .error e
      | .ok (bs, r) => .ok (c.toNat :: bs, r)

/-- decodeDisplayString (draft-ietf-httpbis-sfbis-06): expect the
percent and quote prefix, collect bytes, then strict UTF-8 decode. -/
def decodeDisplayString (l : List Char) : Except Err (BareItem × List Char) :=
  match l with
  | '%' :: rest =>
    match rest with
    | c :: rest2 =>
      if c = quoteChar then
        match dispLoop rest2 with
        | .error e => .error e
        | .ok (bs, r) =>
          match utf8Decode bs with
          | some cs => .ok (.disp (String.mk cs), r)
          | none => .error ⟨.type, "invalid utf-8"⟩
      else .error (errUnexpected rest)
    | [] => .error (errUnexpected ([] : List Char))
  | _ => .error (errUnexpected l)

/-- decodeBareItem (RFC 8941 Section 4.2.3.1): dispatch on the
lookahead character. -/
def decodeBareItem (l : List Char) : Except Err (BareItem × List Char) :=
  match l with
  | [] => .error (errUnexpected l)
  | c :: _ =>
    if c = '-' || isDigit c then decodeIntegerOrDecimal l
    else if c = quoteChar then
      match decodeString l with
      | .error e => .error e
      | .ok (s, r) => .ok (.str s, r)
    else if tokenStartOk c then
      match decodeToken l with
      | .error e => .error e
      | .ok (t, r) => .ok (.tok t, r)
    else if c = ':' then decodeByteSequence l
    else if c = '?' then decodeBoolean l
    else if c = '@' then decodeDate l
    else if c = '%' then decodeDisplayString l
    else .error (errUnexpected l)

end DecodeState



/-! ### Consumption bounds for the parsers (needed to justify
termination of the member-collecting loops) -/

theorem spanP_snd_le (p : Char → Bool) (l : List Char) :
    (spanP p l).2.length ≤ l.length := by
  induction l with
  | nil => simp [spanP]
  | cons c rest ih =>
    simp only [spanP]
    split
    · exact Nat.le_succ_of_le ih
    · simp

theorem tokenStartOk_tailOk {c : Char} (h : tokenStartOk c = true) :
    tokenTailOk c = true := by
  simp only [tokenStartOk, Bool.or_eq_true, decide_eq_true_eq] at h
  rcases h with h | h
  · simp [tokenTailOk, h]
  · subst h
    decide

namespace DecodeState

theorem skipSPs_le (l : List Char) : (skipSPs l).length ≤ l.length := by
  induction l with
  | nil => simp [skipSPs]
  | cons c rest ih =>
    simp only [skipSPs]
    split
    · exact Nat.le_succ_of_le ih
    · simp

theorem skipOWS_le (l : List Char) : (skipOWS l).length ≤ l.length := by
  induction l with
  | nil => simp [skipOWS]
  | cons c rest ih =>
    simp only [skipOWS]
    split
    · exact Nat.le_succ_of_le ih
    · simp

theorem digitLoop_le : ∀ (l : List Char) (num cnt num' cnt' : Nat) (r : List Char),
    digitLoop num cnt l = .ok (num', cnt', r) → r.length ≤ l.length := by
  intro l
  induction l with
  | nil =>
    intro num cnt num' cnt' r h
    simp only [digitLoop, Except.ok.injEq, Prod.mk.injEq] at h
    obtain ⟨-, -, rfl⟩ := h
    simp
  | cons c rest ih =>
    intro num cnt num' cnt' r h
    simp only [digitLoop] at h
    split at h
    · split at h
      · cases h
      · exact Nat.le_succ_of_le (ih _ _ _ _ _ h)
    · simp only [Except.ok.injEq, Prod.mk.injEq] at h
      obtain ⟨-, -, rfl⟩ := h
      simp

theorem digitLoop_lt {c : Char} {rest : List Char} {num cnt num' cnt' : Nat}
    {r : List Char} (hc : isDigit c = true)
    (h : digitLoop num cnt (c :: rest) = .ok (num', cnt', r)) :
    r.length < (c :: rest).length := by
  simp only [digitLoop, hc, if_true] at h
  split at h
  · cases h
  · exact Nat.lt_succ_of_le (digitLoop_le _ _ _ _ _ _ h)

theorem decodeKey_le {l : List Char} {k : String} {r : List Char}
    (h : decodeKey l = .ok (k, r)) : r.length ≤ l.length := by
  cases l with
  | nil => simp [decodeKey, errUnexpected] at h
  | cons c rest =>
    simp only [decodeKey] at h
    split at h
    · simp only [Except.ok.injEq, Prod.mk.injEq] at h
      obtain ⟨-, rfl⟩ := h
      exact spanP_snd_le _ _
    · cases h

theorem finishDec_rest {neg : Bool} {num f den : Nat} {rest : List Char}
    {v : BareItem} {r : List Char}
    (h : finishDec neg num f den rest = .ok (v, r)) : r = rest := by
  unfold finishDec at h
  split at h
  · cases h
  · simp only [Except.ok.injEq, Prod.mk.injEq] at h
    exact h.2.symm

theorem decodeFrac_le {neg : Bool} {num : Nat} {l3 : List Char}
    {v : BareItem} {r : List Char}
    (h : decodeFrac neg num l3 = .ok (v, r)) : r.length ≤ l3.length := by
  unfold decodeFrac at h
  split at h
  · rename_i c1 l4
    split at h
    · split at h
      · rename_i c2 l5
        split at h
        · split at h
          · rename_i c3 l6
            split at h
            · split at h
              · rename_i c4 l7
                split at h
                · cases h
                · rw [finishDec_rest h]
                  simp
              · rw [finishDec_rest h]
                simp
            · rw [finishDec_rest h]
              simp
          · rw [finishDec_rest h]
            simp
        · rw [finishDec_rest h]
          simp
      · rw [finishDec_rest h]
        simp
    · cases h
  · cases h

theorem afterDigits_le {neg : Bool} {num cnt : Nat} {l2 : List Char}
    {v : BareItem} {r : List Char}
    (h : afterDigits neg num cnt l2 = .ok (v, r)) : r.length ≤ l2.length := by
  unfold afterDigits at h
  split at h
  · split at h
    · cases h
    · exact Nat.le_succ_of_le (decodeFrac_le h)
  · split at h
    · cases h
    · simp only [Except.ok.injEq, Prod.mk.injEq] at h
      rw [h.2]

theorem decodeSign_minus {rest : List Char} {neg : Bool} {l1 : List Char}
    (h : decodeSign ('-' :: rest) = .ok (neg, l1)) : neg = true ∧ l1 = rest := by
  simp only [decodeSign] at h
  split at h
  · split at h
    · simp only [Except.ok.injEq, Prod.mk.injEq] at h
      exact ⟨h.1.symm, h.2.symm⟩
    · cases h
  · cases h

/-- Shape of a successful sign step. -/
theorem decodeSign_shape {l : List Char} {neg : Bool} {l1 : List Char}
    (h : decodeSign l = .ok (neg, l1)) :
    (neg = false ∧ l1 = l) ∨ (neg = true ∧ l = '-' :: l1) := by
  unfold decodeSign at h
  split at h
  · rename_i rest
    split at h
    · split at h
      · simp only [Except.ok.injEq, Prod.mk.injEq] at h
        right
        exact ⟨h.1.symm, by rw [h.2]⟩
      · cases h
    · cases h
  · simp only [Except.ok.injEq, Prod.mk.injEq] at h
    left
    exact ⟨h.1.symm, h.2.symm⟩

theorem decodeIntegerOrDecimal_le {l : List Char} {v : BareItem} {r : List Char}
    (h : decodeIntegerOrDecimal l = .ok (v, r)) : r.length ≤ l.length := by
  unfold decodeIntegerOrDecimal at h
  split at h
  · cases h
  · rename_i neg l1 hs
    split at h
    · cases h
    · rename_i num cnt l2 hd
      have h1 : r.length ≤ l2.length := afterDigits_le h
      have h2 : l2.length ≤ l1.length := digitLoop_le _ _ _ _ _ _ hd
      rcases decodeSign_shape hs with ⟨-, rfl⟩ | ⟨-, h3⟩
      · omega
      · rw [h3]
        simp only [List.length_cons]
        omega

theorem decodeIntegerOrDecimal_lt {c : Char} {rest : List Char} {v : BareItem}
    {r : List Char} (hc : isDigit c = true ∨ c = '-')
    (h : decodeIntegerOrDecimal (c :: rest) = .ok (v, r)) :
    r.length < (c :: rest).length := by
  unfold decodeIntegerOrDecimal at h
  split at h
  · cases h
  · rename_i neg l1 hs
    split at h
    · cases h
    · rename_i num cnt l2 hd
      have h1 : r.length ≤ l2.length := afterDigits_le h
      rcases decodeSign_shape hs with ⟨hneg, h3⟩ | ⟨-, h3⟩
      · -- no sign consumed: l1 is the whole input, whose head must be a digit
        subst h3
        rcases hc with hc | hc
        · have := digitLoop_lt hc hd
          omega
        · subst hc
          obtain ⟨h5, -⟩ := decodeSign_minus hs
          rw [hneg] at h5
          cases h5
      · have h4 : l1.length < (c :: rest).length := by
          rw [h3]
          simp
        have h2 : l2.length ≤ l1.length := digitLoop_le _ _ _ _ _ _ hd
        omega

theorem decodeStringLoopN_lt : ∀ (n : Nat) (l : List Char), l.length ≤ n → ∀ (s r : List Char),
    decodeStringLoop l = .ok (s, r) → r.length < l.length := by
  intro n
  induction n with
  | zero =>
    intro l hl s r h
    cases l with
    | nil => simp [decodeStringLoop] at h
    | cons c rest =>
      simp only [List.length_cons] at hl
      omega
  | succ n ih =>
    intro l hl s r h
    rw [decodeStringLoop.eq_def] at h
    split at h
    · cases h
    · rename_i c rest
      split at h
      · -- escape: match on the character after the backslash
        split at h
        · rename_i c2 rest2
          split at h
          · -- recursive call on rest2
            split at h
            · cases h
            · rename_i s' r' hrec
              simp only [Except.ok.injEq, Prod.mk.injEq] at h
              obtain ⟨-, rfl⟩ := h
              have hlen : rest2.length ≤ n := by
                simp only [List.length_cons] at hl
                omega
              have := ih rest2 hlen _ _ hrec
              simp only [List.length_cons]
              omega
          · cases h
        · cases h
      · split at h
        · simp only [Except.ok.injEq, Prod.mk.injEq] at h
          obtain ⟨-, rfl⟩ := h
          simp
        · split at h
          · split at h
            · cases h
            · rename_i s' r' hrec
              simp only [Except.ok.injEq, Prod.mk.injEq] at h
              obtain ⟨-, rfl⟩ := h
              have hlen : rest.length ≤ n := by
                simp only [List.length_cons] at hl
                omega
              have := ih rest hlen _ _ hrec
              simp only [List.length_cons]
              omega
          · cases h

theorem decodeStringLoop_lt {l : List Char} {s r : List Char}
    (h : decodeStringLoop l = .ok (s, r)) : r.length < l.length :=
  decodeStringLoopN_lt l.length l le_rfl s r h

theorem decodeString_lt {l : List Char} {s : String} {r : List Char}
    (h : decodeString l = .ok (s, r)) : r.length < l.length := by
  cases l with
  | nil => simp [decodeString, errUnexpected] at h
  | cons c rest =>
    simp only [decodeString] at h
    split at h
    · split at h
      · cases h
      · rename_i s' r' hrec
        simp only [Except.ok.injEq, Prod.mk.injEq] at h
        obtain ⟨-, rfl⟩ := h
        exact Nat.lt_succ_of_lt (decodeStringLoop_lt hrec)
    · cases h

theorem decodeToken_le {l : List Char} {t : Token} {r : List Char}
    (h : decodeToken l = .ok (t, r)) : r.length ≤ l.length := by
  unfold decodeToken at h
  split at h
  · cases h
  · simp only [Except.ok.injEq, Prod.mk.injEq] at h
    rw [← h.2]
    exact spanP_snd_le _ _

theorem decodeToken_lt {c : Char} {rest : List Char} {t : Token} {r : List Char}
    (hc : tokenTailOk c = true) (h : decodeToken (c :: rest) = .ok (t, r)) :
    r.length < (c :: rest).length := by
  have hsp : spanP tokenTailOk (c :: rest) =
      (c :: (spanP tokenTailOk rest).1, (spanP tokenTailOk rest).2) := by
    simp [spanP, hc]
  unfold decodeToken at h
  rw [hsp] at h
  split at h
  · cases h
  · simp only [Except.ok.injEq, Prod.mk.injEq] at h
    rw [← h.2]
    exact Nat.lt_succ_of_le (spanP_snd_le _ _)

theorem byteSeqLoopN_lt : ∀ (n : Nat) (l : List Char), l.length ≤ n → ∀ (s r : List Char),
    byteSeqLoop l = .ok (s, r) → r.length < l.length := by
  intro n
  induction n with
  | zero =>
    intro l hl s r h
    cases l with
    | nil => simp [byteSeqLoop] at h
    | cons c rest =>
      simp only [List.length_cons] at hl
      omega
  | succ n ih =>
    intro l hl s r h
    rw [byteSeqLoop.eq_def] at h
    split at h
    · cases h
    · rename_i c rest
      split at h
      · simp only [Except.ok.injEq, Prod.mk.injEq] at h
        obtain ⟨-, rfl⟩ := h
        simp
      · split at h
        · split at h
          · cases h
          · rename_i s' r' hrec
            simp only [Except.ok.injEq, Prod.mk.injEq] at h
            obtain ⟨-, rfl⟩ := h
            have hlen : rest.length ≤ n := by
              simp only [List.length_cons] at hl
              omega
            have := ih rest hlen _ _ hrec
            simp only [List.length_cons]
            omega
        · cases h

theorem byteSeqLoop_lt {l : List Char} {s r : List Char}
    (h : byteSeqLoop l = .ok (s, r)) : r.length < l.length :=
  byteSeqLoopN_lt l.length l le_rfl s r h

theorem decodeByteSequence_lt {rest : List Char} {v : BareItem} {r : List Char}
    (h : decodeByteSequence (':' :: rest) = .ok (v, r)) :
    r.length < (':' :: rest).length := by
  simp only [decodeByteSequence] at h
  split at h
  · cases h
  · rename_i cs r' hrec
    split at h
    · simp only [Except.ok.injEq, Prod.mk.injEq] at h
      obtain ⟨-, rfl⟩ := h
      exact Nat.lt_succ_of_lt (byteSeqLoop_lt hrec)
    · cases h

theorem decodeBoolean_lt {rest : List Char} {v : BareItem} {r : List Char}
    (h : decodeBoolean ('?' :: rest) = .ok (v, r)) :
    r.length < ('?' :: rest).length := by
  simp only [decodeBoolean] at h
  split at h
  · simp only [Except.ok.injEq, Prod.mk.injEq] at h
    obtain ⟨-, rfl⟩ := h
    simp only [List.length_cons]
    omega
  · simp only [Except.ok.injEq, Prod.mk.injEq] at h
    obtain ⟨-, rfl⟩ := h
    simp only [List.length_cons]
    omega
  · cases h

theorem dateBody_le {neg : Bool} {l1 : List Char} {v : BareItem} {r : List Char}
    (h : dateBody neg l1 = .ok (v, r)) : r.length ≤ l1.length := by
  unfold dateBody at h
  split at h
  · split at h
    · split at h
      · cases h
      · rename_i num cnt l2 hd
        split at h
        · cases h
        · simp only [Except.ok.injEq, Prod.mk.injEq] at h
          rw [← h.2]
          exact digitLoop_le _ _ _ _ _ _ hd
    · cases h
  · cases h

theorem decodeDate_lt {rest : List Char} {v : BareItem} {r : List Char}
    (h : decodeDate ('@' :: rest) = .ok (v, r)) :
    r.length < ('@' :: rest).length := by
  simp only [decodeDate] at h
  split at h
  · have := dateBody_le h
    simp only [List.length_cons] at *
    omega
  · have := dateBody_le h
    simp only [List.length_cons] at *
    omega

theorem dispLoopN_lt : ∀ (n : Nat) (l : List Char), l.length ≤ n → ∀ (s : List Nat) (r : List Char),
    dispLoop l = .ok (s, r) → r.length < l.length := by
  intro n
  induction n with
  | zero =>
    intro l hl s r h
    cases l with
    | nil => simp [dispLoop] at h
    | cons c rest =>
      simp only [List.length_cons] at hl
      omega
  | succ n ih =>
    intro l hl s r h
    rw [dispLoop.eq_def] at h
    split at h
    · cases h
    · rename_i c rest
      split at h
      · cases h
      · split at h
        · -- percent escape
          split at h
          · rename_i h1 rest1
            split at h
            · split at h
              · rename_i h2 rest2
                split at h
                · split at h
                  · cases h
                  · rename_i bs r' hrec
                    simp only [Except.ok.injEq, Prod.mk.injEq] at h
                    obtain ⟨-, rfl⟩ := h
                    have hlen : rest2.length ≤ n := by
                      simp only [List.length_cons] at hl
                      omega
                    have := ih rest2 hlen _ _ hrec
                    simp only [List.length_cons]
                    omega
                · cases h
              · cases h
            · cases h
          · cases h
        · split at h
          · simp only [Except.ok.injEq, Prod.mk.injEq] at h
            obtain ⟨-, rfl⟩ := h
            simp
          · split at h
            · cases h
            · rename_i bs r' hrec
              simp only [Except.ok.injEq, Prod.mk.injEq] at h
              obtain ⟨-, rfl⟩ := h
              have hlen : rest.length ≤ n := by
                simp only [List.length_cons] at hl
                omega
              have := ih rest hlen _ _ hrec
              simp only [List.length_cons]
              omega

theorem dispLoop_lt {l : List Char} {s : List Nat} {r : List Char}
    (h : dispLoop l = .ok (s, r)) : r.length < l.length :=
  dispLoopN_lt l.length l le_rfl s r h

theorem decodeDisplayString_lt {rest : List Char} {v : BareItem} {r : List Char}
    (h : decodeDisplayString ('%' :: rest) = .ok (v, r)) :
    r.length < ('%' :: rest).length := by
  rw [decodeDisplayString.eq_def] at h
  split at h
  · rename_i rest'
    split at h
    · rename_i c rest2
      split at h
      · split at h
        · cases h
        · rename_i bs r' hrec
          split at h
          · simp only [Except.ok.injEq, Prod.mk.injEq] at h
            obtain ⟨-, rfl⟩ := h
            have h2 := dispLoop_lt hrec
            injection rest' with h3a h3b
            subst h3b
            simp only [List.length_cons] at *
            omega
          · cases h
      · cases h
    · cases h
  · cases h

theorem decodeBareItem_lt {l : List Char} {v : BareItem} {r : List Char}
    (h : decodeBareItem l = .ok (v, r)) : r.length < l.length := by
  cases l with
  | nil => simp [decodeBareItem, errUnexpected] at h
  | cons c rest =>
    simp only [decodeBareItem] at h
    split at h
    · rename_i hc
      simp only [Bool.or_eq_true, decide_eq_true_eq] at hc
      exact decodeIntegerOrDecimal_lt (Or.symm hc) h
    · split at h
      · rename_i hq
        subst hq
        split at h
        · cases h
        · rename_i s r' hrec
          simp only [Except.ok.injEq, Prod.mk.injEq] at h
          obtain ⟨-, rfl⟩ := h
          exact decodeString_lt hrec
      · split at h
        · rename_i hts
          split at h
          · cases h
          · rename_i t r' hrec
            simp only [Except.ok.injEq, Prod.mk.injEq] at h
            obtain ⟨-, rfl⟩ := h
            exact decodeToken_lt (tokenStartOk_tailOk hts) hrec
        · split at h
          · rename_i hcol
            subst hcol
            exact decodeByteSequence_lt h
          · split at h
            · rename_i hqm
              subst hqm
              exact decodeBoolean_lt h
            · split at h
              · rename_i hat
                subst hat
                exact decodeDate_lt h
              · split at h
                · rename_i hpc
                  subst hpc
                  exact decodeDisplayString_lt h
                · cases h

/-! ### Parameters / Item / InnerList / List / Dictionary parsing -/

/-- decodeParameters (RFC 8941 Section 4.2.3.2): the semicolon loop.
Each iteration consumes the ";", skips spaces, decodes a key, and an
optional "=" bare-item; the pair is stored through Parameters.set
(whose key validation can throw). -/
def decodeParamsLoop (acc : Parameters) (l : List Char) :
    Except Err (Parameters × List Char) :=
  match l with
  | ';' :: rest =>
    match h1 : decodeKey (skipSPs rest) with
    | .error e => .error e
    | .ok (key, r2) =>
      match r2 with
      | '=' :: r3 =>
        match h2 : decodeBareItem r3 with
        | .error e => .error e
        | .ok (value, r4) =>
          match acc.set key value with
          | .error e => .error e
          | .ok acc2 => decodeParamsLoop acc2 r4
      | _ =>
        match acc.set key (.bool true) with
        | .error e => .error e
        | .ok acc2 => decodeParamsLoop acc2 r2
  | _ => .ok (acc, l)
termination_by l.length
decreasing_by
  · have hk := decodeKey_le h1
    have hs := skipSPs_le rest
    have hb := decodeBareItem_lt h2
    simp only [List.length_cons] at *
    omega
  · have hk : r2.length ≤ (skipSPs rest).length := by
      have h1b : decodeKey (skipSPs rest) = .ok (key, r2) := by assumption
      exact decodeKey_le h1b
    have hs := skipSPs_le rest
    simp only [List.length_cons]
    omega

def decodeParameters (l : List Char) : Except Err (Parameters × List Char) :=
  decodeParamsLoop Parameters.empty l

theorem decodeParamsLoopN_le : ∀ (n : Nat) (acc : Parameters) (l : List Char),
    l.length ≤ n → ∀ (p : Parameters) (r : List Char),
    decodeParamsLoop acc l = .ok (p, r) → r.length ≤ l.length := by
  intro n
  induction n with
  | zero =>
    intro acc l hl p r h
    cases l with
    | nil =>
      rw [decodeParamsLoop.eq_def] at h
      simp only [Except.ok.injEq, Prod.mk.injEq] at h
      obtain ⟨-, rfl⟩ := h
      simp
    | cons c rest =>
      simp only [List.length_cons] at hl
      omega
  | succ n ih =>
    intro acc l hl p r h
    rw [decodeParamsLoop.eq_def] at h
    split at h
    · rename_i rest
      split at h
      · cases h
      · rename_i key r2 h1
        have hk := decodeKey_le h1
        have hs := skipSPs_le rest
        split at h
        · rename_i r3
          split at h
          · cases h
          · rename_i value r4 h2
            have hb := decodeBareItem_lt h2
            split at h
            · cases h
            · rename_i acc2 hset
              have hr4 : r4.length ≤ n := by
                simp only [List.length_cons] at *
                omega
              have := ih acc2 r4 hr4 _ _ h
              simp only [List.length_cons] at *
              omega
        · split at h
          · cases h
          · rename_i acc2 hset
            have hs2 := skipSPs_le rest
            simp only [List.length_cons] at hl
            refine le_trans (ih _ _ ?_ _ _ h) (le_trans hk (le_trans hs2 (by simp)))
            omega
    · simp only [Except.ok.injEq, Prod.mk.injEq] at h
      obtain ⟨-, rfl⟩ := h
      exact le_rfl

theorem decodeParamsLoop_le {acc : Parameters} {l : List Char} {p : Parameters}
    {r : List Char} (h : decodeParamsLoop acc l = .ok (p, r)) :
    r.length ≤ l.length :=
  decodeParamsLoopN_le l.length acc l le_rfl p r h

theorem decodeParameters_le {l : List Char} {p : Parameters} {r : List Char}
    (h : decodeParameters l = .ok (p, r)) : r.length ≤ l.length :=
  decodeParamsLoop_le h

/-- decodeItem (RFC 8941 Section 4.2.3): bare item then parameters,
assembled by the Item constructor. -/
def decodeItem (l : List Char) : Except Err (Item × List Char) :=
  match decodeBareItem l with
  | .error e => .error e
  | .ok (value, r1) =>
    match decodeParameters r1 with
    | .error e => .error e
    | .ok (params, r2) => .ok (Item.make value params, r2)

theorem decodeItem_lt {l : List Char} {it : Item} {r : List Char}
    (h : decodeItem l = .ok (it, r)) : r.length < l.length := by
  unfold decodeItem at h
  split at h
  · cases h
  · rename_i value r1 h1
    split at h
    · cases h
    · rename_i params r2 h2
      simp only [Except.ok.injEq, Prod.mk.injEq] at h
      obtain ⟨-, rfl⟩ := h
      have := decodeBareItem_lt h1
      have := decodeParameters_le h2
      omega

/-- The item-collecting loop of decodeInnerList: skip spaces, stop at
")", otherwise parse an item whose next character must be a space or
")" (the source throws "unexpected end of input" here even for other
characters). -/
def innerListLoop (acc : List Item) (l : List Char) :
    Except Err (List Item × List Char) :=
  match h0 : skipSPs l with
  | ')' :: rest => .ok (acc, rest)
  | l1 =>
    match h1 : decodeItem l1 with
    | .error e => .error e
    | .ok (item, r2) =>
      match r2 with
      | c :: _ =>
        if c = ' ' ∨ c = ')' then innerListLoop (acc ++ [item]) r2
        else .error ⟨.syn, "unexpected end of input"⟩
      | [] => .error ⟨.syn, "unexpected end of input"⟩
termination_by l.length
decreasing_by
  have hi : r2.length < l1.length := by
    have h1b : decodeItem l1 = .ok (item, r2) := by assumption
    exact decodeItem_lt h1b
  have hs := skipSPs_le l
  rw [h0] at hs
  omega

theorem innerListLoopN_le : ∀ (n : Nat) (acc : List Item) (l : List Char),
    l.length ≤ n → ∀ (items : List Item) (r : List Char),
    innerListLoop acc l = .ok (items, r) → r.length ≤ l.length := by
  intro n
  induction n with
  | zero =>
    intro acc l hl items r h
    rw [innerListLoop.eq_def] at h
    split at h
    · rename_i rest h0
      have h2 := skipSPs_le l
      rw [h0] at h2
      simp only [Except.ok.injEq, Prod.mk.injEq] at h
      obtain ⟨-, rfl⟩ := h
      simp only [List.length_cons] at h2
      omega
    · split at h
      · cases h
      · rename_i item r2 h1
        have hlt := decodeItem_lt h1
        have hsp := skipSPs_le l
        omega
  | succ n ih =>
    intro acc l hl items r h
    rw [innerListLoop.eq_def] at h
    split at h
    · rename_i rest h0
      have h2 := skipSPs_le l
      rw [h0] at h2
      simp only [Except.ok.injEq, Prod.mk.injEq] at h
      obtain ⟨-, rfl⟩ := h
      simp only [List.length_cons] at h2
      omega
    · split at h
      · cases h
      · rename_i item r2 h1
        split at h
        · rename_i c t
          split at h
          · -- recursive call on c :: t
            have hlt := decodeItem_lt h1
            have hsp := skipSPs_le l
            have hb : (c :: t).length ≤ n := by
              simp only [List.length_cons] at *
              omega
            have hr := ih _ _ hb _ _ h
            simp only [List.length_cons] at *
            omega
          · cases h
        · cases h

theorem innerListLoop_le {acc : List Item} {l : List Char} {items : List Item}
    {r : List Char} (h : innerListLoop acc l = .ok (items, r)) :
    r.length ≤ l.length :=
  innerListLoopN_le l.length acc l le_rfl items r h

/-- decodeInnerList (RFC 8941 Section 4.2.1.2): consume the opening
parenthesis, run the item loop, then the inner list's own parameters. -/
def decodeInnerList (l : List Char) : Except Err (InnerList × List Char) :=
  match l with
  | '(' :: rest =>
    match innerListLoop [] rest with
    | .error e => .error e
    | .ok (items, r1) =>
      match decodeParameters r1 with
      | .error e => .error e
      | .ok (params, r2) => .ok (⟨items, params⟩, r2)
  | _ => .error (errUnexpected l)

theorem decodeInnerList_le {l : List Char} {il : InnerList} {r : List Char}
    (h : decodeInnerList l = .ok (il, r)) : r.length ≤ l.length := by
  rw [decodeInnerList.eq_def] at h
  split at h
  · rename_i rest
    split at h
    · cases h
    · rename_i items r1 h1
      split at h
      · cases h
      · rename_i params r2 h2
        simp only [Except.ok.injEq, Prod.mk.injEq] at h
        obtain ⟨-, rfl⟩ := h
        have := innerListLoop_le h1
        have := decodeParameters_le h2
        simp only [List.length_cons]
        omega
  · cases h

/-- decodeItemOrInnerList (RFC 8941 Section 4.2.1.1). -/
def decodeItemOrInnerList (l : List Char) : Except Err (Member × List Char) :=
  match l with
  | '(' :: _ =>
    match decodeInnerList l with
    | .error e => .error e
    | .ok (il, r) => .ok (.inner il, r)
  | _ =>
    match decodeItem l with
    | .error e => .error e
    | .ok (it, r) => .ok (.item it, r)

theorem decodeItemOrInnerList_le {l : List Char} {m : Member} {r : List Char}
    (h : decodeItemOrInnerList l = .ok (m, r)) : r.length ≤ l.length := by
  rw [decodeItemOrInnerList.eq_def] at h
  split at h
  · split at h
    · cases h
    · rename_i il r' h1
      simp only [Except.ok.injEq, Prod.mk.injEq] at h
      obtain ⟨-, rfl⟩ := h
      exact decodeInnerList_le h1
  · split at h
    · cases h
    · rename_i it r' h1
      simp only [Except.ok.injEq, Prod.mk.injEq] at h
      obtain ⟨-, rfl⟩ := h
      exact le_of_lt (decodeItem_lt h1)

/-- The member loop of decodeList (RFC 8941 Section 4.2.1): parse a
member, skip OWS, stop at end of input, else require a comma, skip OWS,
and fail if the input ends after the comma. -/
def listLoop (acc : List Member) (l : List Char) :
    Except Err (List Member × List Char) :=
  match h1 : decodeItemOrInnerList l with
  | .error e => .error e
  | .ok (m, r1) =>
    match h2 : skipOWS r1 with
    | [] => .ok (acc ++ [m], [])
    | ',' :: r3 =>
      match h4 : skipOWS r3 with
      | [] => .error ⟨.syn, "unexpected end of input"⟩
      | r4 => listLoop (acc ++ [m]) r4
    | _ => .error ⟨.syn, "unexpected character"⟩
termination_by l.length
decreasing_by
  have hm := decodeItemOrInnerList_le h1
  have ho1 := skipOWS_le r1
  rw [h2] at ho1
  have ho3 := skipOWS_le r3
  rw [h4] at ho3
  simp only [List.length_cons] at *
  omega

/-- decodeList (RFC 8941 Section 4.2.1): empty input is an empty list,
otherwise the member loop. -/
def decodeListState (l : List Char) : Except Err (List Member × List Char) :=
  match l with
  | [] => .ok ([], [])
  | _ => listLoop [] l

/-- The value of a dictionary member: after "=" an item-or-inner-list,
otherwise an Item with value true carrying the trailing parameters
(bare-key shorthand). -/
def dictValue (r1 : List Char) : Except Err (Member × List Char) :=
  match r1 with
  | '=' :: r2 => decodeItemOrInnerList r2
  | _ =>
    match decodeParamsLoop Parameters.empty r1 with
    | .error e => .error e
    | .ok (params, r2) => .ok (.item (Item.make (.bool true) params), r2)

theorem dictValue_le {r1 : List Char} {m : Member} {r : List Char}
    (h : dictValue r1 = .ok (m, r)) : r.length ≤ r1.length := by
  rw [dictValue.eq_def] at h
  split at h
  · rename_i r2
    have := decodeItemOrInnerList_le h
    simp only [List.length_cons]
    omega
  · split at h
    · cases h
    · rename_i params r2 h1
      simp only [Except.ok.injEq, Prod.mk.injEq] at h
      obtain ⟨-, rfl⟩ := h
      exact decodeParamsLoop_le h1

/-- The member loop of decodeDictionary (RFC 8941 Section 4.2.2): a
key, its value, Dictionary.set (whose key validation can throw), then
the same separator idiom as decodeList. -/
def dictLoop (acc : Dictionary) (l : List Char) :
    Except Err (Dictionary × List Char) :=
  match h1 : decodeKey l with
  | .error e => .error e
  | .ok (key, r1) =>
    match h2 : dictValue r1 with
    | .error e => .error e
    | .ok (m, r3) =>
      match acc.set key m with
      | .error e => .error e
      | .ok acc2 =>
        match h3 : skipOWS r3 with
        | [] => .ok (acc2, [])
        | ',' :: r5 =>
          match h5 : skipOWS r5 with
          | [] => .error ⟨.syn, "unexpected end of input"⟩
          | r6 => dictLoop acc2 r6
        | _ => .error ⟨.syn, "unexpected character"⟩
termination_by l.length
decreasing_by
  have hk := decodeKey_le h1
  have hv := dictValue_le h2
  have ho3 := skipOWS_le r3
  rw [h3] at ho3
  have ho5 := skipOWS_le r5
  rw [h5] at ho5
  simp only [List.length_cons] at *
  omega

/-- decodeDictionary (RFC 8941 Section 4.2.2): empty input is an empty
dictionary, otherwise the member loop. -/
def decodeDictionaryState (l : List Char) : Except Err (Dictionary × List Char) :=
  match l with
  | [] => .ok (Dictionary.empty, [])
  | _ => dictLoop Dictionary.empty l

/-- A shadow of dictLoop that records the parsed (key, member) pairs in
order without the Map update, still performing the same key validation;
used to state how decodeDictionary treats duplicate keys. -/
def dictPairsLoop (acc : List (String × Member)) (l : List Char) :
    Except Err (List (String × Member) × List Char) :=
  match h1 : decodeKey l with
  | .error e => .error e
  | .ok (key, r1) =>
    match h2 : dictValue r1 with
    | .error e => .error e
    | .ok (m, r3) =>
      match validateKey key with
      | .error e => .error e
      | .ok _ =>
        match h3 : skipOWS r3 with
        | [] => .ok (acc ++ [(key, m)], [])
        | ',' :: r5 =>
          match h5 : skipOWS r5 with
          | [] => .error ⟨.syn, "unexpected end of input"⟩
          | r6 => dictPairsLoop (acc ++ [(key, m)]) r6
        | _ => .error ⟨.syn, "unexpected character"⟩
termination_by l.length
decreasing_by
  have hk := decodeKey_le h1
  have hv := dictValue_le h2
  have ho3 := skipOWS_le r3
  rw [h3] at ho3
  have ho5 := skipOWS_le r5
  rw [h5] at ho5
  simp only [List.length_cons] at *
  omega

def decodeDictionaryPairsState (l : List Char) :
    Except Err (List (String × Member) × List Char) :=
  match l with
  | [] => .ok ([], [])
  | _ => dictPairsLoop [] l

end DecodeState

/-! ### Top-level decode entry points.  The DecodeState constructor
joins the input strings with "," and spreads the result into code
points; each entry point then skips leading spaces, runs the grammar
rule, skips trailing spaces, and requires end of input. -/

def joinInput (input : List String) : List Char :=
  (String.intercalate "," input).data

/-- decodeItem (module export, RFC 8941 Section 4.2.3). -/
def decodeItem (input : List String) : Except Err Item :=
  match DecodeState.decodeItem (DecodeState.skipSPs (joinInput input)) with
  | .error e => .error e
  | .ok (item, r) =>
    match DecodeState.skipSPs r with
    | [] => .ok item
    | _ => .error ⟨.syn, "unexpected input"⟩

/-- decodeList (module export, RFC 8941 Section 4.2.1). -/
def decodeList (input : List String) : Except Err (List Member) :=
  match DecodeState.decodeListState (DecodeState.skipSPs (joinInput input)) with
  | .error e => .error e
  | .ok (list, r) =>
    match DecodeState.skipSPs r with
    | [] => .ok list
    | _ => .error ⟨.syn, "unexpected input"⟩

/-- decodeDictionary (module export, RFC 8941 Section 4.2.2). -/
def decodeDictionary (input : List String) : Except Err Dictionary :=
  match DecodeState.decodeDictionaryState (DecodeState.skipSPs (joinInput input)) with
  | .error e => .error e
  | .ok (dict, r) =>
    match DecodeState.skipSPs r with
    | [] => .ok dict
    | _ => .error ⟨.syn, "unexpected input"⟩

/-- The pair-collecting shadow of decodeDictionary. -/
def decodeDictionaryPairs (input : List String) :
    Except Err (List (String × Member)) :=
  match DecodeState.decodeDictionaryPairsState (DecodeState.skipSPs (joinInput input)) with
  | .error e => .error e
  | .ok (ps, r) =>
    match DecodeState.skipSPs r with
    | [] => .ok ps
    | _ => .error ⟨.syn, "unexpected input"⟩

/-! ### Small bind lemmas for the Except monad -/

theorem errBind {α β : Type} (e : Err) (f : α → Except Err β) :
    (Except.error e : Except Err α) >>= f = .error e := rfl

theorem okBind {α β : Type} (a : α) (f : α → Except Err β) :
    (Except.ok a : Except Err α) >>= f = f a := rfl

/-! ### Claims -/

/-- C1: the claim says encoding is total over all eight valid bare-item
kinds and that the "unsupported value type" branch is unreachable for
valid models.  The code contradicts this: encodeBareItem has no
DisplayString branch, so serializing an Item holding any DisplayString
falls through to the unsupported-value TypeError, although
DisplayString.toString exists and the decoder produces DisplayString
values.  This theorem evaluates the encoder on that failing family. -/
theorem c1_displaystring_encode_fails (s : String) (p : Parameters) :
    Item.toStr ⟨.disp s, p⟩ = .error ⟨.type, "unsupported value type"⟩ := rfl

/-- C4 counterexample: a value strictly greater than 999999999999.999
(namely 999999999999.9992) that the Decimal constructor accepts, because
the real bound is Decimal.MAX_VALUE = 999999999999.9993896484375. -/
theorem c4_counterexample :
    (999999999999999 / 1000 : ℚ) < 9999999999999992 / 10000 ∧
    Decimal.make (9999999999999992 / 10000) = .ok ⟨999999999999999⟩ := by
  refine ⟨by decide, ?_⟩
  have hr : roundToEven ((9999999999999992 / 10000 : ℚ) * 1000) = 999999999999999 := by
    decide
  unfold Decimal.make
  rw [if_neg (by decide), hr]

/-- C4 (amended): Decimal construction rejects every value outside
[Decimal.MIN_VALUE, Decimal.MAX_VALUE] (where MAX_VALUE is
999999999999.9993896484375, slightly above 999999999999.999) with the
RangeError whose message nevertheless quotes the bounds as
-999999999999.999 and 999999999999.999; values between 999999999999.999
and MAX_VALUE are accepted. -/
theorem c4_decimal_range_amended (value : ℚ)
    (h : value < Decimal.MIN_VALUE ∨ Decimal.MAX_VALUE < value) :
    Decimal.make value =
      .error ⟨.range, "value must be between -999999999999.999 and 999999999999.999"⟩ := by
  unfold Decimal.make
  rw [if_pos h]

/-- Witness for C4's amended theorem at the concrete out-of-range input
10^12. -/
theorem c4_decimal_range_witness :
    Decimal.make 1000000000000 =
      .error ⟨.range, "value must be between -999999999999.999 and 999999999999.999"⟩ :=
  c4_decimal_range_amended 1000000000000 (by decide)

/-- C5 counterexample: the Item constructor performs no validation, so
constructing an Item from a string containing U+0000 (outside
0x20–0x7E) succeeds, storing the invalid string — contradicting the
claim that construction fails. -/
theorem c5_counterexample :
    validString (String.mk [Char.ofNat 0]) = false ∧
    Item.make (.str (String.mk [Char.ofNat 0])) Parameters.empty =
      { val := .str (String.mk [Char.ofNat 0]), params := Parameters.empty } :=
  ⟨by decide, rfl⟩

/-- C5 (amended): a string with a character outside 0x20–0x7E is
rejected by the Item value setter and by the encoder (both with the
TypeError "string contains invalid characters"), while the Item
constructor stores it unvalidated. -/
theorem c5_string_validation_amended (s : String) (h : validString s = false) :
    (∀ it : Item, it.setValue (.str s) =
      .error ⟨.type, "string contains invalid characters"⟩) ∧
    encodeBareItem (.str s) = .error ⟨.type, "string contains invalid characters"⟩ ∧
    (∀ p : Parameters, Item.make (.str s) p = { val := .str s, params := p }) := by
  refine ⟨?_, ?_, fun p => rfl⟩
  · intro it
    simp [Item.setValue, validateString, h, errBind]
  · simp [encodeBareItem, validateString, h, errBind]

/-- Witness for C5's amended theorem at the string containing U+0000. -/
theorem c5_string_validation_witness :
    (Item.make (.str "a") Parameters.empty).setValue (.str (String.mk [Char.ofNat 0])) =
      .error ⟨.type, "string contains invalid characters"⟩ :=
  (c5_string_validation_amended (String.mk [Char.ofNat 0]) (by decide)).1 _

/-- C8: Parameters preserve insertion order with update-in-place: after
set "a" 1; set "b" 2; set "a" 3 on fresh Parameters the entries iterate
as [("a", 3), ("b", 2)]. -/
theorem c8_parameters_order :
    (do
      let p1 ← Parameters.empty.set "a" (.int ⟨1⟩)
      let p2 ← p1.set "b" (.int ⟨2⟩)
      p2.set "a" (.int ⟨3⟩)) =
      Except.ok (⟨[("a", BareItem.int ⟨3⟩), ("b", BareItem.int ⟨2⟩)]⟩ : Parameters) := by
  decide

/-- C9: Integer(999999999999999) succeeds and stringifies to
"999999999999999"; Integer(1000000000000000) fails with the RangeError
(OutOfRange kind). -/
theorem c9_integer_boundary :
    Integer.make 999999999999999 = .ok ⟨999999999999999⟩ ∧
    Integer.toStr ⟨999999999999999⟩ = "999999999999999" ∧
    Integer.make 1000000000000000 =
      .error ⟨.range, "value must be between -999999999999999 and 999999999999999"⟩ := by
  refine ⟨by decide, ?_, by decide⟩
  decide

/-- Separator idiom, list loop, terminator case: end of input after a
member ends the loop successfully. -/
theorem listLoopSepDone {l : List Char} {m : Member} {r1 : List Char} (acc : List Member)
    (h : DecodeState.decodeItemOrInnerList l = .ok (m, r1))
    (hows : DecodeState.skipOWS r1 = []) :
    DecodeState.listLoop acc l = .ok (acc ++ [m], []) := by
  rw [DecodeState.listLoop.eq_def]
  split
  · rename_i e h1
    rw [h] at h1
    cases h1
  · rename_i m2 r12 h1
    rw [h] at h1
    injection h1 with h1
    injection h1 with hm hr
    subst hm
    subst hr
    split
    · rfl
    · rename_i r3 heq
      rw [hows] at heq
      cases heq
    · rename_i hg1 hg2
      exact (hg1 hows).elim

/-- Separator idiom, list loop: a non-comma character after a member
fails with the unexpected-character SyntaxError. -/
theorem listLoopSepBad {l : List Char} {m : Member} {r1 : List Char} (acc : List Member)
    (h : DecodeState.decodeItemOrInnerList l = .ok (m, r1))
    {c : Char} {t : List Char} (hows : DecodeState.skipOWS r1 = c :: t) (hc : c ≠ ',') :
    DecodeState.listLoop acc l = .error ⟨.syn, "unexpected character"⟩ := by
  rw [DecodeState.listLoop.eq_def]
  split
  · rename_i e h1
    rw [h] at h1
    cases h1
  · rename_i m2 r12 h1
    rw [h] at h1
    injection h1 with h1
    injection h1 with hm hr
    subst hm
    subst hr
    split
    · rename_i heq
      rw [hows] at heq
      cases heq
    · rename_i r3 heq
      rw [hows] at heq
      injection heq with he1 he2
      exact absurd he1 hc
    · rfl

/-- Separator idiom, list loop: a trailing comma at end of input fails
with the unexpected-end-of-input SyntaxError. -/
theorem listLoopSepTrailing {l : List Char} {m : Member} {r1 : List Char} (acc : List Member)
    (h : DecodeState.decodeItemOrInnerList l = .ok (m, r1))
    {t : List Char} (hows : DecodeState.skipOWS r1 = ',' :: t)
    (hows2 : DecodeState.skipOWS t = []) :
    DecodeState.listLoop acc l = .error ⟨.syn, "unexpected end of input"⟩ := by
  rw [DecodeState.listLoop.eq_def]
  split
  · rename_i e h1
    rw [h] at h1
    cases h1
  · rename_i m2 r12 h1
    rw [h] at h1
    injection h1 with h1
    injection h1 with hm hr
    subst hm
    subst hr
    split
    · rename_i heq
      rw [hows] at heq
      cases heq
    · rename_i r3 heq
      rw [hows] at heq
      injection heq with he1 he2
      subst he2
      split
      · rfl
      · rename_i hg
        exact (hg hows2).elim
    · rename_i hg1 hg2
      exact ((hg2 t) hows).elim

/-- Separator idiom, list loop: after a comma and OWS a next member
must follow, and the loop continues on the remaining input. -/
theorem listLoopSepNext {l : List Char} {m : Member} {r1 : List Char} (acc : List Member)
    (h : DecodeState.decodeItemOrInnerList l = .ok (m, r1))
    {t : List Char} {c2 : Char} {t2 : List Char}
    (hows : DecodeState.skipOWS r1 = ',' :: t)
    (hows2 : DecodeState.skipOWS t = c2 :: t2) :
    DecodeState.listLoop acc l = DecodeState.listLoop (acc ++ [m]) (c2 :: t2) := by
  rw [DecodeState.listLoop.eq_def]
  split
  · rename_i e h1
    rw [h] at h1
    cases h1
  · rename_i m2 r12 h1
    rw [h] at h1
    injection h1 with h1
    injection h1 with hm hr
    subst hm
    subst hr
    split
    · rename_i heq
      rw [hows] at heq
      cases heq
    · rename_i r3 heq
      rw [hows] at heq
      injection heq with he1 he2
      subst he2
      split
      · rename_i heq2
        rw [hows2] at heq2
        cases heq2
      · rw [hows2]
    · rename_i hg1 hg2
      exact ((hg2 t) hows).elim

/-- The common entry of the dictionary-loop separator lemmas: key,
value and set all succeeded; characterize the loop by the separator. -/
theorem dictLoopSepDone {l : List Char} {key : String} {r1 : List Char} {m : Member}
    {r3 : List Char} {acc acc2 : Dictionary}
    (hk : DecodeState.decodeKey l = .ok (key, r1))
    (hv : DecodeState.dictValue r1 = .ok (m, r3))
    (hs : acc.set key m = .ok acc2)
    (hows : DecodeState.skipOWS r3 = []) :
    DecodeState.dictLoop acc l = .ok (acc2, []) := by
  rw [DecodeState.dictLoop.eq_def]
  split
  · rename_i e h1
    rw [hk] at h1
    cases h1
  · rename_i key2 r12 h1
    rw [hk] at h1
    injection h1 with h1
    injection h1 with hkey hr
    subst hkey
    subst hr
    split
    · rename_i e h2
      rw [hv] at h2
      cases h2
    · rename_i m2 r32 h2
      rw [hv] at h2
      injection h2 with h2
      injection h2 with hm hr3
      subst hm
      subst hr3
      split
      · rename_i e h3
        rw [hs] at h3
        cases h3
      · rename_i acc3 h3
        rw [hs] at h3
        injection h3 with h3
        subst h3
        split
        · rfl
        · rename_i r5 heq
          rw [hows] at heq
          cases heq
        · rename_i hg1 hg2
          exact (hg1 hows).elim

/-- Dictionary loop: a non-comma character after a member fails with
the unexpected-character SyntaxError. -/
theorem dictLoopSepBad {l : List Char} {key : String} {r1 : List Char} {m : Member}
    {r3 : List Char} {acc acc2 : Dictionary}
    (hk : DecodeState.decodeKey l = .ok (key, r1))
    (hv : DecodeState.dictValue r1 = .ok (m, r3))
    (hs : acc.set key m = .ok acc2)
    {c : Char} {t : List Char} (hows : DecodeState.skipOWS r3 = c :: t) (hc : c ≠ ',') :
    DecodeState.dictLoop acc l = .error ⟨.syn, "unexpected character"⟩ := by
  rw [DecodeState.dictLoop.eq_def]
  split
  · rename_i e h1
    rw [hk] at h1
    cases h1
  · rename_i key2 r12 h1
    rw [hk] at h1
    injection h1 with h1
    injection h1 with hkey hr
    subst hkey
    subst hr
    split
    · rename_i e h2
      rw [hv] at h2
      cases h2
    · rename_i m2 r32 h2
      rw [hv] at h2
      injection h2 with h2
      injection h2 with hm hr3
      subst hm
      subst hr3
      split
      · rename_i e h3
        rw [hs] at h3
        cases h3
      · rename_i acc3 h3
        rw [hs] at h3
        injection h3 with h3
        subst h3
        split
        · rename_i heq
          rw [hows] at heq
          cases heq
        · rename_i r5 heq
          rw [hows] at heq
          injection heq with he1 he2
          exact absurd he1 hc
        · rfl

/-- Dictionary loop: a trailing comma at end of input fails with the
unexpected-end-of-input SyntaxError. -/
theorem dictLoopSepTrailing {l : List Char} {key : String} {r1 : List Char} {m : Member}
    {r3 : List Char} {acc acc2 : Dictionary}
    (hk : DecodeState.decodeKey l = .ok (key, r1))
    (hv : DecodeState.dictValue r1 = .ok (m, r3))
    (hs : acc.set key m = .ok acc2)
    {t : List Char} (hows : DecodeState.skipOWS r3 = ',' :: t)
    (hows2 : DecodeState.skipOWS t = []) :
    DecodeState.dictLoop acc l = .error ⟨.syn, "unexpected end of input"⟩ := by
  rw [DecodeState.dictLoop.eq_def]
  split
  · rename_i e h1
    rw [hk] at h1
    cases h1
  · rename_i key2 r12 h1
    rw [hk] at h1
    injection h1 with h1
    injection h1 with hkey hr
    subst hkey
    subst hr
    split
    · rename_i e h2
      rw [hv] at h2
      cases h2
    · rename_i m2 r32 h2
      rw [hv] at h2
      injection h2 with h2
      injection h2 with hm hr3
      subst hm
      subst hr3
      split
      · rename_i e h3
        rw [hs] at h3
        cases h3
      · rename_i acc3 h3
        rw [hs] at h3
        injection h3 with h3
        subst h3
        split
        · rename_i heq
          rw [hows] at heq
          cases heq
        · rename_i r5 heq
          rw [hows] at heq
          injection heq with he1 he2
          subst he2
          split
          · rfl
          · rename_i hg
            exact (hg hows2).elim
        · rename_i hg1 hg2
          exact ((hg2 t) hows).elim

/-- Dictionary loop: after a comma and OWS the loop continues on the
remaining input. -/
theorem dictLoopSepNext {l : List Char} {key : String} {r1 : List Char} {m : Member}
    {r3 : List Char} {acc acc2 : Dictionary}
    (hk : DecodeState.decodeKey l = .ok (key, r1))
    (hv : DecodeState.dictValue r1 = .ok (m, r3))
    (hs : acc.set key m = .ok acc2)
    {t : List Char} {c2 : Char} {t2 : List Char}
    (hows : DecodeState.skipOWS r3 = ',' :: t)
    (hows2 : DecodeState.skipOWS t = c2 :: t2) :
    DecodeState.dictLoop acc l = DecodeState.dictLoop acc2 (c2 :: t2) := by
  rw [DecodeState.dictLoop.eq_def]
  split
  · rename_i e h1
    rw [hk] at h1
    cases h1
  · rename_i key2 r12 h1
    rw [hk] at h1
    injection h1 with h1
    injection h1 with hkey hr
    subst hkey
    subst hr
    split
    · rename_i e h2
      rw [hv] at h2
      cases h2
    · rename_i m2 r32 h2
      rw [hv] at h2
      injection h2 with h2
      injection h2 with hm hr3
      subst hm
      subst hr3
      split
      · rename_i e h3
        rw [hs] at h3
        cases h3
      · rename_i acc3 h3
        rw [hs] at h3
        injection h3 with h3
        subst h3
        split
        · rename_i heq
          rw [hows] at heq
          cases heq
        · rename_i r5 heq
          rw [hows] at heq
          injection heq with he1 he2
          subst he2
          split
          · rename_i heq2
            rw [hows2] at heq2
            cases heq2
          · rw [hows2]
        · rename_i hg1 hg2
          exact ((hg2 t) hows).elim

/-- C7: decode-list and decode-dictionary return an empty container on
empty input (both for no header occurrence and for one empty string),
and both member loops share the separator idiom: after each member
skipOWS is applied; end of input terminates the parse; any character
other than a comma fails; a comma is consumed, OWS skipped, and a next
member must follow, a trailing comma at end of input failing. -/
theorem c7_empty_and_separators :
    decodeList [] = .ok [] ∧
    decodeList [""] = .ok [] ∧
    decodeDictionary [] = .ok Dictionary.empty ∧
    decodeDictionary [""] = .ok Dictionary.empty ∧
    (∀ (acc : List Member) (l : List Char) (m : Member) (r1 : List Char),
      DecodeState.decodeItemOrInnerList l = .ok (m, r1) →
      (DecodeState.skipOWS r1 = [] →
        DecodeState.listLoop acc l = .ok (acc ++ [m], [])) ∧
      (∀ c t, DecodeState.skipOWS r1 = c :: t → c ≠ ',' →
        DecodeState.listLoop acc l = .error ⟨.syn, "unexpected character"⟩) ∧
      (∀ t, DecodeState.skipOWS r1 = ',' :: t → DecodeState.skipOWS t = [] →
        DecodeState.listLoop acc l = .error ⟨.syn, "unexpected end of input"⟩) ∧
      (∀ t c2 t2, DecodeState.skipOWS r1 = ',' :: t →
        DecodeState.skipOWS t = c2 :: t2 →
        DecodeState.listLoop acc l = DecodeState.listLoop (acc ++ [m]) (c2 :: t2))) ∧
    (∀ (acc acc2 : Dictionary) (l : List Char) (key : String) (r1 : List Char)
        (m : Member) (r3 : List Char),
      DecodeState.decodeKey l = .ok (key, r1) →
      DecodeState.dictValue r1 = .ok (m, r3) →
      acc.set key m = .ok acc2 →
      (DecodeState.skipOWS r3 = [] →
        DecodeState.dictLoop acc l = .ok (acc2, [])) ∧
      (∀ c t, DecodeState.skipOWS r3 = c :: t → c ≠ ',' →
        DecodeState.dictLoop acc l = .error ⟨.syn, "unexpected character"⟩) ∧
      (∀ t, DecodeState.skipOWS r3 = ',' :: t → DecodeState.skipOWS t = [] →
        DecodeState.dictLoop acc l = .error ⟨.syn, "unexpected end of input"⟩) ∧
      (∀ t c2 t2, DecodeState.skipOWS r3 = ',' :: t →
        DecodeState.skipOWS t = c2 :: t2 →
        DecodeState.dictLoop acc l = DecodeState.dictLoop acc2 (c2 :: t2))) := by
  refine ⟨rfl, rfl, rfl, rfl, ?_, ?_⟩
  · intro acc l m r1 h
    exact ⟨listLoopSepDone acc h,
      fun c t hows hc => listLoopSepBad acc h hows hc,
      fun t hows hows2 => listLoopSepTrailing acc h hows hows2,
      fun t c2 t2 hows hows2 => listLoopSepNext acc h hows hows2⟩
  · intro acc acc2 l key r1 m r3 hk hv hs
    exact ⟨dictLoopSepDone hk hv hs,
      fun c t hows hc => dictLoopSepBad hk hv hs hows hc,
      fun t hows hows2 => dictLoopSepTrailing hk hv hs hows hows2,
      fun t c2 t2 hows hows2 => dictLoopSepNext hk hv hs hows hows2⟩

/-! ### Concrete-evaluation helpers for the well-founded loops -/

/-- True when the input does not start with a semicolon (so the
parameters loop stops immediately). -/
def headNotSemi : List Char → Bool
  | ';' :: _ => false
  | _ => true

theorem decodeParamsLoop_stop (acc : Parameters) (l : List Char)
    (h : headNotSemi l = true) :
    DecodeState.decodeParamsLoop acc l = .ok (acc, l) := by
  rw [DecodeState.decodeParamsLoop.eq_def]
  split
  · rename_i rest
    simp [headNotSemi] at h
  · rfl

/-- Evaluation of decodeItem from a bare-item fact when no parameters
follow. -/
theorem decodeItem_eval {l r : List Char} {v : BareItem}
    (hb : DecodeState.decodeBareItem l = .ok (v, r))
    (hp : headNotSemi r = true) :
    DecodeState.decodeItem l = .ok (Item.make v Parameters.empty, r) := by
  unfold DecodeState.decodeItem DecodeState.decodeParameters
  rw [hb]
  simp only [decodeParamsLoop_stop Parameters.empty r hp]

/-- Evaluation of the top-level decodeItem from an item fact consuming
the whole input. -/
theorem decodeItemTop_eval {input : List String} {it : Item}
    (h : DecodeState.decodeItem (DecodeState.skipSPs (joinInput input)) = .ok (it, [])) :
    decodeItem input = .ok it := by
  unfold decodeItem
  rw [h]
  rfl

/-- Witness for C7 at the concrete input "1,": a trailing comma at end
of input fails with the unexpected-end-of-input SyntaxError. -/
theorem c7_witness :
    DecodeState.listLoop [] ['1', ','] = .error ⟨.syn, "unexpected end of input"⟩ := by
  have hb : DecodeState.decodeItemOrInnerList ['1', ','] =
      .ok (.item (Item.make (.int ⟨1⟩) Parameters.empty), [',']) := by
    rw [show DecodeState.decodeItemOrInnerList ['1', ','] =
        (match DecodeState.decodeItem ['1', ','] with
         | .error e => .error e
         | .ok (it, r) => .ok (.item it, r)) from rfl]
    rw [@decodeItem_eval ['1', ','] [','] (.int ⟨1⟩) (by decide) (by decide)]
  exact (c7_empty_and_separators.2.2.2.2.1 [] ['1', ','] _ _ hb).2.2.1 [] rfl rfl

/-! ### Digit-string arithmetic (for the number-parsing claims) -/

/-- The value accumulated by the decoder's digit loop starting from a. -/
def valDigitsFrom (a : Nat) (l : List Char) : Nat :=
  l.foldl (fun x c => x * 10 + digitVal c) a

def valDigits (l : List Char) : Nat := valDigitsFrom 0 l

def headNotDigit : List Char → Bool
  | [] => true
  | c :: _ => !isDigit c

def headNotDot : List Char → Bool
  | [] => true
  | c :: _ => !(c = '.')

theorem valDigitsFrom_cons (a : Nat) (c : Char) (l : List Char) :
    valDigitsFrom a (c :: l) = valDigitsFrom (a * 10 + digitVal c) l := rfl

theorem digitVal_le {c : Char} (hc : isDigit c = true) : digitVal c ≤ 9 := by
  simp only [isDigit, Bool.and_eq_true, decide_eq_true_eq] at hc
  unfold digitVal
  omega

theorem valDigitsFrom_lt : ∀ (l : List Char) (a : Nat), (∀ c ∈ l, isDigit c = true) →
    valDigitsFrom a l < (a + 1) * 10 ^ l.length := by
  intro l
  induction l with
  | nil =>
    intro a h
    simp [valDigitsFrom]
  | cons c t ih =>
    intro a h
    have hd : digitVal c ≤ 9 := digitVal_le (h c (List.mem_cons_self _ _))
    rw [valDigitsFrom_cons]
    calc valDigitsFrom (a * 10 + digitVal c) t
        < (a * 10 + digitVal c + 1) * 10 ^ t.length :=
          ih _ (fun x hx => h x (List.mem_cons_of_mem _ hx))
      _ ≤ ((a + 1) * 10) * 10 ^ t.length :=
          Nat.mul_le_mul_right _ (by omega)
      _ = (a + 1) * 10 ^ (c :: t).length := by
          simp only [List.length_cons]
          ring

theorem valDigits_lt {l : List Char} (h : ∀ c ∈ l, isDigit c = true) :
    valDigits l < 10 ^ l.length := by
  have := valDigitsFrom_lt l 0 h
  simpa [valDigits] using this

/-- The digit loop consumes exactly the digit prefix when at most 15
digits are pending. -/
theorem digitLoop_spec : ∀ (ds : List Char) (num cnt : Nat) (rest : List Char),
    (∀ c ∈ ds, isDigit c = true) → headNotDigit rest = true →
    cnt + ds.length ≤ 15 →
    DecodeState.digitLoop num cnt (ds ++ rest) =
      .ok (valDigitsFrom num ds, cnt + ds.length, rest) := by
  intro ds
  induction ds with
  | nil =>
    intro num cnt rest hd hr hlen
    cases rest with
    | nil => simp [DecodeState.digitLoop, valDigitsFrom]
    | cons c t =>
      simp only [headNotDigit, Bool.not_eq_true'] at hr
      simp [DecodeState.digitLoop, hr, valDigitsFrom]
  | cons c ds' ih =>
    intro num cnt rest hd hr hlen
    have hc : isDigit c = true := hd c (List.mem_cons_self _ _)
    simp only [List.cons_append, DecodeState.digitLoop, hc, if_true, List.append_eq]
    rw [if_neg (by simp only [List.length_cons] at hlen; omega)]
    rw [ih _ _ _ (fun x hx => hd x (List.mem_cons_of_mem _ hx)) hr
      (by simp only [List.length_cons] at hlen; omega)]
    rw [valDigitsFrom_cons]
    have harith : cnt + 1 + ds'.length = cnt + (c :: ds').length := by
      simp only [List.length_cons]
      omega
    rw [harith]

/-- The digit loop fails once a sixteenth digit is consumed. -/
theorem digitLoop_too_long : ∀ (ds : List Char) (num cnt : Nat) (rest : List Char),
    (∀ c ∈ ds, isDigit c = true) → cnt ≤ 15 → 16 ≤ cnt + ds.length →
    DecodeState.digitLoop num cnt (ds ++ rest) = .error ⟨.syn, "number is too long"⟩ := by
  intro ds
  induction ds with
  | nil =>
    intro num cnt rest hd hcnt hlen
    simp only [List.length_nil] at hlen
    omega
  | cons c ds' ih =>
    intro num cnt rest hd hcnt hlen
    have hc : isDigit c = true := hd c (List.mem_cons_self _ _)
    simp only [List.cons_append, DecodeState.digitLoop, hc, if_true, List.append_eq]
    by_cases h16 : cnt + 1 > 15
    · rw [if_pos h16]
    · rw [if_neg h16]
      exact ih _ _ _ (fun x hx => hd x (List.mem_cons_of_mem _ hx)) (by omega)
        (by simp only [List.length_cons] at hlen; omega)

theorem decodeSign_not_minus {c : Char} {t : List Char} (h : ¬ c = '-') :
    DecodeState.decodeSign (c :: t) = .ok (false, c :: t) := by
  rw [DecodeState.decodeSign.eq_def]
  split
  · rename_i rest heq
    injection heq with h1 h2
    exact absurd h1 h
  · rfl

theorem decodeSign_minus_digit {c : Char} {t : List Char} (hc : isDigit c = true) :
    DecodeState.decodeSign ('-' :: c :: t) = .ok (true, c :: t) := by
  simp [DecodeState.decodeSign, hc]

theorem digit_ne_minus {c : Char} (hc : isDigit c = true) : ¬ c = '-' := by
  intro h
  subst h
  simp [isDigit] at hc

theorem Integer.make_int (i : Int) (hlo : -999999999999999 ≤ i)
    (hhi : i ≤ 999999999999999) : Integer.make (i : ℚ) = .ok ⟨i⟩ := by
  unfold Integer.make
  rw [if_neg (by simp [Rat.den_intCast])]
  rw [if_neg]
  · simp [Rat.num_intCast]
  · simp only [Integer.MIN_VALUE, Integer.MAX_VALUE, not_or, not_lt]
    constructor
    · exact_mod_cast hlo
    · exact_mod_cast hhi

theorem roundToEven_intCast (n : Int) : roundToEven (n : ℚ) = n := by
  simp only [roundToEven, Int.floor_intCast]
  rw [if_neg (by norm_num)]
  unfold jsRound
  rw [Int.floor_eq_iff]
  constructor
  · norm_num
  · push_cast
    norm_num

theorem Decimal.make_exact (n : Int) (hlo : Decimal.MIN_VALUE ≤ (n : ℚ) / 1000)
    (hhi : (n : ℚ) / 1000 ≤ Decimal.MAX_VALUE) :
    Decimal.make ((n : ℚ) / 1000) = .ok ⟨n⟩ := by
  unfold Decimal.make
  rw [if_neg (by rw [not_or, not_lt, not_lt]; exact ⟨hlo, hhi⟩)]
  have h : ((n : ℚ) / 1000) * 1000 = (n : ℚ) := by
    rw [div_mul_cancel₀ _ (by norm_num : (1000 : ℚ) ≠ 0)]
  rw [h, roundToEven_intCast]

/-- finishDec with the concrete denominators the fraction steps pass:
den = 10^k with k fractional digits, m the complementary power scaling
the fraction to thousandths. -/
theorem finishDec_spec (neg : Bool) (num f den m : Nat)
    (hden : (den = 10 ∧ m = 100) ∨ (den = 100 ∧ m = 10) ∨ (den = 1000 ∧ m = 1))
    (hnum : num ≤ 999999999999) (hf : f < den) (rest : List Char) :
    DecodeState.finishDec neg num f den rest =
      .ok (.dec ⟨(if neg then -1 else 1) * ((num : Int) * 1000 + (f : Int) * (m : Int))⟩, rest) := by
  obtain ⟨n, hn⟩ : ∃ n : Int, n = (num : Int) * 1000 + (f : Int) * (m : Int) :=
    ⟨_, rfl⟩
  have hq : (num : ℚ) + (f : ℚ) / (den : ℚ) = (n : ℚ) / 1000 := by
    rw [hn]
    rcases hden with ⟨h1, h2⟩ | ⟨h1, h2⟩ | ⟨h1, h2⟩ <;> subst h1 <;> subst h2 <;>
      push_cast <;> ring
  have h0 : (0 : ℚ) ≤ (num : ℚ) + (f : ℚ) / (den : ℚ) := by
    have hdenq : (0 : ℚ) < (den : ℚ) := by
      rcases hden with ⟨h1, _⟩ | ⟨h1, _⟩ | ⟨h1, _⟩ <;> subst h1 <;> norm_num
    positivity
  have hmax : (num : ℚ) + (f : ℚ) / (den : ℚ) ≤ Decimal.MAX_VALUE := by
    have h1 : (num : ℚ) ≤ 999999999999 := by exact_mod_cast hnum
    have h2 : (f : ℚ) / (den : ℚ) ≤ 999 / 1000 := by
      rcases hden with ⟨hd1, _⟩ | ⟨hd1, _⟩ | ⟨hd1, _⟩ <;> subst hd1
      · have hfq : (f : ℚ) ≤ 9 := by exact_mod_cast (by omega : f ≤ 9)
        rw [div_le_div_iff (by norm_num) (by norm_num)]
        push_cast
        linarith
      · have hfq : (f : ℚ) ≤ 99 := by exact_mod_cast (by omega : f ≤ 99)
        rw [div_le_div_iff (by norm_num) (by norm_num)]
        push_cast
        linarith
      · have hfq : (f : ℚ) ≤ 999 := by exact_mod_cast (by omega : f ≤ 999)
        rw [div_le_div_iff (by norm_num) (by norm_num)]
        push_cast
        linarith
    calc (num : ℚ) + (f : ℚ) / (den : ℚ) ≤ 999999999999 + 999 / 1000 :=
          add_le_add h1 h2
      _ ≤ Decimal.MAX_VALUE := by unfold Decimal.MAX_VALUE; norm_num
  have hmax0 : (0 : ℚ) ≤ Decimal.MAX_VALUE := by
    unfold Decimal.MAX_VALUE
    norm_num
  unfold DecodeState.finishDec
  cases neg with
  | false =>
    rw [if_neg (by simp)]
    rw [hq, Decimal.make_exact]
    · simp [hn]
    · rw [← hq]
      unfold Decimal.MIN_VALUE
      linarith [hmax, h0]
    · rw [← hq]
      exact hmax
  | true =>
    rw [if_pos rfl]
    have hcast : ((-n : ℤ) : ℚ) / 1000 = -((n : ℚ) / 1000) := by
      push_cast
      ring
    have hneg : -((num : ℚ) + (f : ℚ) / (den : ℚ)) = ((-n : ℤ) : ℚ) / 1000 := by
      rw [hcast, hq]
    rw [hneg, Decimal.make_exact]
    · simp [hn]
    · unfold Decimal.MIN_VALUE
      rw [hcast, ← hq]
      exact neg_le_neg hmax
    · rw [hcast, ← hq]
      linarith [h0, hmax0]

theorem decodeFrac_empty (neg : Bool) (num : Nat) (l3 : List Char)
    (h : headNotDigit l3 = true) :
    DecodeState.decodeFrac neg num l3 = .error (DecodeState.errUnexpected l3) := by
  cases l3 with
  | nil => rfl
  | cons c t =>
    simp only [headNotDigit, Bool.not_eq_true'] at h
    simp [DecodeState.decodeFrac, h]

theorem decodeFrac_one (neg : Bool) (num : Nat) (c1 : Char) (rest : List Char)
    (h1 : isDigit c1 = true) (hr : headNotDigit rest = true) :
    DecodeState.decodeFrac neg num (c1 :: rest) =
      DecodeState.finishDec neg num (digitVal c1) 10 rest := by
  cases rest with
  | nil => simp [DecodeState.decodeFrac, h1]
  | cons c2 t =>
    simp only [headNotDigit, Bool.not_eq_true'] at hr
    simp [DecodeState.decodeFrac, h1, hr]

theorem decodeFrac_two (neg : Bool) (num : Nat) (c1 c2 : Char) (rest : List Char)
    (h1 : isDigit c1 = true) (h2 : isDigit c2 = true)
    (hr : headNotDigit rest = true) :
    DecodeState.decodeFrac neg num (c1 :: c2 :: rest) =
      DecodeState.finishDec neg num (digitVal c1 * 10 + digitVal c2) 100 rest := by
  cases rest with
  | nil => simp [DecodeState.decodeFrac, h1, h2]
  | cons c3 t =>
    simp only [headNotDigit, Bool.not_eq_true'] at hr
    simp [DecodeState.decodeFrac, h1, h2, hr]

theorem decodeFrac_three (neg : Bool) (num : Nat) (c1 c2 c3 : Char)
    (rest : List Char) (h1 : isDigit c1 = true) (h2 : isDigit c2 = true)
    (h3 : isDigit c3 = true) (hr : headNotDigit rest = true) :
    DecodeState.decodeFrac neg num (c1 :: c2 :: c3 :: rest) =
      DecodeState.finishDec neg num
        ((digitVal c1 * 10 + digitVal c2) * 10 + digitVal c3) 1000 rest := by
  cases rest with
  | nil => simp [DecodeState.decodeFrac, h1, h2, h3]
  | cons c4 t =>
    simp only [headNotDigit, Bool.not_eq_true'] at hr
    simp [DecodeState.decodeFrac, h1, h2, h3, hr]

theorem decodeFrac_four (neg : Bool) (num : Nat) (c1 c2 c3 c4 : Char)
    (rest : List Char) (h1 : isDigit c1 = true) (h2 : isDigit c2 = true)
    (h3 : isDigit c3 = true) (h4 : isDigit c4 = true) :
    DecodeState.decodeFrac neg num (c1 :: c2 :: c3 :: c4 :: rest) =
      .error ⟨.syn, "number is too long"⟩ := by
  simp [DecodeState.decodeFrac, h1, h2, h3, h4]

theorem afterDigits_dot (neg : Bool) (num cnt : Nat) (l3 : List Char)
    (hcnt : ¬ cnt > 12) :
    DecodeState.afterDigits neg num cnt ('.' :: l3) =
      DecodeState.decodeFrac neg num l3 := by
  simp [DecodeState.afterDigits, hcnt]

theorem afterDigits_dot_long (neg : Bool) (num cnt : Nat) (l3 : List Char)
    (hcnt : cnt > 12) :
    DecodeState.afterDigits neg num cnt ('.' :: l3) =
      .error ⟨.syn, "number is too long"⟩ := by
  simp [DecodeState.afterDigits, hcnt]

theorem afterDigits_int (neg : Bool) (num cnt : Nat) (l2 : List Char)
    (hdot : headNotDot l2 = true) (hnum : num ≤ 999999999999999) :
    DecodeState.afterDigits neg num cnt l2 =
      .ok (.int ⟨if neg then -(num : Int) else (num : Int)⟩, l2) := by
  have hb : ((num : ℤ)) ≤ 999999999999999 := by exact_mod_cast hnum
  have hmk : Integer.make (if neg then -(num : ℚ) else (num : ℚ)) =
      .ok ⟨if neg then -(num : Int) else (num : Int)⟩ := by
    cases neg with
    | false =>
      rw [if_neg (by simp), if_neg (by simp)]
      rw [show ((num : ℕ) : ℚ) = (((num : ℕ) : ℤ) : ℚ) from by norm_cast]
      exact Integer.make_int _ (by omega) hb
    | true =>
      rw [if_pos rfl, if_pos rfl]
      rw [show -((num : ℕ) : ℚ) = (((-(num : ℕ) : ℤ)) : ℚ) from by norm_cast]
      exact Integer.make_int _ (by omega) (by omega)
  cases l2 with
  | nil =>
    simp only [DecodeState.afterDigits]
    rw [hmk]
  | cons c t =>
    have hc : ¬ c = '.' := by
      simp only [headNotDot, Bool.not_eq_true', decide_eq_false_iff_not] at hdot
      exact hdot
    rw [DecodeState.afterDigits.eq_def]
    split
    · rename_i l3 heq
      injection heq with ha hb2
      exact absurd ha hc
    · rw [hmk]

/-- The optional sign prefix of a number serialization. -/
def signChars (neg : Bool) : List Char := if neg then ['-'] else []

theorem decodeSign_spec (neg : Bool) (ds tail : List Char) (hne : ds ≠ [])
    (hd : ∀ c ∈ ds, isDigit c = true) :
    DecodeState.decodeSign (signChars neg ++ (ds ++ tail)) = .ok (neg, ds ++ tail) := by
  cases ds with
  | nil => exact absurd rfl hne
  | cons c t =>
    have hc := hd c (List.mem_cons_self _ _)
    cases neg with
    | false =>
      show DecodeState.decodeSign (c :: (t ++ tail)) = .ok (false, c :: (t ++ tail))
      exact decodeSign_not_minus (digit_ne_minus hc)
    | true =>
      show DecodeState.decodeSign ('-' :: c :: (t ++ tail)) = .ok (true, c :: (t ++ tail))
      exact decodeSign_minus_digit hc

theorem decodeIntegerOrDecimal_eval {l l1 l2 : List Char} {neg : Bool}
    {num cnt : Nat}
    (hs : DecodeState.decodeSign l = .ok (neg, l1))
    (hl : DecodeState.digitLoop 0 0 l1 = .ok (num, cnt, l2)) :
    DecodeState.decodeIntegerOrDecimal l = DecodeState.afterDigits neg num cnt l2 := by
  simp only [DecodeState.decodeIntegerOrDecimal, hs, hl]

theorem decodeIntegerOrDecimal_eval_err {l l1 : List Char} {neg : Bool} {e : Err}
    (hs : DecodeState.decodeSign l = .ok (neg, l1))
    (hl : DecodeState.digitLoop 0 0 l1 = .error e) :
    DecodeState.decodeIntegerOrDecimal l = .error e := by
  simp only [DecodeState.decodeIntegerOrDecimal, hs, hl]

theorem valDigits_one (c : Char) : valDigits [c] = digitVal c := by
  simp [valDigits, valDigitsFrom]

theorem valDigits_two (c1 c2 : Char) :
    valDigits [c1, c2] = digitVal c1 * 10 + digitVal c2 := by
  simp [valDigits, valDigitsFrom]

theorem valDigits_three (c1 c2 c3 : Char) :
    valDigits [c1, c2, c3] = (digitVal c1 * 10 + digitVal c2) * 10 + digitVal c3 := by
  simp [valDigits, valDigitsFrom]

theorem valDigits_le_max {ds : List Char} (hd : ∀ c ∈ ds, isDigit c = true)
    (hlen : ds.length ≤ 15) : valDigits ds ≤ 999999999999999 := by
  have h1 := valDigits_lt hd
  have h2 : (10 : Nat) ^ ds.length ≤ 10 ^ 15 :=
    Nat.pow_le_pow_right (by norm_num) hlen
  omega

theorem valDigits_le_dec {ds : List Char} (hd : ∀ c ∈ ds, isDigit c = true)
    (hlen : ds.length ≤ 12) : valDigits ds ≤ 999999999999 := by
  have h1 := valDigits_lt hd
  have h2 : (10 : Nat) ^ ds.length ≤ 10 ^ 12 :=
    Nat.pow_le_pow_right (by norm_num) hlen
  omega

theorem digitLoop_spec' (ds rest : List Char)
    (hd : ∀ c ∈ ds, isDigit c = true) (hr : headNotDigit rest = true)
    (hlen : ds.length ≤ 15) :
    DecodeState.digitLoop 0 0 (ds ++ rest) = .ok (valDigits ds, ds.length, rest) := by
  have h := digitLoop_spec ds 0 0 rest hd hr (by omega)
  simpa [valDigits] using h

/-- **C6**: number parsing in the decoder, for a sign-prefixed run of
digits ds: (a) a sixteenth digit fails with "number is too long";
(b) with no '.' following, the result is an Integer with the sign
applied; (c) a '.' after more than 12 integer digits fails with
"number is too long"; (d) an empty fractional part fails; (e) one to
three fractional digits produce a Decimal scaled to thousandths with
the sign applied; (f) a fourth fractional digit fails with "number is
too long". -/
theorem c6_number_parsing (neg : Bool) (ds : List Char)
    (hd : ∀ c ∈ ds, isDigit c = true) (hne : ds ≠ []) :
    (16 ≤ ds.length → ∀ rest,
      DecodeState.decodeIntegerOrDecimal (signChars neg ++ (ds ++ rest)) =
        .error ⟨.syn, "number is too long"⟩) ∧
    (ds.length ≤ 15 → ∀ rest, headNotDigit rest = true → headNotDot rest = true →
      DecodeState.decodeIntegerOrDecimal (signChars neg ++ (ds ++ rest)) =
        .ok (.int ⟨if neg then -(valDigits ds : Int) else (valDigits ds : Int)⟩, rest)) ∧
    (13 ≤ ds.length → ds.length ≤ 15 → ∀ rest,
      DecodeState.decodeIntegerOrDecimal (signChars neg ++ (ds ++ '.' :: rest)) =
        .error ⟨.syn, "number is too long"⟩) ∧
    (ds.length ≤ 12 → ∀ rest, headNotDigit rest = true →
      DecodeState.decodeIntegerOrDecimal (signChars neg ++ (ds ++ '.' :: rest)) =
        .error (DecodeState.errUnexpected rest)) ∧
    (ds.length ≤ 12 → ∀ fs rest, (∀ c ∈ fs, isDigit c = true) →
      1 ≤ fs.length → fs.length ≤ 3 → headNotDigit rest = true →
      DecodeState.decodeIntegerOrDecimal
          (signChars neg ++ (ds ++ '.' :: (fs ++ rest))) =
        .ok (.dec ⟨(if neg then -1 else 1) *
          ((valDigits ds : Int) * 1000 +
            (valDigits fs : Int) * ((10 ^ (3 - fs.length) : Nat) : Int))⟩, rest)) ∧
    (ds.length ≤ 12 → ∀ fs rest, (∀ c ∈ fs, isDigit c = true) → 4 ≤ fs.length →
      DecodeState.decodeIntegerOrDecimal
          (signChars neg ++ (ds ++ '.' :: (fs ++ rest))) =
        .error ⟨.syn, "number is too long"⟩) := by
  refine ⟨?_, ?_, ?_, ?_, ?_, ?_⟩
  · intro h16 rest
    exact decodeIntegerOrDecimal_eval_err (decodeSign_spec neg ds rest hne hd)
      (digitLoop_too_long ds 0 0 rest hd (by omega) (by omega))
  · intro h15 rest hrd hrdot
    rw [decodeIntegerOrDecimal_eval (decodeSign_spec neg ds rest hne hd)
      (digitLoop_spec' ds rest hd hrd h15)]
    exact afterDigits_int neg _ _ rest hrdot (valDigits_le_max hd h15)
  · intro h13 h15 rest
    rw [decodeIntegerOrDecimal_eval (decodeSign_spec neg ds ('.' :: rest) hne hd)
      (digitLoop_spec' ds ('.' :: rest) hd rfl h15)]
    exact afterDigits_dot_long neg _ _ rest (by omega)
  · intro h12 rest hrd
    rw [decodeIntegerOrDecimal_eval (decodeSign_spec neg ds ('.' :: rest) hne hd)
      (digitLoop_spec' ds ('.' :: rest) hd rfl (by omega))]
    rw [afterDigits_dot neg _ _ rest (by omega)]
    exact decodeFrac_empty neg _ rest hrd
  · intro h12 fs rest hfd hlen1 hlen3 hrd
    have hnum : valDigits ds ≤ 999999999999 := valDigits_le_dec hd h12
    cases fs with
    | nil => simp at hlen1
    | cons c1 fs1 =>
      have h1 : isDigit c1 = true := hfd c1 (by simp)
      cases fs1 with
      | nil =>
        rw [decodeIntegerOrDecimal_eval
          (decodeSign_spec neg ds ('.' :: ([c1] ++ rest)) hne hd)
          (digitLoop_spec' ds ('.' :: ([c1] ++ rest)) hd rfl (by omega))]
        rw [afterDigits_dot neg _ _ _ (by omega)]
        rw [show (([c1] : List Char) ++ rest) = c1 :: rest from rfl]
        rw [decodeFrac_one neg _ c1 rest h1 hrd]
        rw [finishDec_spec neg _ (digitVal c1) 10 100 (Or.inl ⟨rfl, rfl⟩) hnum
          (by have := digitVal_le h1; omega) rest]
        simp only [valDigits_one, List.length_cons, List.length_nil]
        norm_num
      | cons c2 fs2 =>
        have h2 : isDigit c2 = true := hfd c2 (by simp)
        cases fs2 with
        | nil =>
          rw [decodeIntegerOrDecimal_eval
            (decodeSign_spec neg ds ('.' :: ([c1, c2] ++ rest)) hne hd)
            (digitLoop_spec' ds ('.' :: ([c1, c2] ++ rest)) hd rfl (by omega))]
          rw [afterDigits_dot neg _ _ _ (by omega)]
          rw [show (([c1, c2] : List Char) ++ rest) = c1 :: c2 :: rest from rfl]
          rw [decodeFrac_two neg _ c1 c2 rest h1 h2 hrd]
          rw [finishDec_spec neg _ (digitVal c1 * 10 + digitVal c2) 100 10
            (Or.inr (Or.inl ⟨rfl, rfl⟩)) hnum
            (by have := digitVal_le h1; have := digitVal_le h2; omega) rest]
          simp only [valDigits_two, List.length_cons, List.length_nil]
          norm_num
        | cons c3 fs3 =>
          have h3 : isDigit c3 = true := hfd c3 (by simp)
          cases fs3 with
          | nil =>
            rw [decodeIntegerOrDecimal_eval
              (decodeSign_spec neg ds ('.' :: ([c1, c2, c3] ++ rest)) hne hd)
              (digitLoop_spec' ds ('.' :: ([c1, c2, c3] ++ rest)) hd rfl (by omega))]
            rw [afterDigits_dot neg _ _ _ (by omega)]
            rw [show (([c1, c2, c3] : List Char) ++ rest) = c1 :: c2 :: c3 :: rest from rfl]
            rw [decodeFrac_three neg _ c1 c2 c3 rest h1 h2 h3 hrd]
            rw [finishDec_spec neg _ ((digitVal c1 * 10 + digitVal c2) * 10 + digitVal c3)
              1000 1 (Or.inr (Or.inr ⟨rfl, rfl⟩)) hnum
              (by have := digitVal_le h1; have := digitVal_le h2;
                  have := digitVal_le h3; omega) rest]
            simp only [valDigits_three, List.length_cons, List.length_nil]
            norm_num
          | cons c4 fs4 =>
            simp only [List.length_cons, List.length_nil] at hlen3
            omega
  · intro h12 fs rest hfd hlen4
    cases fs with
    | nil => simp at hlen4
    | cons c1 fs1 =>
    cases fs1 with
    | nil => simp only [List.length_cons, List.length_nil] at hlen4; omega
    | cons c2 fs2 =>
    cases fs2 with
    | nil => simp only [List.length_cons, List.length_nil] at hlen4; omega
    | cons c3 fs3 =>
    cases fs3 with
    | nil => simp only [List.length_cons, List.length_nil] at hlen4; omega
    | cons c4 fs4 =>
      have h1 : isDigit c1 = true := hfd c1 (by simp)
      have h2 : isDigit c2 = true := hfd c2 (by simp)
      have h3 : isDigit c3 = true := hfd c3 (by simp)
      have h4 : isDigit c4 = true := hfd c4 (by simp)
      rw [decodeIntegerOrDecimal_eval
        (decodeSign_spec neg ds ('.' :: ((c1 :: c2 :: c3 :: c4 :: fs4) ++ rest)) hne hd)
        (digitLoop_spec' ds ('.' :: ((c1 :: c2 :: c3 :: c4 :: fs4) ++ rest)) hd rfl
          (by omega))]
      rw [afterDigits_dot neg _ _ _ (by omega)]
      rw [show ((c1 :: c2 :: c3 :: c4 :: fs4) ++ rest) =
        c1 :: c2 :: c3 :: c4 :: (fs4 ++ rest) from rfl]
      exact decodeFrac_four neg _ c1 c2 c3 c4 (fs4 ++ rest) h1 h2 h3 h4

theorem c6_witness :
    DecodeState.decodeIntegerOrDecimal ['-', '1', '2', '.', '5'] =
      .ok (.dec ⟨-12500⟩, ([] : List Char)) := by
  have h := (c6_number_parsing true ['1', '2'] (by decide) (by decide)).2.2.2.2.1
    (by decide) ['5'] [] (by decide) (by decide) (by decide) (by decide)
  exact h

/-! ### Error taxonomy of the decoder (claim C3).  All decode-time
failures are syntax errors except three validation shapes: key
validation inside Map.set, UTF-8 validation of display strings, and
base64 validation in atob. -/

/-- The decoder's possible error shapes: SyntaxError, or one of the
three non-grammar validation errors. -/
def okErr (e : Err) : Prop :=
  e.kind = ErrKind.syn ∨ e = ⟨.type, "key contains invalid characters"⟩ ∨
    e = ⟨.type, "invalid utf-8"⟩ ∨ e = ⟨.invalidChar, "invalid base64"⟩

theorem errUnexpected_kind (l : List Char) :
    (DecodeState.errUnexpected l).kind = ErrKind.syn := by
  cases l <;> rfl

theorem okErr_unexpected (l : List Char) : okErr (DecodeState.errUnexpected l) :=
  Or.inl (errUnexpected_kind l)

theorem paramsSet_err {p : Parameters} {key : String} {value : BareItem}
    {e : Err} (h : Parameters.set p key value = .error e) :
    e = ⟨.type, "key contains invalid characters"⟩ := by
  unfold Parameters.set validateKey at h
  by_cases hk : validKey key
  · rw [if_pos hk] at h
    cases h
  · rw [if_neg hk] at h
    cases h
    rfl

theorem dictSet_err {d : Dictionary} {key : String} {value : Member}
    {e : Err} (h : Dictionary.set d key value = .error e) :
    e = ⟨.type, "key contains invalid characters"⟩ := by
  unfold Dictionary.set validateKey at h
  by_cases hk : validKey key
  · rw [if_pos hk] at h
    cases h
  · rw [if_neg hk] at h
    cases h
    rfl

theorem Token.make_valid {s : String} (h : validToken s = true) :
    Token.make s = .ok ⟨s⟩ := by
  unfold Token.make validateToken
  rw [if_pos h]
  rfl

theorem tokenStart_tail {c : Char} (h : tokenStartOk c = true) :
    tokenTailOk c = true := by
  simp only [tokenStartOk, Bool.or_eq_true, decide_eq_true_eq] at h
  rcases h with h | h
  · simp [tokenTailOk, h]
  · subst h
    decide

theorem spanP_all (p : Char → Bool) :
    ∀ l : List Char, ∀ c ∈ (spanP p l).1, p c = true := by
  intro l
  induction l with
  | nil =>
    intro c hc
    simp [spanP] at hc
  | cons a t ih =>
    intro c hc
    by_cases hp : p a
    · simp only [spanP, hp, if_true] at hc
      rcases List.mem_cons.mp hc with rfl | hc2
      · exact hp
      · exact ih c hc2
    · simp only [spanP, hp, if_false] at hc
      simp at hc

theorem Integer.make_signed (neg : Bool) (num : Nat)
    (h : num ≤ 999999999999999) :
    Integer.make (if neg then -(num : ℚ) else (num : ℚ)) =
      .ok ⟨if neg then -(num : Int) else (num : Int)⟩ := by
  have hb : ((num : ℤ)) ≤ 999999999999999 := by exact_mod_cast h
  cases neg with
  | false =>
    rw [if_neg (by simp), if_neg (by simp)]
    rw [show ((num : ℕ) : ℚ) = (((num : ℕ) : ℤ) : ℚ) from by norm_cast]
    exact Integer.make_int _ (by omega) hb
  | true =>
    rw [if_pos rfl, if_pos rfl]
    rw [show -((num : ℕ) : ℚ) = (((-(num : ℕ) : ℤ)) : ℚ) from by norm_cast]
    exact Integer.make_int _ (by omega) (by omega)

theorem digitLoop_errOk : ∀ (l : List Char) (num cnt : Nat) (e : Err),
    DecodeState.digitLoop num cnt l = .error e →
    e = ⟨.syn, "number is too long"⟩ := by
  intro l
  induction l with
  | nil =>
    intro num cnt e h
    cases h
  | cons c rest ih =>
    intro num cnt e h
    simp only [DecodeState.digitLoop] at h
    split at h
    · split at h
      · cases h
        rfl
      · exact ih _ _ _ h
    · cases h

theorem digitLoop_ok_bound : ∀ (l : List Char) (num cnt num' cnt' : Nat)
    (l2 : List Char), DecodeState.digitLoop num cnt l = .ok (num', cnt', l2) →
    num < 10 ^ cnt → cnt ≤ 15 → num' < 10 ^ cnt' ∧ cnt' ≤ 15 := by
  intro l
  induction l with
  | nil =>
    intro num cnt num' cnt' l2 h hb hc
    simp only [DecodeState.digitLoop, Except.ok.injEq, Prod.mk.injEq] at h
    obtain ⟨rfl, rfl, -⟩ := h
    exact ⟨hb, hc⟩
  | cons c rest ih =>
    intro num cnt num' cnt' l2 h hb hc
    simp only [DecodeState.digitLoop] at h
    split at h
    · rename_i hdig
      split at h
      · cases h
      · rename_i h16
        have hd : digitVal c ≤ 9 := digitVal_le hdig
        have hpow : 10 ^ (cnt + 1) = 10 ^ cnt * 10 := by ring
        exact ih _ _ _ _ _ h (by omega) (by omega)
    · simp only [Except.ok.injEq, Prod.mk.injEq] at h
      obtain ⟨rfl, rfl, -⟩ := h
      exact ⟨hb, hc⟩

theorem decodeSign_errOk {l : List Char} {e : Err}
    (h : DecodeState.decodeSign l = .error e) : okErr e := by
  rw [DecodeState.decodeSign.eq_def] at h
  split at h
  · rename_i rest
    split at h
    · split at h
      · cases h
      · cases h
        exact okErr_unexpected _
    · cases h
      exact okErr_unexpected _
  · cases h

theorem decodeFrac_errOk {neg : Bool} {num : Nat} {l3 : List Char} {e : Err}
    (hnum : num ≤ 999999999999)
    (h : DecodeState.decodeFrac neg num l3 = .error e) : okErr e := by
  cases l3 with
  | nil =>
    rw [decodeFrac_empty neg num [] rfl] at h
    cases h
    exact okErr_unexpected _
  | cons c1 t1 =>
    by_cases h1 : isDigit c1 = true
    · cases t1 with
      | nil =>
        rw [decodeFrac_one neg num c1 [] h1 rfl] at h
        rw [finishDec_spec neg num (digitVal c1) 10 100 (Or.inl ⟨rfl, rfl⟩) hnum
          (by have := digitVal_le h1; omega) []] at h
        cases h
      | cons c2 t2 =>
        by_cases h2 : isDigit c2 = true
        · cases t2 with
          | nil =>
            rw [decodeFrac_two neg num c1 c2 [] h1 h2 rfl] at h
            rw [finishDec_spec neg num (digitVal c1 * 10 + digitVal c2) 100 10
              (Or.inr (Or.inl ⟨rfl, rfl⟩)) hnum
              (by have := digitVal_le h1; have := digitVal_le h2; omega) []] at h
            cases h
          | cons c3 t3 =>
            by_cases h3 : isDigit c3 = true
            · cases t3 with
              | nil =>
                rw [decodeFrac_three neg num c1 c2 c3 [] h1 h2 h3 rfl] at h
                rw [finishDec_spec neg num
                  ((digitVal c1 * 10 + digitVal c2) * 10 + digitVal c3) 1000 1
                  (Or.inr (Or.inr ⟨rfl, rfl⟩)) hnum
                  (by have := digitVal_le h1; have := digitVal_le h2;
                      have := digitVal_le h3; omega) []] at h
                cases h
              | cons c4 t4 =>
                by_cases h4 : isDigit c4 = true
                · rw [decodeFrac_four neg num c1 c2 c3 c4 t4 h1 h2 h3 h4] at h
                  cases h
                  exact Or.inl rfl
                · simp only [Bool.not_eq_true] at h4
                  rw [decodeFrac_three neg num c1 c2 c3 (c4 :: t4) h1 h2 h3
                    (by simp [headNotDigit, h4])] at h
                  rw [finishDec_spec neg num
                    ((digitVal c1 * 10 + digitVal c2) * 10 + digitVal c3) 1000 1
                    (Or.inr (Or.inr ⟨rfl, rfl⟩)) hnum
                    (by have := digitVal_le h1; have := digitVal_le h2;
                        have := digitVal_le h3; omega) (c4 :: t4)] at h
                  cases h
            · simp only [Bool.not_eq_true] at h3
              rw [decodeFrac_two neg num c1 c2 (c3 :: t3) h1 h2
                (by simp [headNotDigit, h3])] at h
              rw [finishDec_spec neg num (digitVal c1 * 10 + digitVal c2) 100 10
                (Or.inr (Or.inl ⟨rfl, rfl⟩)) hnum
                (by have := digitVal_le h1; have := digitVal_le h2; omega)
                (c3 :: t3)] at h
              cases h
        · simp only [Bool.not_eq_true] at h2
          rw [decodeFrac_one neg num c1 (c2 :: t2) h1
            (by simp [headNotDigit, h2])] at h
          rw [finishDec_spec neg num (digitVal c1) 10 100 (Or.inl ⟨rfl, rfl⟩) hnum
            (by have := digitVal_le h1; omega) (c2 :: t2)] at h
          cases h
    · simp only [Bool.not_eq_true] at h1
      rw [decodeFrac_empty neg num (c1 :: t1) (by simp [headNotDigit, h1])] at h
      cases h
      exact okErr_unexpected _

theorem afterDigits_errOk {neg : Bool} {num cnt : Nat} {l2 : List Char} {e : Err}
    (hb : num < 10 ^ cnt) (hc : cnt ≤ 15)
    (h : DecodeState.afterDigits neg num cnt l2 = .error e) : okErr e := by
  rw [DecodeState.afterDigits.eq_def] at h
  split at h
  · split at h
    · cases h
      exact Or.inl rfl
    · rename_i h12
      have hnum : num ≤ 999999999999 := by
        have hp : (10 : ℕ) ^ cnt ≤ 10 ^ 12 :=
          Nat.pow_le_pow_right (by norm_num) (by omega)
        omega
      exact decodeFrac_errOk hnum h
  · have hnum : num ≤ 999999999999999 := by
      have hp : (10 : ℕ) ^ cnt ≤ 10 ^ 15 :=
        Nat.pow_le_pow_right (by norm_num) hc
      omega
    rw [Integer.make_signed neg num hnum] at h
    simp at h

theorem decodeIntegerOrDecimal_errOk {l : List Char} {e : Err}
    (h : DecodeState.decodeIntegerOrDecimal l = .error e) : okErr e := by
  unfold DecodeState.decodeIntegerOrDecimal at h
  split at h
  · rename_i e1 hsgn
    cases h
    exact decodeSign_errOk hsgn
  · rename_i neg l1 hsgn
    split at h
    · rename_i e2 hdl
      cases h
      have he := digitLoop_errOk _ _ _ _ hdl
      subst he
      exact Or.inl rfl
    · rename_i num cnt l2 hdl
      have hbd := digitLoop_ok_bound l1 0 0 num cnt l2 hdl (by norm_num) (by norm_num)
      exact afterDigits_errOk hbd.1 hbd.2 h

theorem decodeStringLoopN_errOk : ∀ (n : Nat) (l : List Char), l.length ≤ n →
    ∀ e : Err, DecodeState.decodeStringLoop l = .error e →
    e.kind = ErrKind.syn := by
  intro n
  induction n with
  | zero =>
    intro l hl e h
    cases l with
    | nil =>
      cases h
      rfl
    | cons c rest =>
      simp only [List.length_cons] at hl
      omega
  | succ n ih =>
    intro l hl e h
    rw [DecodeState.decodeStringLoop.eq_def] at h
    split at h
    · cases h
      rfl
    · rename_i c rest
      split at h
      · split at h
        · rename_i c2 rest2
          split at h
          · split at h
            · rename_i e2 hrec
              cases h
              exact ih rest2 (by simp only [List.length_cons] at hl ⊢; omega) _ hrec
            · cases h
          · cases h
            exact errUnexpected_kind _
        · cases h
          exact errUnexpected_kind _
      · split at h
        · cases h
        · split at h
          · split at h
            · rename_i e2 hrec
              cases h
              exact ih rest (by simp only [List.length_cons] at hl ⊢; omega) _ hrec
            · cases h
          · cases h
            exact errUnexpected_kind _

theorem decodeString_errOk {l : List Char} {e : Err}
    (h : DecodeState.decodeString l = .error e) : okErr e := by
  rw [DecodeState.decodeString.eq_def] at h
  split at h
  · rename_i c rest
    split at h
    · split at h
      · rename_i e2 hrec
        cases h
        exact Or.inl (decodeStringLoopN_errOk rest.length rest le_rfl _ hrec)
      · cases h
    · cases h
      exact okErr_unexpected _
  · cases h
    exact okErr_unexpected _

theorem byteSeqLoopN_errOk : ∀ (n : Nat) (l : List Char), l.length ≤ n →
    ∀ e : Err, DecodeState.byteSeqLoop l = .error e → e.kind = ErrKind.syn := by
  intro n
  induction n with
  | zero =>
    intro l hl e h
    cases l with
    | nil =>
      cases h
      rfl
    | cons c rest =>
      simp only [List.length_cons] at hl
      omega
  | succ n ih =>
    intro l hl e h
    rw [DecodeState.byteSeqLoop.eq_def] at h
    split at h
    · cases h
      rfl
    · rename_i c rest
      split at h
      · cases h
      · split at h
        · split at h
          · rename_i e2 hrec
            cases h
            exact ih rest (by simp only [List.length_cons] at hl ⊢; omega) _ hrec
          · cases h
        · cases h
          exact errUnexpected_kind _

theorem decodeByteSequence_errOk {l : List Char} {e : Err}
    (h : DecodeState.decodeByteSequence l = .error e) : okErr e := by
  rw [DecodeState.decodeByteSequence.eq_def] at h
  split at h
  · rename_i rest
    split at h
    · rename_i e2 hrec
      cases h
      exact Or.inl (byteSeqLoopN_errOk rest.length rest le_rfl _ hrec)
    · split at h
      · cases h
      · cases h
        exact Or.inr (Or.inr (Or.inr rfl))
  · cases h
    exact okErr_unexpected _

theorem decodeBoolean_errOk {l : List Char} {e : Err}
    (h : DecodeState.decodeBoolean l = .error e) : okErr e := by
  rw [DecodeState.decodeBoolean.eq_def] at h
  split at h
  · rename_i rest
    split at h
    · cases h
    · cases h
    · cases h
      exact okErr_unexpected _
  · cases h
    exact okErr_unexpected _

theorem dateBody_errOk {neg : Bool} {l1 : List Char} {e : Err}
    (h : DecodeState.dateBody neg l1 = .error e) : okErr e := by
  rw [DecodeState.dateBody.eq_def] at h
  split at h
  · split at h
    · split at h
      · rename_i e2 hdl
        cases h
        have he := digitLoop_errOk _ _ _ _ hdl
        subst he
        exact Or.inl rfl
      · split at h
        · cases h
          exact okErr_unexpected _
        · cases h
    · cases h
      exact okErr_unexpected _
  · cases h
    exact okErr_unexpected _

theorem decodeDate_errOk {l : List Char} {e : Err}
    (h : DecodeState.decodeDate l = .error e) : okErr e := by
  rw [DecodeState.decodeDate.eq_def] at h
  split at h
  · split at h
    · exact dateBody_errOk h
    · exact dateBody_errOk h
  · cases h
    exact okErr_unexpected _

theorem dispLoopN_errOk : ∀ (n : Nat) (l : List Char), l.length ≤ n →
    ∀ e : Err, DecodeState.dispLoop l = .error e → e.kind = ErrKind.syn := by
  intro n
  induction n with
  | zero =>
    intro l hl e h
    cases l with
    | nil =>
      cases h
      rfl
    | cons c rest =>
      simp only [List.length_cons] at hl
      omega
  | succ n ih =>
    intro l hl e h
    rw [DecodeState.dispLoop.eq_def] at h
    split at h
    · cases h
      rfl
    · rename_i c rest
      split at h
      · cases h
        exact errUnexpected_kind _
      · split at h
        · split at h
          · rename_i h1 rest1
            split at h
            · split at h
              · rename_i h2 rest2
                split at h
                · split at h
                  · rename_i e2 hrec
                    cases h
                    exact ih rest2 (by simp only [List.length_cons] at hl ⊢; omega) _ hrec
                  · cases h
                · cases h
                  exact errUnexpected_kind _
              · cases h
                exact errUnexpected_kind _
            · cases h
              exact errUnexpected_kind _
          · cases h
            exact errUnexpected_kind _
        · split at h
          · cases h
          · split at h
            · rename_i e2 hrec
              cases h
              exact ih rest (by simp only [List.length_cons] at hl ⊢; omega) _ hrec
            · cases h

theorem decodeDisplayString_errOk {l : List Char} {e : Err}
    (h : DecodeState.decodeDisplayString l = .error e) : okErr e := by
  rw [DecodeState.decodeDisplayString.eq_def] at h
  split at h
  · rename_i rest
    split at h
    · rename_i c rest2
      split at h
      · split at h
        · rename_i e2 hrec
          cases h
          exact Or.inl (dispLoopN_errOk rest2.length rest2 le_rfl _ hrec)
        · split at h
          · cases h
          · cases h
            exact Or.inr (Or.inr (Or.inl rfl))
      · cases h
        exact okErr_unexpected _
    · cases h
      exact okErr_unexpected _
  · cases h
    exact okErr_unexpected _

theorem decodeToken_noerr {c : Char} {rest : List Char} {e : Err}
    (hc : tokenStartOk c = true)
    (h : DecodeState.decodeToken (c :: rest) = .error e) : False := by
  unfold DecodeState.decodeToken at h
  have hspan : spanP tokenTailOk (c :: rest) =
      (c :: (spanP tokenTailOk rest).1, (spanP tokenTailOk rest).2) := by
    simp [spanP, tokenStart_tail hc]
  rw [hspan] at h
  have hvalid : validToken (String.mk (c :: (spanP tokenTailOk rest).1)) = true := by
    show (tokenStartOk c && List.all (spanP tokenTailOk rest).1 tokenTailOk) = true
    simp only [Bool.and_eq_true]
    refine ⟨hc, ?_⟩
    rw [List.all_eq_true]
    intro x hx
    exact spanP_all _ _ x hx
  rw [Token.make_valid hvalid] at h
  simp at h

theorem decodeBareItem_errOk {l : List Char} {e : Err}
    (h : DecodeState.decodeBareItem l = .error e) : okErr e := by
  rw [DecodeState.decodeBareItem.eq_def] at h
  split at h
  · cases h
    exact okErr_unexpected _
  · rename_i c t
    split at h
    · exact decodeIntegerOrDecimal_errOk h
    · split at h
      · split at h
        · rename_i e1 hs
          cases h
          exact decodeString_errOk hs
        · cases h
      · split at h
        · rename_i htok
          split at h
          · rename_i e1 ht
            exact (decodeToken_noerr htok ht).elim
          · cases h
        · split at h
          · exact decodeByteSequence_errOk h
          · split at h
            · exact decodeBoolean_errOk h
            · split at h
              · exact decodeDate_errOk h
              · split at h
                · exact decodeDisplayString_errOk h
                · cases h
                  exact okErr_unexpected _

theorem decodeKey_errOk {l : List Char} {e : Err}
    (h : DecodeState.decodeKey l = .error e) : okErr e := by
  rw [DecodeState.decodeKey.eq_def] at h
  split at h
  · cases h
    exact okErr_unexpected _
  · split at h
    · cases h
    · cases h
      exact okErr_unexpected _

theorem decodeParamsLoopN_errOk : ∀ (n : Nat) (acc : Parameters) (l : List Char),
    l.length ≤ n → ∀ e : Err,
    DecodeState.decodeParamsLoop acc l = .error e → okErr e := by
  intro n
  induction n with
  | zero =>
    intro acc l hl e h
    cases l with
    | nil =>
      rw [DecodeState.decodeParamsLoop.eq_def] at h
      cases h
    | cons c rest =>
      simp only [List.length_cons] at hl
      omega
  | succ n ih =>
    intro acc l hl e h
    rw [DecodeState.decodeParamsLoop.eq_def] at h
    split at h
    · rename_i rest
      split at h
      · rename_i e1 h1
        cases h
        exact decodeKey_errOk h1
      · rename_i key r2 h1
        have hk := DecodeState.decodeKey_le h1
        have hs := DecodeState.skipSPs_le rest
        split at h
        · rename_i r3
          split at h
          · rename_i e2 h2
            cases h
            exact decodeBareItem_errOk h2
          · rename_i value r4 h2
            have hb := DecodeState.decodeBareItem_lt h2
            split at h
            · rename_i e3 hset
              cases h
              have hke := paramsSet_err hset
              subst hke
              exact Or.inr (Or.inl rfl)
            · rename_i acc2 hset
              refine ih acc2 r4 ?_ e h
              simp only [List.length_cons] at *
              omega
        · split at h
          · rename_i e3 hset
            cases h
            have hke := paramsSet_err hset
            subst hke
            exact Or.inr (Or.inl rfl)
          · rename_i acc2 hset
            refine ih acc2 _ ?_ e h
            simp only [List.length_cons] at hl
            omega
    · cases h

theorem decodeParamsLoop_errOk {acc : Parameters} {l : List Char} {e : Err}
    (h : DecodeState.decodeParamsLoop acc l = .error e) : okErr e :=
  decodeParamsLoopN_errOk l.length acc l le_rfl e h

theorem decodeItemState_errOk {l : List Char} {e : Err}
    (h : DecodeState.decodeItem l = .error e) : okErr e := by
  unfold DecodeState.decodeItem at h
  split at h
  · rename_i e1 h1
    cases h
    exact decodeBareItem_errOk h1
  · rename_i value r1 h1
    split at h
    · rename_i e2 h2
      cases h
      unfold DecodeState.decodeParameters at h2
      exact decodeParamsLoop_errOk h2
    · cases h

theorem innerListLoopN_errOk : ∀ (n : Nat) (acc : List Item) (l : List Char),
    l.length ≤ n → ∀ e : Err,
    DecodeState.innerListLoop acc l = .error e → okErr e := by
  intro n
  induction n with
  | zero =>
    intro acc l hl e h
    rw [DecodeState.innerListLoop.eq_def] at h
    split at h
    · cases h
    · split at h
      · rename_i e1 h1
        cases h
        exact decodeItemState_errOk h1
      · rename_i item r2 h1
        split at h
        · split at h
          · have hlt := DecodeState.decodeItem_lt h1
            have hsp := DecodeState.skipSPs_le l
            simp only [List.length_cons] at *
            omega
          · cases h
            exact Or.inl rfl
        · cases h
          exact Or.inl rfl
  | succ n ih =>
    intro acc l hl e h
    rw [DecodeState.innerListLoop.eq_def] at h
    split at h
    · cases h
    · split at h
      · rename_i e1 h1
        cases h
        exact decodeItemState_errOk h1
      · rename_i item r2 h1
        split at h
        · split at h
          · refine ih _ _ ?_ _ h
            have hlt := DecodeState.decodeItem_lt h1
            have hsp := DecodeState.skipSPs_le l
            simp only [List.length_cons] at *
            omega
          · cases h
            exact Or.inl rfl
        · cases h
          exact Or.inl rfl

theorem decodeInnerList_errOk {l : List Char} {e : Err}
    (h : DecodeState.decodeInnerList l = .error e) : okErr e := by
  rw [DecodeState.decodeInnerList.eq_def] at h
  split at h
  · rename_i rest
    split at h
    · rename_i e1 h1
      cases h
      exact innerListLoopN_errOk rest.length [] rest le_rfl _ h1
    · rename_i items r1 h1
      split at h
      · rename_i e2 h2
        cases h
        unfold DecodeState.decodeParameters at h2
        exact decodeParamsLoop_errOk h2
      · cases h
  · cases h
    exact okErr_unexpected _

theorem decodeItemOrInnerList_errOk {l : List Char} {e : Err}
    (h : DecodeState.decodeItemOrInnerList l = .error e) : okErr e := by
  rw [DecodeState.decodeItemOrInnerList.eq_def] at h
  split at h
  · split at h
    · rename_i e1 h1
      cases h
      exact decodeInnerList_errOk h1
    · cases h
  · split at h
    · rename_i e1 h1
      cases h
      exact decodeItemState_errOk h1
    · cases h

theorem listLoopN_errOk : ∀ (n : Nat) (acc : List Member) (l : List Char),
    l.length ≤ n → ∀ e : Err,
    DecodeState.listLoop acc l = .error e → okErr e := by
  intro n
  induction n with
  | zero =>
    intro acc l hl e h
    rw [DecodeState.listLoop.eq_def] at h
    split at h
    · rename_i e1 h1
      cases h
      exact decodeItemOrInnerList_errOk h1
    · rename_i m r1 h1
      split at h
      · cases h
      · rename_i r3 h2
        split at h
        · cases h
          exact Or.inl rfl
        · have hm := DecodeState.decodeItemOrInnerList_le h1
          have ho1 := DecodeState.skipOWS_le r1
          rw [h2] at ho1
          simp only [List.length_cons] at *
          omega
      · cases h
        exact Or.inl rfl
  | succ n ih =>
    intro acc l hl e h
    rw [DecodeState.listLoop.eq_def] at h
    split at h
    · rename_i e1 h1
      cases h
      exact decodeItemOrInnerList_errOk h1
    · rename_i m r1 h1
      split at h
      · cases h
      · rename_i r3 h2
        split at h
        · cases h
          exact Or.inl rfl
        · refine ih _ _ ?_ e h
          have hm := DecodeState.decodeItemOrInnerList_le h1
          have ho1 := DecodeState.skipOWS_le r1
          rw [h2] at ho1
          have ho3 := DecodeState.skipOWS_le r3
          simp only [List.length_cons] at *
          omega
      · cases h
        exact Or.inl rfl

theorem dictValue_errOk {r1 : List Char} {e : Err}
    (h : DecodeState.dictValue r1 = .error e) : okErr e := by
  rw [DecodeState.dictValue.eq_def] at h
  split at h
  · exact decodeItemOrInnerList_errOk h
  · split at h
    · rename_i e1 h1
      cases h
      exact decodeParamsLoop_errOk h1
    · cases h

theorem dictLoopN_errOk : ∀ (n : Nat) (acc : Dictionary) (l : List Char),
    l.length ≤ n → ∀ e : Err,
    DecodeState.dictLoop acc l = .error e → okErr e := by
  intro n
  induction n with
  | zero =>
    intro acc l hl e h
    rw [DecodeState.dictLoop.eq_def] at h
    split at h
    · rename_i e1 h1
      cases h
      exact decodeKey_errOk h1
    · rename_i key r1 h1
      split at h
      · rename_i e2 h2
        cases h
        exact dictValue_errOk h2
      · rename_i m r3 h2
        split at h
        · rename_i e3 hset
          cases h
          have hke := dictSet_err hset
          subst hke
          exact Or.inr (Or.inl rfl)
        · rename_i acc2 hset
          split at h
          · cases h
          · rename_i r5 h3
            split at h
            · cases h
              exact Or.inl rfl
            · have hk := DecodeState.decodeKey_le h1
              have hv := DecodeState.dictValue_le h2
              have ho3 := DecodeState.skipOWS_le r3
              rw [h3] at ho3
              simp only [List.length_cons] at *
              omega
          · cases h
            exact Or.inl rfl
  | succ n ih =>
    intro acc l hl e h
    rw [DecodeState.dictLoop.eq_def] at h
    split at h
    · rename_i e1 h1
      cases h
      exact decodeKey_errOk h1
    · rename_i key r1 h1
      split at h
      · rename_i e2 h2
        cases h
        exact dictValue_errOk h2
      · rename_i m r3 h2
        split at h
        · rename_i e3 hset
          cases h
          have hke := dictSet_err hset
          subst hke
          exact Or.inr (Or.inl rfl)
        · rename_i acc2 hset
          split at h
          · cases h
          · rename_i r5 h3
            split at h
            · cases h
              exact Or.inl rfl
            · refine ih _ _ ?_ e h
              have hk := DecodeState.decodeKey_le h1
              have hv := DecodeState.dictValue_le h2
              have ho3 := DecodeState.skipOWS_le r3
              rw [h3] at ho3
              have ho5 := DecodeState.skipOWS_le r5
              simp only [List.length_cons] at *
              omega
          · cases h
            exact Or.inl rfl

theorem decodeListState_errOk {l : List Char} {e : Err}
    (h : DecodeState.decodeListState l = .error e) : okErr e := by
  rw [DecodeState.decodeListState.eq_def] at h
  split at h
  · cases h
  · exact listLoopN_errOk l.length [] l le_rfl e h

theorem decodeDictionaryState_errOk {l : List Char} {e : Err}
    (h : DecodeState.decodeDictionaryState l = .error e) : okErr e := by
  rw [DecodeState.decodeDictionaryState.eq_def] at h
  split at h
  · cases h
  · exact dictLoopN_errOk l.length Dictionary.empty l le_rfl e h

/-- **C3** (amended): every failure of decodeItem, decodeList or
decodeDictionary is a SyntaxError, except for three validation error
shapes that are not grammar errors: the TypeError "key contains invalid
characters" raised by Map key validation inside set, the TypeError
"invalid utf-8" raised when a decoded display string is not valid
UTF-8, and the InvalidCharacterError raised by atob on invalid
base64. -/
theorem c3_error_taxonomy (input : List String) (e : Err)
    (h : decodeItem input = .error e ∨ decodeList input = .error e ∨
      decodeDictionary input = .error e) :
    e.kind = ErrKind.syn ∨ e = ⟨.type, "key contains invalid characters"⟩ ∨
      e = ⟨.type, "invalid utf-8"⟩ ∨ e = ⟨.invalidChar, "invalid base64"⟩ := by
  show okErr e
  rcases h with h | h | h
  · unfold decodeItem at h
    split at h
    · rename_i e1 h1
      cases h
      exact decodeItemState_errOk h1
    · split at h
      · cases h
      · cases h
        exact Or.inl rfl
  · unfold decodeList at h
    split at h
    · rename_i e1 h1
      cases h
      exact decodeListState_errOk h1
    · split at h
      · cases h
      · cases h
        exact Or.inl rfl
  · unfold decodeDictionary at h
    split at h
    · rename_i e1 h1
      cases h
      exact decodeDictionaryState_errOk h1
    · split at h
      · cases h
      · cases h
        exact Or.inl rfl

theorem dictValue_nil : DecodeState.dictValue [] =
    .ok (.item (Item.make (.bool true) Parameters.empty), []) := by
  have hp := decodeParamsLoop_stop Parameters.empty [] rfl
  simp only [DecodeState.dictValue, hp]

theorem dictLoop_A : DecodeState.dictLoop Dictionary.empty ['A'] =
    .error ⟨.type, "key contains invalid characters"⟩ := by
  have hk : DecodeState.decodeKey ['A'] = .ok ("A", []) := by decide
  rw [DecodeState.dictLoop.eq_def]
  split
  · rename_i e1 h1
    rw [hk] at h1
    cases h1
  · rename_i key r1 h1
    rw [hk] at h1
    simp only [Except.ok.injEq, Prod.mk.injEq] at h1
    obtain ⟨h1a, h1b⟩ := h1
    subst h1a
    subst h1b
    split
    · rename_i e2 h2
      rw [dictValue_nil] at h2
      cases h2
    · rename_i m r3 h2
      rw [dictValue_nil] at h2
      simp only [Except.ok.injEq, Prod.mk.injEq] at h2
      obtain ⟨h2a, h2b⟩ := h2
      subst h2a
      subst h2b
      rw [show Dictionary.empty.set "A" (.item (Item.make (.bool true) Parameters.empty)) =
        .error ⟨.type, "key contains invalid characters"⟩ from by decide]

/-- **C3** counterexample: the raw input "A" decodes a key through
decodeKey (which accepts uppercase) and then fails inside
Dictionary.set with a TypeError, not a SyntaxError, refuting the claim
that every decode failure is a syntax error. -/
theorem c3_counterexample :
    decodeDictionary ["A"] = .error ⟨.type, "key contains invalid characters"⟩ ∧
      ErrKind.type ≠ ErrKind.syn := by
  constructor
  · unfold decodeDictionary
    rw [show DecodeState.skipSPs (joinInput ["A"]) = ['A'] from by decide]
    rw [show DecodeState.decodeDictionaryState ['A'] =
      DecodeState.dictLoop Dictionary.empty ['A'] from rfl]
    rw [dictLoop_A]
  · decide

theorem c3_witness :
    decodeItem [""] = .error ⟨.syn, "unexpected end of input"⟩ ∧
      (ErrKind.syn = ErrKind.syn ∨
        (⟨.syn, "unexpected end of input"⟩ : Err) = ⟨.type, "key contains invalid characters"⟩ ∨
        (⟨.syn, "unexpected end of input"⟩ : Err) = ⟨.type, "invalid utf-8"⟩ ∨
        (⟨.syn, "unexpected end of input"⟩ : Err) = ⟨.invalidChar, "invalid base64"⟩) :=
  ⟨by decide, c3_error_taxonomy [""] ⟨.syn, "unexpected end of input"⟩ (Or.inl (by decide))⟩

/-! ### Duplicate-key handling of decodeDictionary (claim C10) -/

theorem validateKey_ok_of {key : String} (h : validKey key = true) :
    validateKey key = .ok () := by
  unfold validateKey
  rw [if_pos h]

theorem Dictionary.set_ok_inv {d d' : Dictionary} {key : String} {m : Member}
    (h : Dictionary.set d key m = .ok d') :
    validKey key = true ∧ d' = ⟨listSet d.entries key m⟩ := by
  unfold Dictionary.set validateKey at h
  by_cases hk : validKey key
  · rw [if_pos hk] at h
    cases h
    exact ⟨hk, rfl⟩
  · rw [if_neg hk] at h
    cases h

theorem dictPairsSepDone {l : List Char} {key : String} {r1 : List Char} {m : Member}
    {r3 : List Char} (accP : List (String × Member))
    (hk : DecodeState.decodeKey l = .ok (key, r1))
    (hv : DecodeState.dictValue r1 = .ok (m, r3))
    (hval : validateKey key = .ok ())
    (hows : DecodeState.skipOWS r3 = []) :
    DecodeState.dictPairsLoop accP l = .ok (accP ++ [(key, m)], []) := by
  rw [DecodeState.dictPairsLoop.eq_def]
  split
  · rename_i e h1
    rw [hk] at h1
    cases h1
  · rename_i key2 r12 h1
    rw [hk] at h1
    injection h1 with h1
    injection h1 with hkey hr
    subst hkey
    subst hr
    split
    · rename_i e h2
      rw [hv] at h2
      cases h2
    · rename_i m2 r32 h2
      rw [hv] at h2
      injection h2 with h2
      injection h2 with hm hr3
      subst hm
      subst hr3
      split
      · rename_i e h3
        rw [hval] at h3
        cases h3
      · split
        · rfl
        · rename_i r5 heq
          rw [hows] at heq
          cases heq
        · rename_i hg1 hg2
          exact (hg1 hows).elim

theorem dictPairsSepNext {l : List Char} {key : String} {r1 : List Char} {m : Member}
    {r3 : List Char} (accP : List (String × Member))
    (hk : DecodeState.decodeKey l = .ok (key, r1))
    (hv : DecodeState.dictValue r1 = .ok (m, r3))
    (hval : validateKey key = .ok ())
    {t : List Char} {c2 : Char} {t2 : List Char}
    (hows : DecodeState.skipOWS r3 = ',' :: t)
    (hows2 : DecodeState.skipOWS t = c2 :: t2) :
    DecodeState.dictPairsLoop accP l =
      DecodeState.dictPairsLoop (accP ++ [(key, m)]) (c2 :: t2) := by
  rw [DecodeState.dictPairsLoop.eq_def]
  split
  · rename_i e h1
    rw [hk] at h1
    cases h1
  · rename_i key2 r12 h1
    rw [hk] at h1
    injection h1 with h1
    injection h1 with hkey hr
    subst hkey
    subst hr
    split
    · rename_i e h2
      rw [hv] at h2
      cases h2
    · rename_i m2 r32 h2
      rw [hv] at h2
      injection h2 with h2
      injection h2 with hm hr3
      subst hm
      subst hr3
      split
      · rename_i e h3
        rw [hval] at h3
        cases h3
      · split
        · rename_i heq
          rw [hows] at heq
          cases heq
        · rename_i r5 heq
          rw [hows] at heq
          injection heq with he1 he2
          subst he2
          split
          · rename_i heq2
            rw [hows2] at heq2
            cases heq2
          · rw [hows2]
        · rename_i hg1 hg2
          exact ((hg2 t) hows).elim

/-- dictLoop is the Map-folding of the pair-collecting shadow loop:
whatever the dictionary loop accepts, the shadow loop accepts with the
same remainder, and the dictionary is the listSet-fold of the collected
pairs. -/
theorem dictLoop_to_pairsN : ∀ (n : Nat) (l : List Char), l.length ≤ n →
    ∀ (acc : Dictionary) (d : Dictionary) (r : List Char),
    DecodeState.dictLoop acc l = .ok (d, r) →
    ∀ accP : List (String × Member), ∃ qs : List (String × Member),
      DecodeState.dictPairsLoop accP l = .ok (accP ++ qs, r) ∧
      d = ⟨List.foldl (fun es p => listSet es p.1 p.2) acc.entries qs⟩ := by
  intro n
  induction n with
  | zero =>
    intro l hl acc d r h accP
    cases l with
    | nil =>
      rw [DecodeState.dictLoop.eq_def] at h
      split at h
      · cases h
      · rename_i key r1 h1
        rw [show DecodeState.decodeKey [] = .error (DecodeState.errUnexpected [])
          from rfl] at h1
        cases h1
    | cons c t =>
      simp only [List.length_cons] at hl
      omega
  | succ n ih =>
    intro l hl acc d r h accP
    rw [DecodeState.dictLoop.eq_def] at h
    split at h
    · cases h
    · rename_i key r1 h1
      split at h
      · cases h
      · rename_i m r3 h2
        split at h
        · cases h
        · rename_i acc2 h3
          obtain ⟨hvk, hacc2⟩ := Dictionary.set_ok_inv h3
          split at h
          · rename_i hso
            simp only [Except.ok.injEq, Prod.mk.injEq] at h
            obtain ⟨rfl, rfl⟩ := h
            refine ⟨[(key, m)], ?_, ?_⟩
            · exact dictPairsSepDone accP h1 h2 (validateKey_ok_of hvk) hso
            · rw [hacc2]
              rfl
          · rename_i r5 hso
            split at h
            · cases h
            · rename_i hg
              have hb : (DecodeState.skipOWS r5).length ≤ n := by
                have hk := DecodeState.decodeKey_le h1
                have hv := DecodeState.dictValue_le h2
                have ho3 := DecodeState.skipOWS_le r3
                rw [hso] at ho3
                have ho5 := DecodeState.skipOWS_le r5
                simp only [List.length_cons] at *
                omega
              obtain ⟨qs', hpairs, hd⟩ := ih _ hb acc2 d r h (accP ++ [(key, m)])
              cases hso5 : DecodeState.skipOWS r5 with
              | nil => exact (hg hso5).elim
              | cons c2 t2 =>
                rw [hso5] at hpairs
                refine ⟨(key, m) :: qs', ?_, ?_⟩
                · rw [dictPairsSepNext accP h1 h2 (validateKey_ok_of hvk) hso hso5]
                  rw [hpairs]
                  rw [List.append_assoc]
                  rfl
                · rw [hd, hacc2]
                  rfl
          · cases h

theorem decodeDictionaryState_pairs {l : List Char} {d : Dictionary} {r : List Char}
    (h : DecodeState.decodeDictionaryState l = .ok (d, r)) :
    ∃ ps : List (String × Member),
      DecodeState.decodeDictionaryPairsState l = .ok (ps, r) ∧
      d.entries = List.foldl (fun es p => listSet es p.1 p.2) [] ps := by
  cases l with
  | nil =>
    rw [DecodeState.decodeDictionaryState.eq_def] at h
    simp only [Except.ok.injEq, Prod.mk.injEq] at h
    obtain ⟨rfl, rfl⟩ := h
    exact ⟨[], rfl, rfl⟩
  | cons c t =>
    have hloop : DecodeState.dictLoop Dictionary.empty (c :: t) = .ok (d, r) := h
    obtain ⟨qs, hpairs, hd⟩ :=
      dictLoop_to_pairsN (c :: t).length (c :: t) le_rfl Dictionary.empty d r hloop []
    refine ⟨qs, ?_, ?_⟩
    · show DecodeState.dictPairsLoop [] (c :: t) = _
      rw [hpairs]
      rfl
    · rw [hd]
      rfl

theorem decodeDictionary_pairs {input : List String} {d : Dictionary}
    (h : decodeDictionary input = .ok d) :
    ∃ ps : List (String × Member),
      decodeDictionaryPairs input = .ok ps ∧
      d.entries = List.foldl (fun es p => listSet es p.1 p.2) [] ps := by
  unfold decodeDictionary at h
  split at h
  · cases h
  · rename_i dict r h1
    split at h
    · rename_i hsr
      cases h
      obtain ⟨ps, hp, hd⟩ := decodeDictionaryState_pairs h1
      refine ⟨ps, ?_, hd⟩
      unfold decodeDictionaryPairs
      rw [hp]
      simp only [hsr]
    · cases h

/-- Keys in first-occurrence order, skipping keys already seen. -/
def dedupKeys (seen : List String) : List String → List String
  | [] => []
  | k :: t => if k ∈ seen then dedupKeys seen t else k :: dedupKeys (k :: seen) t

def optOr {α : Type} : Option α → Option α → Option α
  | some a, _ => some a
  | none, b => b

/-- The value attached to the last occurrence of a key in a pair list. -/
def lastVal : List (String × Member) → String → Option Member
  | [], _ => none
  | p :: t, k => optOr (lastVal t k) (if p.1 = k then some p.2 else none)

/-- Lookup in an insertion-ordered association list (Dictionary.get /
Parameters.get). -/
def assocGet {α : Type} (es : List (String × α)) (k : String) : Option α :=
  (es.find? (fun e => e.1 = k)).map Prod.snd

theorem listSet_any_iff {α : Type} (l : List (String × α)) (k : String) :
    l.any (fun p => p.1 = k) = true ↔ k ∈ l.map Prod.fst := by
  rw [List.any_eq_true]
  constructor
  · rintro ⟨p, hp, he⟩
    simp only [decide_eq_true_eq] at he
    exact List.mem_map.mpr ⟨p, hp, he⟩
  · intro h
    obtain ⟨p, hp, he⟩ := List.mem_map.mp h
    exact ⟨p, hp, by simp [he]⟩

theorem map_update_fst {α : Type} (l : List (String × α)) (k : String) (v : α) :
    (l.map (fun p => if p.1 = k then (k, v) else p)).map Prod.fst =
      l.map Prod.fst := by
  induction l with
  | nil => rfl
  | cons p t ih =>
    simp only [List.map_cons, ih]
    by_cases hp : p.1 = k
    · simp [hp]
    · simp [hp]

theorem listSet_keys {α : Type} (l : List (String × α)) (k : String) (v : α) :
    (listSet l k v).map Prod.fst =
      if k ∈ l.map Prod.fst then l.map Prod.fst else l.map Prod.fst ++ [k] := by
  unfold listSet
  by_cases h : k ∈ l.map Prod.fst
  · rw [if_pos ((listSet_any_iff l k).mpr h), if_pos h, map_update_fst]
  · rw [if_neg (fun hc => h ((listSet_any_iff l k).mp hc)), if_neg h]
    simp

theorem foldl_listSet_keys : ∀ (ps : List (String × Member))
    (es : List (String × Member)) (seen : List String),
    (∀ k : String, k ∈ seen ↔ k ∈ es.map Prod.fst) →
    (List.foldl (fun es p => listSet es p.1 p.2) es ps).map Prod.fst =
      es.map Prod.fst ++ dedupKeys seen (ps.map Prod.fst) := by
  intro ps
  induction ps with
  | nil =>
    intro es seen hseen
    simp [dedupKeys]
  | cons p t ih =>
    intro es seen hseen
    simp only [List.foldl_cons, List.map_cons, dedupKeys]
    by_cases hmem : p.1 ∈ seen
    · rw [if_pos hmem]
      have hmem' : p.1 ∈ es.map Prod.fst := (hseen p.1).mp hmem
      rw [ih (listSet es p.1 p.2) seen ?_]
      · rw [listSet_keys, if_pos hmem']
      · intro k
        rw [listSet_keys, if_pos hmem']
        exact hseen k
    · rw [if_neg hmem]
      have hmem' : p.1 ∉ es.map Prod.fst := fun hc => hmem ((hseen p.1).mpr hc)
      rw [ih (listSet es p.1 p.2) (p.1 :: seen) ?_]
      · rw [listSet_keys, if_neg hmem']
        simp
      · intro k
        rw [listSet_keys, if_neg hmem']
        simp only [List.mem_cons, List.mem_append, List.mem_singleton]
        rw [hseen k]
        tauto

theorem map_update_absent {α : Type} : ∀ (es : List (String × α)) (key : String)
    (v : α), key ∉ es.map Prod.fst →
    es.map (fun p => if p.1 = key then (key, v) else p) = es := by
  intro es key v h
  induction es with
  | nil => rfl
  | cons p t ih =>
    simp only [List.map_cons, List.mem_cons] at h ⊢
    have hp : ¬ p.1 = key := fun hc => h (Or.inl hc.symm)
    rw [if_neg hp, ih (fun hc => h (Or.inr hc))]

theorem assocGet_update_present {α : Type} : ∀ (es : List (String × α))
    (key k : String) (v : α), key ∈ es.map Prod.fst →
    assocGet (es.map (fun p => if p.1 = key then (key, v) else p)) k =
      if key = k then some v else assocGet es k := by
  intro es
  induction es with
  | nil =>
    intro key k v hmem
    simp at hmem
  | cons p t ih =>
    intro key k v hmem
    simp only [List.map_cons]
    by_cases hp : p.1 = key
    · rw [if_pos hp]
      by_cases hk : key = k
      · rw [if_pos hk]
        unfold assocGet
        rw [List.find?_cons_of_pos _ (by simp [hk])]
        rfl
      · rw [if_neg hk]
        unfold assocGet
        rw [List.find?_cons_of_neg _ (by simp [hk]),
          List.find?_cons_of_neg _ (by simp [hp, hk])]
        by_cases hmemt : key ∈ t.map Prod.fst
        · have := ih key k v hmemt
          unfold assocGet at this
          rw [this, if_neg hk]
        · rw [map_update_absent t key v hmemt]
    · rw [if_neg hp]
      have hmemt : key ∈ t.map Prod.fst := by
        simp only [List.map_cons, List.mem_cons] at hmem
        rcases hmem with h | h
        · exact absurd h.symm hp
        · exact h
      by_cases hpk : p.1 = k
      · have hknek : ¬ key = k := fun hc => hp (hpk.trans hc.symm)
        rw [if_neg hknek]
        unfold assocGet
        rw [List.find?_cons_of_pos _ (by simp [hpk]),
          List.find?_cons_of_pos _ (by simp [hpk])]
      · unfold assocGet
        rw [List.find?_cons_of_neg _ (by simp [hpk]),
          List.find?_cons_of_neg _ (by simp [hpk])]
        have := ih key k v hmemt
        unfold assocGet at this
        rw [this]

theorem assocGet_append_single {α : Type} : ∀ (es : List (String × α))
    (key k : String) (v : α), key ∉ es.map Prod.fst →
    assocGet (es ++ [(key, v)]) k = if key = k then some v else assocGet es k := by
  intro es
  induction es with
  | nil =>
    intro key k v hmem
    by_cases hk : key = k
    · unfold assocGet
      rw [List.nil_append, List.find?_cons_of_pos _ (by simp [hk]), if_pos hk]
      rfl
    · unfold assocGet
      rw [List.nil_append, List.find?_cons_of_neg _ (by simp [hk]), if_neg hk]
  | cons p t ih =>
    intro key k v hmem
    simp only [List.map_cons, List.mem_cons] at hmem
    have hp : ¬ p.1 = key := fun hc => hmem (Or.inl hc.symm)
    by_cases hpk : p.1 = k
    · have hknek : ¬ key = k := fun hc => hp (hpk.trans hc.symm)
      rw [if_neg hknek]
      unfold assocGet
      rw [List.cons_append, List.find?_cons_of_pos _ (by simp [hpk]),
        List.find?_cons_of_pos _ (by simp [hpk])]
    · unfold assocGet
      rw [List.cons_append, List.find?_cons_of_neg _ (by simp [hpk]),
        List.find?_cons_of_neg _ (by simp [hpk])]
      have := ih key k v (fun hc => hmem (Or.inr hc))
      unfold assocGet at this
      rw [this]

theorem listSet_get {α : Type} (es : List (String × α)) (key k : String) (v : α) :
    assocGet (listSet es key v) k = if key = k then some v else assocGet es k := by
  unfold listSet
  by_cases hmem : key ∈ es.map Prod.fst
  · rw [if_pos ((listSet_any_iff es key).mpr hmem)]
    exact assocGet_update_present es key k v hmem
  · rw [if_neg (fun hc => hmem ((listSet_any_iff es key).mp hc))]
    exact assocGet_append_single es key k v hmem

theorem foldl_listSet_get : ∀ (ps : List (String × Member))
    (es : List (String × Member)) (k : String),
    assocGet (List.foldl (fun es p => listSet es p.1 p.2) es ps) k =
      optOr (lastVal ps k) (assocGet es k) := by
  intro ps
  induction ps with
  | nil =>
    intro es k
    rfl
  | cons p t ih =>
    intro es k
    simp only [List.foldl_cons, lastVal]
    rw [ih (listSet es p.1 p.2) k, listSet_get]
    cases lastVal t k with
    | some m => rfl
    | none =>
      by_cases hpk : p.1 = k
      · simp [optOr, hpk]
      · simp [optOr, hpk]

theorem dedupKeys_nodup : ∀ (l : List String) (seen : List String),
    (dedupKeys seen l).Nodup ∧ ∀ k ∈ dedupKeys seen l, k ∉ seen := by
  intro l
  induction l with
  | nil =>
    intro seen
    simp [dedupKeys]
  | cons a t ih =>
    intro seen
    by_cases ha : a ∈ seen
    · simp only [dedupKeys, if_pos ha]
      exact (ih seen)
    · simp only [dedupKeys, if_neg ha]
      obtain ⟨hnd, hout⟩ := ih (a :: seen)
      refine ⟨List.nodup_cons.mpr ⟨?_, hnd⟩, ?_⟩
      · intro hc
        exact (hout a hc) (List.mem_cons_self _ _)
      · intro k hk
        rcases List.mem_cons.mp hk with rfl | hk2
        · exact ha
        · intro hc
          exact (hout k hk2) (List.mem_cons_of_mem _ hc)

theorem decodeItemOrInnerList_item {c : Char} {t r : List Char} {it : Item}
    (hc : ¬ c = '(') (h : DecodeState.decodeItem (c :: t) = .ok (it, r)) :
    DecodeState.decodeItemOrInnerList (c :: t) = .ok (.item it, r) := by
  rw [DecodeState.decodeItemOrInnerList.eq_def]
  split
  · rename_i t2 heq
    injection heq with h1 h2
    exact absurd h1 hc
  · rw [h]

theorem dictValue_eqArm (r2 : List Char) :
    DecodeState.dictValue ('=' :: r2) = DecodeState.decodeItemOrInnerList r2 := rfl

/-- Full evaluation of decodeDictionary on "a=1, b=2, a=3": the
duplicated key "a" keeps its first position and takes its last value. -/
theorem decodeDictionary_abc :
    decodeDictionary ["a=1, b=2, a=3"] =
      .ok ⟨[("a", Member.item (Item.make (.int ⟨3⟩) Parameters.empty)),
            ("b", Member.item (Item.make (.int ⟨2⟩) Parameters.empty))]⟩ := by
  have hi1 : DecodeState.decodeItem ['1', ',', ' ', 'b', '=', '2', ',', ' ', 'a', '=', '3'] =
      .ok (Item.make (.int ⟨1⟩) Parameters.empty,
        [',', ' ', 'b', '=', '2', ',', ' ', 'a', '=', '3']) :=
    decodeItem_eval (by decide) (by decide)
  have hv1 : DecodeState.dictValue ['=', '1', ',', ' ', 'b', '=', '2', ',', ' ', 'a', '=', '3'] =
      .ok (.item (Item.make (.int ⟨1⟩) Parameters.empty),
        [',', ' ', 'b', '=', '2', ',', ' ', 'a', '=', '3']) := by
    rw [dictValue_eqArm]
    exact decodeItemOrInnerList_item (by decide) hi1
  have hi2 : DecodeState.decodeItem ['2', ',', ' ', 'a', '=', '3'] =
      .ok (Item.make (.int ⟨2⟩) Parameters.empty, [',', ' ', 'a', '=', '3']) :=
    decodeItem_eval (by decide) (by decide)
  have hv2 : DecodeState.dictValue ['=', '2', ',', ' ', 'a', '=', '3'] =
      .ok (.item (Item.make (.int ⟨2⟩) Parameters.empty), [',', ' ', 'a', '=', '3']) := by
    rw [dictValue_eqArm]
    exact decodeItemOrInnerList_item (by decide) hi2
  have hi3 : DecodeState.decodeItem ['3'] =
      .ok (Item.make (.int ⟨3⟩) Parameters.empty, []) :=
    decodeItem_eval (by decide) (by decide)
  have hv3 : DecodeState.dictValue ['=', '3'] =
      .ok (.item (Item.make (.int ⟨3⟩) Parameters.empty), []) := by
    rw [dictValue_eqArm]
    exact decodeItemOrInnerList_item (by decide) hi3
  have hk1 : DecodeState.decodeKey
      ['a', '=', '1', ',', ' ', 'b', '=', '2', ',', ' ', 'a', '=', '3'] =
      .ok ("a", ['=', '1', ',', ' ', 'b', '=', '2', ',', ' ', 'a', '=', '3']) := by decide
  have hs1 : Dictionary.empty.set "a"
      (Member.item (Item.make (.int ⟨1⟩) Parameters.empty)) =
      .ok ⟨[("a", Member.item (Item.make (.int ⟨1⟩) Parameters.empty))]⟩ := by decide
  have ho1 : DecodeState.skipOWS [',', ' ', 'b', '=', '2', ',', ' ', 'a', '=', '3'] =
      ',' :: [' ', 'b', '=', '2', ',', ' ', 'a', '=', '3'] := by decide
  have ho1b : DecodeState.skipOWS [' ', 'b', '=', '2', ',', ' ', 'a', '=', '3'] =
      'b' :: ['=', '2', ',', ' ', 'a', '=', '3'] := by decide
  have hstep1 : DecodeState.dictLoop Dictionary.empty
      ['a', '=', '1', ',', ' ', 'b', '=', '2', ',', ' ', 'a', '=', '3'] =
      DecodeState.dictLoop ⟨[("a", Member.item (Item.make (.int ⟨1⟩) Parameters.empty))]⟩
        ('b' :: ['=', '2', ',', ' ', 'a', '=', '3']) :=
    dictLoopSepNext hk1 hv1 hs1 ho1 ho1b
  have hk2 : DecodeState.decodeKey ('b' :: ['=', '2', ',', ' ', 'a', '=', '3']) =
      .ok ("b", ['=', '2', ',', ' ', 'a', '=', '3']) := by decide
  have hs2 : Dictionary.set ⟨[("a", Member.item (Item.make (.int ⟨1⟩) Parameters.empty))]⟩ "b"
      (Member.item (Item.make (.int ⟨2⟩) Parameters.empty)) =
      .ok ⟨[("a", Member.item (Item.make (.int ⟨1⟩) Parameters.empty)),
            ("b", Member.item (Item.make (.int ⟨2⟩) Parameters.empty))]⟩ := by decide
  have ho2 : DecodeState.skipOWS [',', ' ', 'a', '=', '3'] =
      ',' :: [' ', 'a', '=', '3'] := by decide
  have ho2b : DecodeState.skipOWS [' ', 'a', '=', '3'] = 'a' :: ['=', '3'] := by decide
  have hstep2 : DecodeState.dictLoop
      ⟨[("a", Member.item (Item.make (.int ⟨1⟩) Parameters.empty))]⟩
      ('b' :: ['=', '2', ',', ' ', 'a', '=', '3']) =
      DecodeState.dictLoop
        ⟨[("a", Member.item (Item.make (.int ⟨1⟩) Parameters.empty)),
          ("b", Member.item (Item.make (.int ⟨2⟩) Parameters.empty))]⟩
        ('a' :: ['=', '3']) :=
    dictLoopSepNext hk2 hv2 hs2 ho2 ho2b
  have hk3 : DecodeState.decodeKey ('a' :: ['=', '3']) = .ok ("a", ['=', '3']) := by decide
  have hs3 : Dictionary.set
      ⟨[("a", Member.item (Item.make (.int ⟨1⟩) Parameters.empty)),
        ("b", Member.item (Item.make (.int ⟨2⟩) Parameters.empty))]⟩ "a"
      (Member.item (Item.make (.int ⟨3⟩) Parameters.empty)) =
      .ok ⟨[("a", Member.item (Item.make (.int ⟨3⟩) Parameters.empty)),
            ("b", Member.item (Item.make (.int ⟨2⟩) Parameters.empty))]⟩ := by decide
  have ho3 : DecodeState.skipOWS ([] : List Char) = [] := by decide
  have hstep3 : DecodeState.dictLoop
      ⟨[("a", Member.item (Item.make (.int ⟨1⟩) Parameters.empty)),
        ("b", Member.item (Item.make (.int ⟨2⟩) Parameters.empty))]⟩
      ('a' :: ['=', '3']) =
      .ok (⟨[("a", Member.item (Item.make (.int ⟨3⟩) Parameters.empty)),
             ("b", Member.item (Item.make (.int ⟨2⟩) Parameters.empty))]⟩, []) :=
    dictLoopSepDone hk3 hv3 hs3 ho3
  unfold decodeDictionary
  rw [show DecodeState.skipSPs (joinInput ["a=1, b=2, a=3"]) =
    ['a', '=', '1', ',', ' ', 'b', '=', '2', ',', ' ', 'a', '=', '3'] from by decide]
  rw [show DecodeState.decodeDictionaryState
      ['a', '=', '1', ',', ' ', 'b', '=', '2', ',', ' ', 'a', '=', '3'] =
    DecodeState.dictLoop Dictionary.empty
      ['a', '=', '1', ',', ' ', 'b', '=', '2', ',', ' ', 'a', '=', '3'] from rfl]
  rw [hstep1, hstep2, hstep3]
  rfl

/-- **C10**: whenever decode-dictionary accepts a raw input, the
resulting Dictionary is the JS-Map left fold of the (key, member)
pairs in input order (collected by the shadow parser
decodeDictionaryPairs): its key sequence is the input key sequence
deduplicated to first occurrences — so a key occurring several times
yields exactly one entry, positioned where the key first occurred —
the keys are pairwise distinct, and looking up any key returns the
value attached to the key's last occurrence in the input. -/
theorem c10_duplicate_keys (input : List String) (d : Dictionary)
    (hd : decodeDictionary input = .ok d) :
    ∃ ps : List (String × Member),
      decodeDictionaryPairs input = .ok ps ∧
      d.entries.map Prod.fst = dedupKeys [] (ps.map Prod.fst) ∧
      (d.entries.map Prod.fst).Nodup ∧
      ∀ k : String, d.get k = lastVal ps k := by
  obtain ⟨ps, hp, he⟩ := decodeDictionary_pairs hd
  have hkeys : d.entries.map Prod.fst = dedupKeys [] (ps.map Prod.fst) := by
    rw [he]
    have hk := foldl_listSet_keys ps [] [] (by simp)
    simpa using hk
  refine ⟨ps, hp, hkeys, ?_, ?_⟩
  · rw [hkeys]
    exact (dedupKeys_nodup (ps.map Prod.fst) []).1
  · intro k
    show assocGet d.entries k = lastVal ps k
    rw [he, foldl_listSet_get]
    cases lastVal ps k with
    | some m => rfl
    | none => rfl

theorem c10_witness :
    decodeDictionary ["a=1, b=2, a=3"] =
      .ok ⟨[("a", Member.item (Item.make (.int ⟨3⟩) Parameters.empty)),
            ("b", Member.item (Item.make (.int ⟨2⟩) Parameters.empty))]⟩ ∧
    ∃ ps : List (String × Member),
      decodeDictionaryPairs ["a=1, b=2, a=3"] = .ok ps ∧
      (⟨[("a", Member.item (Item.make (.int ⟨3⟩) Parameters.empty)),
         ("b", Member.item (Item.make (.int ⟨2⟩) Parameters.empty))]⟩ :
        Dictionary).entries.map Prod.fst = dedupKeys [] (ps.map Prod.fst) ∧
      ((⟨[("a", Member.item (Item.make (.int ⟨3⟩) Parameters.empty)),
          ("b", Member.item (Item.make (.int ⟨2⟩) Parameters.empty))]⟩ :
        Dictionary).entries.map Prod.fst).Nodup ∧
      ∀ k : String,
        (⟨[("a", Member.item (Item.make (.int ⟨3⟩) Parameters.empty)),
           ("b", Member.item (Item.make (.int ⟨2⟩) Parameters.empty))]⟩ :
          Dictionary).get k = lastVal ps k :=
  ⟨decodeDictionary_abc, c10_duplicate_keys ["a=1, b=2, a=3"] _ decodeDictionary_abc⟩

/-! ### Round-trip infrastructure (claim C2) -/

theorem digitChar_isDigit : ∀ m : Nat, m < 10 → isDigit (digitChar m) = true := by
  decide

theorem digitVal_digitChar : ∀ m : Nat, m < 10 → digitVal (digitChar m) = m := by
  decide

theorem natDigits_ne_nil (n : Nat) : natDigits n ≠ [] := by
  rw [natDigits_eq]
  split
  · simp
  · simp

theorem natDigits_digits (n : Nat) : ∀ c ∈ natDigits n, isDigit c = true := by
  induction n using Nat.strong_induction_on with
  | _ n ih =>
    rw [natDigits_eq]
    split
    · rename_i h10
      intro c hc
      rcases List.mem_singleton.mp hc with rfl
      exact digitChar_isDigit n h10
    · rename_i h10
      intro c hc
      rcases List.mem_append.mp hc with hc | hc
      · exact ih (n / 10) (Nat.div_lt_self (by omega) (by omega)) c hc
      · rcases List.mem_singleton.mp hc with rfl
        exact digitChar_isDigit _ (Nat.mod_lt _ (by omega))

theorem natDigits_len : ∀ (k n : Nat), n < 10 ^ k → 1 ≤ k →
    (natDigits n).length ≤ k := by
  intro k
  induction k with
  | zero =>
    intro n h h1
    omega
  | succ k ih =>
    intro n h h1
    rw [natDigits_eq]
    split
    · simp
    · rename_i h10
      rw [List.length_append, List.length_singleton]
      have hk1 : 1 ≤ k := by
        rcases Nat.eq_zero_or_pos k with rfl | hpos
        · exfalso
          have h' : n < 10 := by simpa using h
          omega
        · omega
      have hd : n / 10 < 10 ^ k := by
        rw [Nat.div_lt_iff_lt_mul (by omega)]
        calc n < 10 ^ (k + 1) := h
          _ = 10 ^ k * 10 := by ring
      have := ih (n / 10) hd hk1
      omega

theorem valDigitsFrom_append (a : Nat) (l1 l2 : List Char) :
    valDigitsFrom a (l1 ++ l2) = valDigitsFrom (valDigitsFrom a l1) l2 := by
  unfold valDigitsFrom
  rw [List.foldl_append]

theorem valDigits_natDigits (n : Nat) : valDigits (natDigits n) = n := by
  induction n using Nat.strong_induction_on with
  | _ n ih =>
    rw [natDigits_eq]
    split
    · rename_i h10
      rw [valDigits_one]
      exact digitVal_digitChar n h10
    · rename_i h10
      unfold valDigits
      rw [valDigitsFrom_append]
      have h1 : valDigitsFrom 0 (natDigits (n / 10)) = n / 10 :=
        ih (n / 10) (Nat.div_lt_self (by omega) (by omega))
      rw [h1]
      show (n / 10) * 10 + digitVal (digitChar (n % 10)) = n
      rw [digitVal_digitChar _ (Nat.mod_lt _ (by omega))]
      omega

theorem skipSPs_cons_ne {c : Char} {t : List Char} (h : ¬ c = ' ') :
    DecodeState.skipSPs (c :: t) = c :: t := by
  simp [DecodeState.skipSPs, h]

theorem joinInput_single (s : String) : joinInput [s] = s.data := rfl

theorem decodeBareItem_num {c : Char} {t : List Char}
    (hc : (c = '-' || isDigit c) = true) :
    DecodeState.decodeBareItem (c :: t) = DecodeState.decodeIntegerOrDecimal (c :: t) := by
  simp only [DecodeState.decodeBareItem]
  rw [if_pos hc]

theorem decodeBareItem_quote (t : List Char) :
    DecodeState.decodeBareItem (quoteChar :: t) =
      match DecodeState.decodeString (quoteChar :: t) with
      | .error e => .error e
      | .ok (s, r) => .ok (.str s, r) := by
  simp only [DecodeState.decodeBareItem]
  rw [if_neg (by decide), if_pos (by decide)]

theorem decodeBareItem_token {c : Char} {t : List Char}
    (hc : tokenStartOk c = true) (hd : ¬ (c = '-' || isDigit c) = true) :
    DecodeState.decodeBareItem (c :: t) =
      match DecodeState.decodeToken (c :: t) with
      | .error e => .error e
      | .ok (tk, r) => .ok (.tok tk, r) := by
  have hq : ¬ c = quoteChar := by
    intro h
    subst h
    revert hc
    decide
  simp only [DecodeState.decodeBareItem]
  rw [if_neg hd, if_neg hq, if_pos hc]

theorem decodeBareItem_colon (t : List Char) :
    DecodeState.decodeBareItem (':' :: t) = DecodeState.decodeByteSequence (':' :: t) := by
  simp only [DecodeState.decodeBareItem]
  rw [if_neg (by decide), if_neg (by decide), if_neg (by decide), if_pos (by decide)]

theorem decodeBareItem_question (t : List Char) :
    DecodeState.decodeBareItem ('?' :: t) = DecodeState.decodeBoolean ('?' :: t) := by
  simp only [DecodeState.decodeBareItem]
  rw [if_neg (by decide), if_neg (by decide), if_neg (by decide), if_neg (by decide),
    if_pos (by decide)]

theorem decodeBareItem_at (t : List Char) :
    DecodeState.decodeBareItem ('@' :: t) = DecodeState.decodeDate ('@' :: t) := by
  simp only [DecodeState.decodeBareItem]
  rw [if_neg (by decide), if_neg (by decide), if_neg (by decide), if_neg (by decide),
    if_neg (by decide), if_pos (by decide)]

theorem spanP_full (p : Char → Bool) :
    ∀ l : List Char, (∀ c ∈ l, p c = true) → spanP p l = (l, []) := by
  intro l
  induction l with
  | nil => intro h; rfl
  | cons c t ih =>
    intro h
    have hc := h c (List.mem_cons_self _ _)
    simp only [spanP, hc, if_true, ih (fun x hx => h x (List.mem_cons_of_mem _ hx))]

theorem encodeItem_empty_params {v : BareItem} {bs : String}
    (h : encodeBareItem v = .ok bs) :
    encodeItem (Item.make v Parameters.empty) = .ok bs := by
  unfold encodeItem Item.toStr
  simp only [Item.make]
  rw [h, okBind]
  rw [show Parameters.toStr Parameters.empty = .ok "" from rfl, okBind]
  simp

theorem decodeItem_single {s : String} {c : Char} {t : List Char} {v : BareItem}
    (hs : s.data = c :: t) (hsp : ¬ c = ' ')
    (hb : DecodeState.decodeBareItem (c :: t) = .ok (v, [])) :
    decodeItem [s] = .ok (Item.make v Parameters.empty) := by
  apply decodeItemTop_eval
  rw [joinInput_single, hs, skipSPs_cons_ne hsp]
  exact decodeItem_eval hb rfl

theorem decodeIntegerOrDecimal_int (neg : Bool) (ds : List Char)
    (hd : ∀ c ∈ ds, isDigit c = true) (hne : ds ≠ []) (hlen : ds.length ≤ 15) :
    DecodeState.decodeIntegerOrDecimal (signChars neg ++ ds) =
      .ok (.int ⟨if neg then -(valDigits ds : Int) else (valDigits ds : Int)⟩, []) := by
  have h1 := decodeSign_spec neg ds [] hne hd
  rw [List.append_nil] at h1
  have h2 := digitLoop_spec' ds [] hd rfl hlen
  rw [List.append_nil] at h2
  rw [decodeIntegerOrDecimal_eval h1 h2]
  exact afterDigits_int neg _ _ [] rfl (valDigits_le_max hd hlen)

theorem decodeIntegerOrDecimal_dec (neg : Bool) (ds fs : List Char)
    (hd : ∀ c ∈ ds, isDigit c = true) (hne : ds ≠ []) (hlen : ds.length ≤ 12)
    (hfd : ∀ c ∈ fs, isDigit c = true) (hf1 : 1 ≤ fs.length) (hf3 : fs.length ≤ 3) :
    DecodeState.decodeIntegerOrDecimal (signChars neg ++ (ds ++ '.' :: fs)) =
      .ok (.dec ⟨(if neg then -1 else 1) *
        ((valDigits ds : Int) * 1000 +
          (valDigits fs : Int) * ((10 ^ (3 - fs.length) : Nat) : Int))⟩, []) := by
  have hnum : valDigits ds ≤ 999999999999 := valDigits_le_dec hd hlen
  have h1 := decodeSign_spec neg ds ('.' :: fs) hne hd
  have h2 := digitLoop_spec' ds ('.' :: fs) hd rfl (by omega)
  rw [decodeIntegerOrDecimal_eval h1 h2]
  rw [afterDigits_dot neg _ _ fs (by omega)]
  cases fs with
  | nil => simp at hf1
  | cons c1 fs1 =>
    have h1d : isDigit c1 = true := hfd c1 (by simp)
    cases fs1 with
    | nil =>
      rw [decodeFrac_one neg _ c1 [] h1d rfl]
      rw [finishDec_spec neg _ (digitVal c1) 10 100 (Or.inl ⟨rfl, rfl⟩) hnum
        (by have := digitVal_le h1d; omega) []]
      simp only [valDigits_one, List.length_cons, List.length_nil]
      norm_num
    | cons c2 fs2 =>
      have h2d : isDigit c2 = true := hfd c2 (by simp)
      cases fs2 with
      | nil =>
        rw [decodeFrac_two neg _ c1 c2 [] h1d h2d rfl]
        rw [finishDec_spec neg _ (digitVal c1 * 10 + digitVal c2) 100 10
          (Or.inr (Or.inl ⟨rfl, rfl⟩)) hnum
          (by have := digitVal_le h1d; have := digitVal_le h2d; omega) []]
        simp only [valDigits_two, List.length_cons, List.length_nil]
        norm_num
      | cons c3 fs3 =>
        have h3d : isDigit c3 = true := hfd c3 (by simp)
        cases fs3 with
        | nil =>
          rw [decodeFrac_three neg _ c1 c2 c3 [] h1d h2d h3d rfl]
          rw [finishDec_spec neg _
            ((digitVal c1 * 10 + digitVal c2) * 10 + digitVal c3) 1000 1
            (Or.inr (Or.inr ⟨rfl, rfl⟩)) hnum
            (by have := digitVal_le h1d; have := digitVal_le h2d;
                have := digitVal_le h3d; omega) []]
          simp only [valDigits_three, List.length_cons, List.length_nil]
          norm_num
        | cons c4 fs4 =>
          simp only [List.length_cons, List.length_nil] at hf3
          omega

theorem digit_ne_space {c : Char} (hc : isDigit c = true) : ¬ c = ' ' := by
  intro h
  rw [h] at hc
  exact absurd hc (by decide)

theorem roundtrip_int (x : Int) (hlo : -999999999999999 ≤ x)
    (hhi : x ≤ 999999999999999) :
    decodeItem [intToString x] = .ok (Item.make (.int ⟨x⟩) Parameters.empty) := by
  have hd := natDigits_digits x.natAbs
  have hne := natDigits_ne_nil x.natAbs
  have hna : x.natAbs ≤ 999999999999999 := by omega
  have hlen : (natDigits x.natAbs).length ≤ 15 :=
    natDigits_len 15 x.natAbs
      (by calc x.natAbs ≤ 999999999999999 := hna
            _ < 10 ^ 15 := by norm_num) (by omega)
  obtain ⟨c, t, hct⟩ : ∃ c t, natDigits x.natAbs = c :: t := by
    cases hnd : natDigits x.natAbs with
    | nil => exact absurd hnd hne
    | cons c t => exact ⟨c, t, rfl⟩
  have hc : isDigit c = true := by
    rw [hct] at hd
    exact hd c (List.mem_cons_self _ _)
  by_cases hxneg : x < 0
  · have hstr : (intToString x).data = '-' :: natDigits x.natAbs := by
      unfold intToString natToString
      rw [if_pos hxneg, String.data_append]
      rfl
    apply decodeItem_single hstr (by decide)
    rw [decodeBareItem_num (by decide)]
    rw [show ('-' :: natDigits x.natAbs) = signChars true ++ natDigits x.natAbs from rfl]
    rw [decodeIntegerOrDecimal_int true (natDigits x.natAbs) hd hne hlen]
    rw [valDigits_natDigits]
    have hxx : (if true = true then -((x.natAbs : ℕ) : Int) else ((x.natAbs : ℕ) : Int)) = x := by
      rw [if_pos rfl]
      omega
    rw [hxx]
  · have hstr : (intToString x).data = natDigits x.natAbs := by
      unfold intToString natToString
      rw [if_neg hxneg]
    rw [hct] at hstr
    apply decodeItem_single hstr (digit_ne_space hc)
    rw [decodeBareItem_num (by simp [hc])]
    rw [← hct]
    rw [show natDigits x.natAbs = signChars false ++ natDigits x.natAbs from rfl]
    rw [decodeIntegerOrDecimal_int false (natDigits x.natAbs) hd hne hlen]
    rw [valDigits_natDigits]
    have hxx : (if false = true then -((x.natAbs : ℕ) : Int) else ((x.natAbs : ℕ) : Int)) = x := by
      rw [if_neg (by simp)]
      omega
    rw [hxx]

theorem dateBody_spec (neg : Bool) (ds : List Char)
    (hd : ∀ c ∈ ds, isDigit c = true) (hne : ds ≠ []) (hlen : ds.length ≤ 15) :
    DecodeState.dateBody neg ds =
      .ok (.date ((if neg then -(valDigits ds : Int) else (valDigits ds : Int)) * 1000),
        []) := by
  have h2 := digitLoop_spec' ds [] hd rfl hlen
  rw [List.append_nil] at h2
  cases ds with
  | nil => exact absurd rfl hne
  | cons c t =>
    have hc : isDigit c = true := hd c (List.mem_cons_self _ _)
    simp only [DecodeState.dateBody, hc, if_true, h2]

theorem decodeDate_neg (r : List Char) :
    DecodeState.decodeDate ('@' :: '-' :: r) = DecodeState.dateBody true r := rfl

theorem decodeDate_posHead {c : Char} (t : List Char) (hc : ¬ c = '-') :
    DecodeState.decodeDate ('@' :: c :: t) = DecodeState.dateBody false (c :: t) := by
  rw [DecodeState.decodeDate.eq_def]
  split
  · rename_i heq2
    injection heq2 with h1 h2
    rw [← h2]
    split
    · rename_i r heq3
      injection heq3 with h3a h3b
      exact absurd h3a hc
    · rfl
  · rename_i hg
    exact (hg (c :: t) rfl).elim

theorem roundtrip_date (ms : Int) (hdiv : ms % 1000 = 0)
    (hlo : -8640000000000000 ≤ ms) (hhi : ms ≤ 8640000000000000) :
    decodeItem ["@" ++ intToString (Int.fdiv ms 1000)] =
      .ok (Item.make (.date ms) Parameters.empty) := by
  obtain ⟨q, rfl⟩ : ∃ q : Int, ms = 1000 * q := ⟨ms / 1000, by omega⟩
  rw [show Int.fdiv (1000 * q) 1000 = q from Int.mul_fdiv_cancel_left q (by norm_num)]
  have hd := natDigits_digits q.natAbs
  have hne := natDigits_ne_nil q.natAbs
  have hna : q.natAbs ≤ 8640000000000 := by omega
  have hlen : (natDigits q.natAbs).length ≤ 15 :=
    natDigits_len 15 q.natAbs
      (by calc q.natAbs ≤ 8640000000000 := hna
            _ < 10 ^ 15 := by norm_num) (by omega)
  obtain ⟨c, t, hct⟩ : ∃ c t, natDigits q.natAbs = c :: t := by
    cases hnd : natDigits q.natAbs with
    | nil => exact absurd hnd hne
    | cons c t => exact ⟨c, t, rfl⟩
  have hc : isDigit c = true := by
    rw [hct] at hd
    exact hd c (List.mem_cons_self _ _)
  rw [hct] at hd hne hlen
  by_cases hqneg : q < 0
  · have hstr : ("@" ++ intToString q).data = '@' :: '-' :: (c :: t) := by
      rw [String.data_append]
      unfold intToString natToString
      rw [if_pos hqneg, String.data_append, ← hct]
      rfl
    apply decodeItem_single hstr (by decide)
    rw [decodeBareItem_at, decodeDate_neg]
    rw [dateBody_spec true (c :: t) hd hne hlen]
    rw [← hct, valDigits_natDigits]
    rw [show (if true = true then -((q.natAbs : ℕ) : Int) else ((q.natAbs : ℕ) : Int)) *
      1000 = 1000 * q from by rw [if_pos rfl]; omega]
  · have hstr : ("@" ++ intToString q).data = '@' :: (c :: t) := by
      rw [String.data_append]
      unfold intToString natToString
      rw [if_neg hqneg, ← hct]
      rfl
    apply decodeItem_single hstr (by decide)
    rw [decodeBareItem_at, decodeDate_posHead t (digit_ne_minus hc)]
    rw [dateBody_spec false (c :: t) hd hne hlen]
    rw [← hct, valDigits_natDigits]
    rw [show (if false = true then -((q.natAbs : ℕ) : Int) else ((q.natAbs : ℕ) : Int)) *
      1000 = 1000 * q from by rw [if_neg (by simp)]; omega]

theorem tokenStart_not_num {c : Char} (h : tokenStartOk c = true) :
    ¬ (c = '-' || isDigit c) = true := by
  intro hor
  simp only [Bool.or_eq_true, decide_eq_true_eq] at hor
  rcases hor with hm | hdg
  · subst hm
    exact absurd h (by decide)
  · simp only [tokenStartOk, isAlphaCh, isLowerCh, isUpperCh, Bool.or_eq_true,
      Bool.and_eq_true, decide_eq_true_eq] at h
    simp only [isDigit, Bool.and_eq_true, decide_eq_true_eq] at hdg
    rcases h with (h1 | h1) | h1
    · omega
    · omega
    · subst h1
      exact absurd hdg (by decide)

theorem roundtrip_tok (tv : String) (hv : validToken tv = true) :
    decodeItem [tv] = .ok (Item.make (.tok ⟨tv⟩) Parameters.empty) := by
  obtain ⟨c, rest, hd2⟩ : ∃ c rest, tv.data = c :: rest := by
    cases hvd : tv.data with
    | nil =>
      unfold validToken at hv
      rw [hvd] at hv
      simp at hv
    | cons c rest => exact ⟨c, rest, rfl⟩
  have hv2 : (tokenStartOk c && rest.all tokenTailOk) = true := by
    unfold validToken at hv
    rw [hd2] at hv
    exact hv
  simp only [Bool.and_eq_true] at hv2
  obtain ⟨hstart, htail⟩ := hv2
  have hall : ∀ x ∈ c :: rest, tokenTailOk x = true := by
    intro x hx
    rcases List.mem_cons.mp hx with rfl | hx2
    · exact tokenStart_tail hstart
    · exact (List.all_eq_true.mp htail) x hx2
  have hb : DecodeState.decodeToken (c :: rest) = .ok (⟨tv⟩, []) := by
    unfold DecodeState.decodeToken
    rw [spanP_full tokenTailOk (c :: rest) hall]
    rw [show String.mk (c :: rest) = tv from by rw [← hd2]]
    rw [Token.make_valid hv]
  apply decodeItem_single hd2 ?_
  · rw [decodeBareItem_token hstart (tokenStart_not_num hstart), hb]
  · intro h
    rw [h] at hstart
    exact absurd hstart (by decide)

theorem roundtrip_bool (b : Bool) :
    decodeItem [if b then "?1" else "?0"] =
      .ok (Item.make (.bool b) Parameters.empty) := by
  cases b with
  | false =>
    exact @decodeItem_single (if false then "?1" else "?0") '?' ['0'] (.bool false)
      (by decide) (by decide) (by decide)
  | true =>
    exact @decodeItem_single (if true then "?1" else "?0") '?' ['1'] (.bool true)
      (by decide) (by decide) (by decide)


theorem decodeStringLoop_esc {c : Char} {t : List Char}
    (he : c = backslashChar ∨ c = quoteChar) :
    DecodeState.decodeStringLoop (backslashChar :: c :: t) =
      match DecodeState.decodeStringLoop t with
      | .error e => .error e
      | .ok (s, r) => .ok (c :: s, r) := by
  simp only [DecodeState.decodeStringLoop]
  rw [if_pos he]
  rw [if_pos trivial]

theorem decodeStringLoop_plain {c : Char} {t : List Char}
    (hnb : ¬ c = backslashChar) (hnq : ¬ c = quoteChar)
    (hpr : isPrintable c = true) :
    DecodeState.decodeStringLoop (c :: t) =
      match DecodeState.decodeStringLoop t with
      | .error e => .error e
      | .ok (s, r) => .ok (c :: s, r) := by
  rw [DecodeState.decodeStringLoop.eq_def]
  split
  · rename_i heq
    cases heq
  · rename_i c2 rest2 heq
    injection heq with h1 h2
    subst h1
    subst h2
    rw [if_neg hnb, if_neg hnq, if_pos hpr]

theorem escape_loop (l : List Char) (hp : ∀ c ∈ l, isPrintable c = true) :
    DecodeState.decodeStringLoop (escapeStringChars l ++ [quoteChar]) = .ok (l, []) := by
  induction l with
  | nil =>
    show DecodeState.decodeStringLoop [quoteChar] = .ok ([], [])
    decide
  | cons c rest ih =>
    have hc := hp c (List.mem_cons_self _ _)
    have ih2 := ih (fun x hx => hp x (List.mem_cons_of_mem _ hx))
    by_cases he : c = backslashChar ∨ c = quoteChar
    · show DecodeState.decodeStringLoop
        (((if c = backslashChar ∨ c = quoteChar then [backslashChar, c] else [c]) ++
          escapeStringChars rest) ++ [quoteChar]) = _
      rw [if_pos he]
      rw [show (([backslashChar, c] ++ escapeStringChars rest) ++ [quoteChar]) =
        backslashChar :: c :: (escapeStringChars rest ++ [quoteChar]) from by simp]
      rw [decodeStringLoop_esc he, ih2]
    · obtain ⟨hnb, hnq⟩ := not_or.mp he
      show DecodeState.decodeStringLoop
        (((if c = backslashChar ∨ c = quoteChar then [backslashChar, c] else [c]) ++
          escapeStringChars rest) ++ [quoteChar]) = _
      rw [if_neg he]
      rw [show ((([c] : List Char) ++ escapeStringChars rest) ++ [quoteChar]) =
        c :: (escapeStringChars rest ++ [quoteChar]) from by simp]
      rw [decodeStringLoop_plain hnb hnq hc, ih2]

theorem roundtrip_str (s : String) (hv : validString s = true) :
    decodeItem [String.mk (quoteChar :: (escapeStringChars s.data ++ [quoteChar]))] =
      .ok (Item.make (.str s) Parameters.empty) := by
  have hp : ∀ c ∈ s.data, isPrintable c = true := by
    unfold validString at hv
    exact List.all_eq_true.mp hv
  have hloop := escape_loop s.data hp
  have hb : DecodeState.decodeBareItem
      (quoteChar :: (escapeStringChars s.data ++ [quoteChar])) = .ok (.str s, []) := by
    rw [decodeBareItem_quote]
    simp only [DecodeState.decodeString]
    rw [if_pos trivial, hloop]
  exact decodeItem_single rfl (by decide) hb

/-- The unpadded part of btoa. -/
def b64core : List Nat → List Char
  | [] => []
  | [a] => [b64Char (a / 4), b64Char (a % 4 * 16)]
  | [a, b] => [b64Char (a / 4), b64Char (a % 4 * 16 + b / 16), b64Char (b % 16 * 4)]
  | a :: b :: c :: rest =>
      b64Char (a / 4) :: b64Char (a % 4 * 16 + b / 16) ::
        b64Char (b % 16 * 4 + c / 64) :: b64Char (c % 64) :: b64core rest

/-- The padding btoa appends. -/
def b64pad : List Nat → List Char
  | [] => []
  | [_] => ['=', '=']
  | [_, _] => ['=']
  | _ :: _ :: _ :: rest => b64pad rest

/-- The 6-bit groups encoded by btoa. -/
def b64vals : List Nat → List Nat
  | [] => []
  | [a] => [a / 4, a % 4 * 16]
  | [a, b] => [a / 4, a % 4 * 16 + b / 16, b % 16 * 4]
  | a :: b :: c :: rest =>
      (a / 4) :: (a % 4 * 16 + b / 16) :: (b % 16 * 4 + c / 64) :: (c % 64) ::
        b64vals rest

theorem btoa_decomp : ∀ bs, btoa bs = b64core bs ++ b64pad bs := by
  intro bs
  induction bs using btoa.induct with
  | case1 => rfl
  | case2 a => rfl
  | case3 a b => rfl
  | case4 a b c rest ih => simp [btoa, b64core, b64pad, ih]

theorem btoa_len4 : ∀ bs, (btoa bs).length % 4 = 0 := by
  intro bs
  induction bs using btoa.induct with
  | case1 => rfl
  | case2 a => simp [btoa]
  | case3 a b => simp [btoa]
  | case4 a b c rest ih => simp [btoa, Nat.add_mod, ih]

theorem b64Val_b64Char : ∀ n, n < 64 → b64Val (b64Char n) = some n := by decide

theorem b64core_vals : ∀ bs, (∀ x ∈ bs, x < 256) →
    List.mapM b64Val (b64core bs) = some (b64vals bs) := by
  intro bs
  induction bs using b64core.induct with
  | case1 => intro h; rfl
  | case2 a =>
    intro h
    have ha : a < 256 := h a (by simp)
    simp only [b64core, b64vals]
    rw [List.mapM_cons, List.mapM_cons, List.mapM_nil]
    simp [b64Val_b64Char (a / 4) (by omega), b64Val_b64Char (a % 4 * 16) (by omega)]
  | case3 a b =>
    intro h
    have ha : a < 256 := h a (by simp)
    have hb : b < 256 := h b (by simp)
    simp only [b64core, b64vals]
    rw [List.mapM_cons, List.mapM_cons, List.mapM_cons, List.mapM_nil]
    simp [b64Val_b64Char (a / 4) (by omega),
      b64Val_b64Char (a % 4 * 16 + b / 16) (by omega),
      b64Val_b64Char (b % 16 * 4) (by omega)]
  | case4 a b c rest ih =>
    intro h
    have ha : a < 256 := h a (by simp)
    have hb : b < 256 := h b (by simp)
    have hc : c < 256 := h c (by simp)
    have ih2 := ih (fun x hx => h x (by simp [hx]))
    simp only [b64core, b64vals]
    rw [List.mapM_cons, List.mapM_cons, List.mapM_cons, List.mapM_cons, ih2]
    simp [b64Val_b64Char (a / 4) (by omega),
      b64Val_b64Char (a % 4 * 16 + b / 16) (by omega),
      b64Val_b64Char (b % 16 * 4 + c / 64) (by omega),
      b64Val_b64Char (c % 64) (by omega)]

theorem joinGroups_vals : ∀ bs, (∀ x ∈ bs, x < 256) →
    joinGroups (b64vals bs) = some bs := by
  intro bs
  induction bs using b64vals.induct with
  | case1 => intro h; rfl
  | case2 a =>
    intro h
    have ha : a < 256 := h a (by simp)
    simp [b64vals, joinGroups]
    omega
  | case3 a b =>
    intro h
    have ha : a < 256 := h a (by simp)
    have hb : b < 256 := h b (by simp)
    simp [b64vals, joinGroups]
    omega
  | case4 a b c rest ih =>
    intro h
    have ha : a < 256 := h a (by simp)
    have hb : b < 256 := h b (by simp)
    have hc : c < 256 := h c (by simp)
    have ih2 := ih (fun x hx => h x (by simp [hx]))
    simp [b64vals, joinGroups, ih2]
    omega

theorem b64Char_ne_eq (n : Nat) : ¬ b64Char n = '=' := by
  by_cases h : n < 64
  · have hall : ∀ m, m < 64 → ¬ b64Char m = '=' := by decide
    exact hall n h
  · unfold b64Char
    rw [List.getD_eq_default _ _ (by
      have hlen : b64Chars.length = 64 := by decide
      omega)]
    decide

theorem b64core_no_eq : ∀ bs, ∀ ch ∈ b64core bs, ¬ ch = '=' := by
  intro bs
  induction bs using b64core.induct with
  | case1 =>
    intro ch hch
    simp [b64core] at hch
  | case2 a =>
    intro ch hch
    simp only [b64core, List.mem_cons, List.not_mem_nil, or_false] at hch
    rcases hch with rfl | rfl <;> exact b64Char_ne_eq _
  | case3 a b =>
    intro ch hch
    simp only [b64core, List.mem_cons, List.not_mem_nil, or_false] at hch
    rcases hch with rfl | rfl | rfl <;> exact b64Char_ne_eq _
  | case4 a b c rest ih =>
    intro ch hch
    simp only [b64core, List.mem_cons] at hch
    rcases hch with rfl | rfl | rfl | rfl | hch
    · exact b64Char_ne_eq _
    · exact b64Char_ne_eq _
    · exact b64Char_ne_eq _
    · exact b64Char_ne_eq _
    · exact ih ch hch

theorem b64pad_cases : ∀ bs, b64pad bs = [] ∨ b64pad bs = ['='] ∨
    b64pad bs = ['=', '='] := by
  intro bs
  induction bs using b64pad.induct with
  | case1 => exact Or.inl rfl
  | case2 a => exact Or.inr (Or.inr rfl)
  | case3 a b => exact Or.inr (Or.inl rfl)
  | case4 a b c rest ih => simpa [b64pad] using ih

theorem dropEq2_no_eq {l : List Char} (h : ∀ c ∈ l, ¬ c = '=') : dropEq2 l = l := by
  unfold dropEq2
  split
  · rename_i t heq
    have hm : '=' ∈ l := by
      rw [← List.mem_reverse, heq]
      simp
    exact absurd rfl (h '=' hm)
  · rename_i t heq
    have hm : '=' ∈ l := by
      rw [← List.mem_reverse, heq]
      simp
    exact absurd rfl (h '=' hm)
  · rfl

theorem dropEq2_append_two (l : List Char) : dropEq2 (l ++ ['=', '=']) = l := by
  unfold dropEq2
  rw [show (l ++ ['=', '=']).reverse = '=' :: '=' :: l.reverse from by simp]
  simp

theorem dropEq2_append_one (l : List Char) (h : ∀ c ∈ l, ¬ c = '=') :
    dropEq2 (l ++ ['=']) = l := by
  unfold dropEq2
  rw [show (l ++ ['=']).reverse = '=' :: l.reverse from by simp]
  cases hlr : l.reverse with
  | nil =>
    have hl : l = [] := by
      have := congrArg List.reverse hlr
      simpa using this
    subst hl
    rfl
  | cons c2 t2 =>
    have hc2 : ¬ c2 = '=' := by
      apply h
      rw [← List.mem_reverse, hlr]
      simp
    split
    · rename_i t heq
      injection heq with h1 h2
      injection h2 with h2a h2b
      exact absurd h2a hc2
    · rename_i t heq
      injection heq with h1 h2
      rw [← h2, ← hlr]
      simp
    · rename_i hg1 hg2
      exact (hg2 (c2 :: t2) rfl).elim

theorem dropEq2_btoa (bs : List Nat) : dropEq2 (btoa bs) = b64core bs := by
  rw [btoa_decomp]
  rcases b64pad_cases bs with hp | hp | hp <;> rw [hp]
  · rw [List.append_nil]
    exact dropEq2_no_eq (b64core_no_eq bs)
  · exact dropEq2_append_one _ (b64core_no_eq bs)
  · exact dropEq2_append_two _

theorem atob_btoa (bs : List Nat) (h : ∀ x ∈ bs, x < 256) :
    atob (btoa bs) = some bs := by
  unfold atob
  rw [if_pos (btoa_len4 bs)]
  rw [dropEq2_btoa]
  have hm := b64core_vals bs h
  simp only [hm, Option.some_bind]
  exact joinGroups_vals bs h

theorem b64Char_classOk (n : Nat) :
    (isAlphaCh (b64Char n) || isDigit (b64Char n) || b64Char n = '+' ||
      b64Char n = '/' || b64Char n = '=') = true ∧ ¬ b64Char n = ':' := by
  by_cases h : n < 64
  · have hall : ∀ m, m < 64 →
        (isAlphaCh (b64Char m) || isDigit (b64Char m) || b64Char m = '+' ||
          b64Char m = '/' || b64Char m = '=') = true ∧ ¬ b64Char m = ':' := by decide
    exact hall n h
  · unfold b64Char
    rw [List.getD_eq_default _ _ (by
      have hlen : b64Chars.length = 64 := by decide
      omega)]
    exact ⟨by decide, by decide⟩

theorem eq_classOk :
    (isAlphaCh '=' || isDigit '=' || '=' = '+' || '=' = '/' || ('=' : Char) = '=') = true ∧
      ¬ ('=' : Char) = ':' := by decide

theorem btoa_chars_ok : ∀ bs, ∀ c ∈ btoa bs,
    (isAlphaCh c || isDigit c || c = '+' || c = '/' || c = '=') = true ∧ ¬ c = ':' := by
  intro bs
  induction bs using btoa.induct with
  | case1 =>
    intro c hc
    simp [btoa] at hc
  | case2 a =>
    intro c hc
    simp only [btoa, List.mem_cons, List.not_mem_nil, or_false] at hc
    rcases hc with rfl | rfl | rfl | rfl
    · exact b64Char_classOk _
    · exact b64Char_classOk _
    · exact eq_classOk
    · exact eq_classOk
  | case3 a b =>
    intro c hc
    simp only [btoa, List.mem_cons, List.not_mem_nil, or_false] at hc
    rcases hc with rfl | rfl | rfl | rfl
    · exact b64Char_classOk _
    · exact b64Char_classOk _
    · exact b64Char_classOk _
    · exact eq_classOk
  | case4 a b c2 rest ih =>
    intro c hc
    simp only [btoa, List.mem_cons] at hc
    rcases hc with rfl | rfl | rfl | rfl | hc
    · exact b64Char_classOk _
    · exact b64Char_classOk _
    · exact b64Char_classOk _
    · exact b64Char_classOk _
    · exact ih c hc

theorem byteSeqLoop_spec : ∀ l : List Char,
    (∀ c ∈ l, (isAlphaCh c || isDigit c || c = '+' || c = '/' || c = '=') = true ∧
      ¬ c = ':') →
    DecodeState.byteSeqLoop (l ++ [':']) = .ok (l, []) := by
  intro l
  induction l with
  | nil =>
    intro h
    decide
  | cons c t ih =>
    intro h
    obtain ⟨hok, hnc⟩ := h c (List.mem_cons_self _ _)
    have ih2 := ih (fun x hx => h x (List.mem_cons_of_mem _ hx))
    simp only [List.cons_append, DecodeState.byteSeqLoop, List.append_eq]
    rw [if_neg hnc, if_pos hok, ih2]

theorem roundtrip_bytes (b : List Nat) (h : ∀ x ∈ b, x < 256) :
    decodeItem [String.mk (':' :: (btoa b ++ [':']))] =
      .ok (Item.make (.bytes b) Parameters.empty) := by
  have hb : DecodeState.decodeBareItem (':' :: (btoa b ++ [':'])) =
      .ok (.bytes b, []) := by
    rw [decodeBareItem_colon]
    rw [show DecodeState.decodeByteSequence (':' :: (btoa b ++ [':'])) =
      (match DecodeState.byteSeqLoop (btoa b ++ [':']) with
       | .error e => .error e
       | .ok (cs, r) =>
         match atob cs with
         | some bs2 => .ok (.bytes bs2, r)
         | none => .error ⟨.invalidChar, "invalid base64"⟩) from rfl]
    rw [byteSeqLoop_spec (btoa b) (btoa_chars_ok b)]
    simp only [atob_btoa b h]
  exact decodeItem_single rfl (by decide) hb

theorem fracDigits_eq (f : Nat) :
    Decimal.fracDigits f =
      if f % 100 = 0 then [digitChar (f / 100)]
      else if f % 100 % 10 = 0 then [digitChar (f / 100), digitChar (f % 100 / 10)]
      else [digitChar (f / 100), digitChar (f % 100 / 10), digitChar (f % 100 % 10)] :=
  rfl

theorem fracDigits_spec (f : Nat) (hf : f < 1000) :
    (∀ c ∈ Decimal.fracDigits f, isDigit c = true) ∧
    1 ≤ (Decimal.fracDigits f).length ∧ (Decimal.fracDigits f).length ≤ 3 ∧
    valDigits (Decimal.fracDigits f) * 10 ^ (3 - (Decimal.fracDigits f).length) = f := by
  rw [fracDigits_eq]
  by_cases h1 : f % 100 = 0
  · rw [if_pos h1]
    refine ⟨?_, by simp, by simp, ?_⟩
    · intro c hc
      rcases List.mem_singleton.mp hc with rfl
      exact digitChar_isDigit _ (by omega)
    · rw [valDigits_one, digitVal_digitChar _ (by omega)]
      simp only [List.length_cons, List.length_nil]
      norm_num
      omega
  · rw [if_neg h1]
    by_cases h2 : f % 100 % 10 = 0
    · rw [if_pos h2]
      refine ⟨?_, by simp, by simp, ?_⟩
      · intro c hc
        simp only [List.mem_cons, List.not_mem_nil, or_false] at hc
        rcases hc with rfl | rfl
        · exact digitChar_isDigit _ (by omega)
        · exact digitChar_isDigit _ (by omega)
      · rw [valDigits_two, digitVal_digitChar _ (by omega),
          digitVal_digitChar _ (by omega)]
        simp only [List.length_cons, List.length_nil]
        norm_num
        omega
    · rw [if_neg h2]
      refine ⟨?_, by simp, by simp, ?_⟩
      · intro c hc
        simp only [List.mem_cons, List.not_mem_nil, or_false] at hc
        rcases hc with rfl | rfl | rfl
        · exact digitChar_isDigit _ (by omega)
        · exact digitChar_isDigit _ (by omega)
        · exact digitChar_isDigit _ (by omega)
      · rw [valDigits_three, digitVal_digitChar _ (by omega),
          digitVal_digitChar _ (by omega), digitVal_digitChar _ (by omega)]
        simp only [List.length_cons, List.length_nil]
        norm_num
        omega

theorem roundtrip_dec (x : Int) (hlo : -999999999999999 ≤ x)
    (hhi : x ≤ 999999999999999) :
    decodeItem [Decimal.str ⟨x⟩] = .ok (Item.make (.dec ⟨x⟩) Parameters.empty) := by
  have hfb : x.natAbs % 1000 < 1000 := Nat.mod_lt _ (by omega)
  obtain ⟨hfdig, hf1, hf3, hfval⟩ := fracDigits_spec (x.natAbs % 1000) hfb
  have hd := natDigits_digits (x.natAbs / 1000)
  have hne := natDigits_ne_nil (x.natAbs / 1000)
  have hna : x.natAbs / 1000 ≤ 999999999999 := by omega
  have hlen : (natDigits (x.natAbs / 1000)).length ≤ 12 :=
    natDigits_len 12 (x.natAbs / 1000)
      (by calc x.natAbs / 1000 ≤ 999999999999 := hna
            _ < 10 ^ 12 := by norm_num) (by omega)
  have hvnat : x.natAbs / 1000 * 1000 +
      valDigits (Decimal.fracDigits (x.natAbs % 1000)) *
        10 ^ (3 - (Decimal.fracDigits (x.natAbs % 1000)).length) = x.natAbs := by
    rw [hfval]
    omega
  have hvint : ((x.natAbs / 1000 : ℕ) : Int) * 1000 +
      ((valDigits (Decimal.fracDigits (x.natAbs % 1000)) : ℕ) : Int) *
        (((10 ^ (3 - (Decimal.fracDigits (x.natAbs % 1000)).length) : ℕ)) : Int) =
      ((x.natAbs : ℕ) : Int) := by
    exact_mod_cast hvnat
  by_cases hxneg : x < 0
  · have hstr : (Decimal.str ⟨x⟩).data =
        '-' :: (natDigits (x.natAbs / 1000) ++
          '.' :: Decimal.fracDigits (x.natAbs % 1000)) := by
      unfold Decimal.str natToString
      rw [if_pos hxneg]
      rw [String.data_append, String.data_append, String.data_append]
      simp
    apply decodeItem_single hstr (by decide)
    rw [decodeBareItem_num (by decide)]
    rw [show ('-' :: (natDigits (x.natAbs / 1000) ++
        '.' :: Decimal.fracDigits (x.natAbs % 1000))) =
      signChars true ++ (natDigits (x.natAbs / 1000) ++
        '.' :: Decimal.fracDigits (x.natAbs % 1000)) from rfl]
    rw [decodeIntegerOrDecimal_dec true _ _ hd hne hlen hfdig hf1 hf3]
    rw [valDigits_natDigits, hvint]
    rw [show (if (true : Bool) = true then (-1 : Int) else 1) * ((x.natAbs : ℕ) : Int) =
      x from by rw [if_pos rfl]; omega]
  · obtain ⟨c, t, hct⟩ : ∃ c t, natDigits (x.natAbs / 1000) = c :: t := by
      cases hnd : natDigits (x.natAbs / 1000) with
      | nil => exact absurd hnd hne
      | cons c t => exact ⟨c, t, rfl⟩
    have hc : isDigit c = true := by
      rw [hct] at hd
      exact hd c (List.mem_cons_self _ _)
    have hstr : (Decimal.str ⟨x⟩).data =
        c :: (t ++ '.' :: Decimal.fracDigits (x.natAbs % 1000)) := by
      unfold Decimal.str natToString
      rw [if_neg hxneg]
      rw [String.data_append, String.data_append, String.data_append, hct]
      simp
    apply decodeItem_single hstr (digit_ne_space hc)
    rw [decodeBareItem_num (by simp [hc])]
    rw [show (c :: (t ++ '.' :: Decimal.fracDigits (x.natAbs % 1000))) =
      (c :: t) ++ '.' :: Decimal.fracDigits (x.natAbs % 1000) from rfl]
    rw [← hct]
    rw [show (natDigits (x.natAbs / 1000) ++
        '.' :: Decimal.fracDigits (x.natAbs % 1000)) =
      signChars false ++ (natDigits (x.natAbs / 1000) ++
        '.' :: Decimal.fracDigits (x.natAbs % 1000)) from rfl]
    rw [decodeIntegerOrDecimal_dec false _ _ hd hne hlen hfdig hf1 hf3]
    rw [valDigits_natDigits, hvint]
    rw [show (if (false : Bool) = true then (-1 : Int) else 1) * ((x.natAbs : ℕ) : Int) =
      x from by rw [if_neg (by simp)]; omega]

/-- The bare items actually accepted by the constructors (and, for
Date, representable without loss: whole seconds within the JS Date
range).  DisplayString is excluded: its encoding always throws (the
missing encodeBareItem branch, claim C1). -/
def EncodableItem : BareItem → Prop
  | .int i => -999999999999999 ≤ i.val ∧ i.val ≤ 999999999999999
  | .dec d => -999999999999999 ≤ d.i ∧ d.i ≤ 999999999999999
  | .str s => validString s = true
  | .tok t => validToken t.val = true
  | .bytes b => ∀ x ∈ b, x < 256
  | .bool _ => True
  | .date ms => ms % 1000 = 0 ∧ -8640000000000000 ≤ ms ∧ ms ≤ 8640000000000000
  | .disp _ => False

/-- **C2** counterexample: Item(Date(999 ms)) encodes to "@0" (seconds
truncation via Math.floor) and decodes back to Date(0 ms), so for
sub-second Dates the decoded model value differs from the original. -/
theorem c2_counterexample :
    encodeItem (Item.make (.date 999) Parameters.empty) = .ok "@0" ∧
    decodeItem ["@0"] = .ok (Item.make (.date 0) Parameters.empty) ∧
    (999 : Int) ≠ 0 := by
  refine ⟨by decide, ?_, by decide⟩
  apply decodeItemTop_eval
  rw [show DecodeState.skipSPs (joinInput ["@0"]) = ['@', '0'] from by decide]
  exact decodeItem_eval (by decide) (by decide)

/-- **C2** (amended): the item round trip decode(encode(Item(v))) = Item(v)
holds for every bare item value accepted by a constructor except
DisplayString (whose encoding always throws, claim C1) and sub-second
Dates (which truncate to whole seconds): Integers and Decimals in
range, valid Strings and Tokens, byte sequences, booleans, and Dates
holding whole seconds inside the JS Date range. -/
theorem c2_roundtrip (v : BareItem) (hv : EncodableItem v) :
    ∃ s : String, encodeItem (Item.make v Parameters.empty) = .ok s ∧
      decodeItem [s] = .ok (Item.make v Parameters.empty) := by
  cases v with
  | int i =>
    obtain ⟨xv⟩ := i
    have hv' : -999999999999999 ≤ xv ∧ xv ≤ 999999999999999 := hv
    exact ⟨intToString xv, encodeItem_empty_params rfl,
      roundtrip_int xv hv'.1 hv'.2⟩
  | dec d =>
    obtain ⟨xv⟩ := d
    have hv' : -999999999999999 ≤ xv ∧ xv ≤ 999999999999999 := hv
    exact ⟨Decimal.str ⟨xv⟩, encodeItem_empty_params rfl,
      roundtrip_dec xv hv'.1 hv'.2⟩
  | str s =>
    have hv' : validString s = true := hv
    refine ⟨String.mk (quoteChar :: (escapeStringChars s.data ++ [quoteChar])),
      encodeItem_empty_params ?_, roundtrip_str s hv'⟩
    simp only [encodeBareItem]
    unfold validateString
    rw [if_pos hv']
    rfl
  | tok t =>
    obtain ⟨tv⟩ := t
    have hv' : validToken tv = true := hv
    exact ⟨tv, encodeItem_empty_params rfl, roundtrip_tok tv hv'⟩
  | bytes b =>
    have hv' : ∀ x ∈ b, x < 256 := hv
    exact ⟨String.mk (':' :: (btoa b ++ [':'])), encodeItem_empty_params rfl,
      roundtrip_bytes b hv'⟩
  | bool b =>
    exact ⟨if b then "?1" else "?0", encodeItem_empty_params rfl, roundtrip_bool b⟩
  | date ms =>
    have hv' : ms % 1000 = 0 ∧ -8640000000000000 ≤ ms ∧ ms ≤ 8640000000000000 := hv
    exact ⟨"@" ++ intToString (Int.fdiv ms 1000), encodeItem_empty_params rfl,
      roundtrip_date ms hv'.1 hv'.2.1 hv'.2.2⟩
  | disp s =>
    exact (hv : False).elim

theorem c2_witness :
    EncodableItem (.bool true) ∧
    ∃ s : String, encodeItem (Item.make (.bool true) Parameters.empty) = .ok s ∧
      decodeItem [s] = .ok (Item.make (.bool true) Parameters.empty) :=
  ⟨trivial, c2_roundtrip (.bool true) trivial⟩
